import Mathlib

/-!
Formal model of the postmates prometheus_client_python multiprocess core:
`prometheus_client/mmap_dict.py` (an mmap-backed dict of doubles) and
`prometheus_client/multiprocess.py` (the merge engine), shallowly embedded
in Lean 4.

Modelling conventions:
* IEEE-754 doubles are modelled by `PFloat` (a rational, `+Inf`, or `-Inf`);
  rounding of arithmetic is not modelled (no claim depends on it), and metric
  values / timestamps handled by the store API are modelled as rationals.
* The mmapped byte array is modelled as `Nat → Cell`, where a `Cell` is one
  byte of the file: a byte of a packed little-endian int32, a raw string
  byte, a byte of a packed (value, timestamp) double pair, or an
  uninitialized zero byte.  Packed doubles are kept abstract (16 cells
  tagged with the pair they encode) since no claim inspects their bit
  pattern; int32 and UTF-8 string bytes keep their sizes and positions
  exactly as in the file format.
* Python dicts are modelled as insertion-ordered association lists
  (lookup of the first occurrence; update in place; insert appends).
* `json.dumps(..., sort_keys=True)` and `json.loads` are modelled by an
  executable serializer/parser for the exact shape of key the code emits,
  `[metric_name, sample_name, {label: value, ...}]`, with Python's
  `ensure_ascii` string escaping.
-/

namespace Prom

/-- Model of an IEEE-754 double: a finite value (as a rational), `+Inf` or
`-Inf`.  NaN never arises in the modelled code paths. -/
inductive PFloat where
  | ninf : PFloat
  | fin (q : ℚ) : PFloat
  | inf : PFloat
deriving DecidableEq

/-- Order on `PFloat`: `-Inf` least, `+Inf` greatest, finite values ordered
as rationals (Python float comparison). -/
def PFloat.le : PFloat → PFloat → Prop
  | .ninf, _ => True
  | .fin _, .ninf => False
  | .fin q, .fin r => q ≤ r
  | .fin _, .inf => True
  | .inf, .inf => True
  | .inf, _ => False

instance : DecidableRel PFloat.le := by
  intro a b
  cases a <;> cases b <;> simp [PFloat.le] <;> infer_instance

theorem PFloat.leTotal (a b : PFloat) : PFloat.le a b ∨ PFloat.le b a := by
  cases a <;> cases b <;> simp [PFloat.le]
  exact Rat.le_total

theorem PFloat.leTrans {a b c : PFloat} (h₁ : PFloat.le a b) (h₂ : PFloat.le b c) :
    PFloat.le a c := by
  cases a <;> cases b <;> cases c <;> simp_all [PFloat.le]
  exact h₁.trans h₂

theorem PFloat.leAntisymm {a b : PFloat} (h₁ : PFloat.le a b) (h₂ : PFloat.le b a) :
    a = b := by
  cases a <;> cases b <;> simp_all [PFloat.le]
  exact h₁.antisymm h₂

instance : IsTotal PFloat PFloat.le := ⟨PFloat.leTotal⟩
instance : IsTrans PFloat PFloat.le := ⟨fun _ _ _ => PFloat.leTrans⟩
instance : IsAntisymm PFloat PFloat.le := ⟨fun _ _ => PFloat.leAntisymm⟩

/-! ### Insertion-ordered association lists (Python dict model) -/

section AList

variable {α β : Type} [DecidableEq α]

/-- Lookup in an insertion-ordered association list (first occurrence). -/
def alGet : List (α × β) → α → Option β
  | [], _ => none
  | (k, v) :: rest, key => if k = key then some v else alGet rest key

/-- Lookup with a default. -/
def alGetD (l : List (α × β)) (key : α) (d : β) : β := (alGet l key).getD d

/-- Python dict assignment: update the value at the first occurrence of the
key in place, else append the binding at the end. -/
def alSet : List (α × β) → α → β → List (α × β)
  | [], key, v => [(key, v)]
  | (k, w) :: rest, key, v =>
      if k = key then (k, v) :: rest else (k, w) :: alSet rest key v

/-- Python dict deletion of a key (removes the first occurrence, if any). -/
def alDel : List (α × β) → α → List (α × β)
  | [], _ => []
  | (k, w) :: rest, key => if k = key then rest else (k, w) :: alDel rest key

/-- Python `dict(pairs)`: fold the pairs into a dict (later duplicate keys
overwrite earlier values in place). -/
def pyDict (l : List (α × β)) : List (α × β) :=
  l.foldl (fun d p => alSet d p.1 p.2) []

theorem alGet_alSet_self (l : List (α × β)) (k : α) (v : β) :
    alGet (alSet l k v) k = some v := by
  induction l with
  | nil => simp [alSet, alGet]
  | cons p rest ih =>
    obtain ⟨a, b⟩ := p
    by_cases h : a = k <;> simp [alSet, alGet, h, ih]

theorem alGet_alSet_ne (l : List (α × β)) (k k' : α) (v : β) (h : k ≠ k') :
    alGet (alSet l k v) k' = alGet l k' := by
  induction l with
  | nil => simp [alSet, alGet, h]
  | cons p rest ih =>
    obtain ⟨a, b⟩ := p
    by_cases ha : a = k
    · subst ha
      simp [alSet, alGet, h, ih]
    · simp [alSet, alGet, ha, ih]

/-- Keys of an association list. -/
def alKeys (l : List (α × β)) : List α := l.map Prod.fst

theorem alKeys_alSet (l : List (α × β)) (k : α) (v : β) :
    alKeys (alSet l k v) = if k ∈ alKeys l then alKeys l else alKeys l ++ [k] := by
  induction l with
  | nil => simp [alSet, alKeys]
  | cons p rest ih =>
    obtain ⟨a, b⟩ := p
    by_cases h : a = k
    · subst h
      simp [alSet, alKeys]
    · have hne : ¬ k = a := fun hk => h hk.symm
      by_cases hmem : k ∈ alKeys rest
      · simp only [alSet, if_neg h, alKeys, List.map_cons] at *
        rw [ih]
        simp [List.mem_cons, hne, hmem]
      · simp only [alSet, if_neg h, alKeys, List.map_cons] at *
        rw [ih]
        simp [List.mem_cons, hne, hmem]

theorem alGet_eq_none_iff (l : List (α × β)) (k : α) :
    alGet l k = none ↔ k ∉ alKeys l := by
  induction l with
  | nil => simp [alGet, alKeys]
  | cons p rest ih =>
    obtain ⟨a, b⟩ := p
    by_cases h : a = k
    · subst h
      simp [alGet, alKeys]
    · have hne : ¬ k = a := fun hk => h hk.symm
      simp [alGet, alKeys, h, ih, hne]

/-- If the key is absent, `alSet` is exactly an append. -/
theorem alSet_eq_append_of_not_mem (l : List (α × β)) (k : α) (v : β)
    (h : k ∉ alKeys l) : alSet l k v = l ++ [(k, v)] := by
  induction l with
  | nil => simp [alSet]
  | cons p rest ih =>
    obtain ⟨a, b⟩ := p
    simp only [alKeys, List.map_cons, List.mem_cons] at h
    push_neg at h
    have hne : a ≠ k := fun hk => h.1 hk.symm
    simp [alSet, hne, ih (by simpa [alKeys] using h.2)]

theorem pyDict_go_eq_append :
    ∀ (l acc : List (α × β)), (alKeys (acc ++ l)).Nodup →
      l.foldl (fun d p => alSet d p.1 p.2) acc = acc ++ l := by
  intro l
  induction l with
  | nil => intro acc _; simp
  | cons p rest ih =>
    intro acc hacc
    obtain ⟨a, b⟩ := p
    have hkeys : alKeys (acc ++ (a, b) :: rest) = alKeys acc ++ a :: alKeys rest := by
      simp [alKeys]
    rw [hkeys] at hacc
    have hnot : a ∉ alKeys acc := by
      intro hmem
      rcases List.nodup_append.mp hacc with ⟨_, _, hdisj⟩
      exact hdisj hmem (List.mem_cons_self a _)
    simp only [List.foldl_cons]
    rw [alSet_eq_append_of_not_mem acc a b hnot]
    have happ : alKeys ((acc ++ [(a, b)]) ++ rest) = alKeys acc ++ a :: alKeys rest := by
      simp [alKeys]
    have := ih (acc ++ [(a, b)]) (by rw [happ]; exact hacc)
    simpa using this

/-- `pyDict` of a list whose keys are already distinct is the list itself. -/
theorem pyDict_eq_self_of_nodup (l : List (α × β)) (h : (alKeys l).Nodup) :
    pyDict l = l := by
  simpa using pyDict_go_eq_append l [] (by simpa using h)

end AList

/-! ### Decimal notation for floats

`multiprocess.merge` parses bucket bounds with Python `float(...)` and
formats them with `utils.floatToGoString`.  `utils.py` is not part of the
sources, so the formatter is modelled from the spec; the parser models
Python float literal syntax (decimal literals and infinities; exponents are
not needed by the modelled code paths). -/

/-- Character for a single decimal digit. -/
def digitChar : Nat → Char
  | 0 => '0' | 1 => '1' | 2 => '2' | 3 => '3' | 4 => '4'
  | 5 => '5' | 6 => '6' | 7 => '7' | 8 => '8' | _ => '9'

/-- Is this character a decimal digit? -/
def isDigit (c : Char) : Bool := 48 ≤ c.toNat ∧ c.toNat ≤ 57

/-- Value of a digit character. -/
def digitVal (c : Char) : Nat := c.toNat - 48

/-- Little-endian decimal digits of a natural number (structural fuel
recursion so that it evaluates by kernel reduction). -/
def natDigitsAux : Nat → Nat → List Nat
  | 0, _ => []
  | fuel + 1, n => if n = 0 then [] else n % 10 :: natDigitsAux fuel (n / 10)

/-- Little-endian decimal digits of `n` (empty for 0). -/
def natDigitsLE (n : Nat) : List Nat := natDigitsAux n n

theorem natDigitsAux_eq_digits (fuel n : Nat) (h : n ≤ fuel) :
    natDigitsAux fuel n = Nat.digits 10 n := by
  induction fuel generalizing n with
  | zero =>
    interval_cases n
    simp [natDigitsAux]
  | succ fuel ih =>
    by_cases hn : n = 0
    · simp [natDigitsAux, hn]
    · have hdiv : n / 10 ≤ fuel := by
        have := Nat.div_lt_self (Nat.pos_of_ne_zero hn) (by omega : 1 < 10)
        omega
      rw [natDigitsAux, if_neg hn, ih (n / 10) hdiv]
      exact (Nat.digits_def' (b := 10) (by omega) (Nat.pos_of_ne_zero hn)).symm

theorem natDigitsLE_eq_digits (n : Nat) : natDigitsLE n = Nat.digits 10 n :=
  natDigitsAux_eq_digits n n le_rfl

/-- Most-significant-first digit characters of `n` (empty for 0). -/
def natToDigits (n : Nat) : List Char := (natDigitsLE n).reverse.map digitChar

/-- Decimal representation of a natural number. -/
def natDecimal (n : Nat) : List Char := if n = 0 then ['0'] else natToDigits n

/-- Horner evaluation of most-significant-first digit characters. -/
def digitsVal (cs : List Char) : Nat :=
  cs.foldl (fun acc c => acc * 10 + digitVal c) 0

theorem digitChar_isDigit {d : Nat} (h : d < 10) : isDigit (digitChar d) = true := by
  interval_cases d <;> rfl

theorem digitVal_digitChar {d : Nat} (h : d < 10) : digitVal (digitChar d) = d := by
  interval_cases d <;> rfl

theorem digitsVal_go (cs : List Char) (a : Nat) :
    cs.foldl (fun acc c => acc * 10 + digitVal c) a =
      a * 10 ^ cs.length + digitsVal cs := by
  induction cs generalizing a with
  | nil => simp [digitsVal]
  | cons c rest ih =>
    rw [List.foldl_cons, ih]
    have h2 : digitsVal (c :: rest) = digitVal c * 10 ^ rest.length + digitsVal rest := by
      simp only [digitsVal, List.foldl_cons]
      rw [ih]
      simp only [digitsVal]
      ring
    rw [h2, List.length_cons, pow_succ]
    ring

theorem digitsVal_append (l₁ l₂ : List Char) :
    digitsVal (l₁ ++ l₂) = digitsVal l₁ * 10 ^ l₂.length + digitsVal l₂ := by
  rw [digitsVal, List.foldl_append, digitsVal_go]
  rfl

theorem digitsVal_digits_reverse (n : Nat) :
    digitsVal ((Nat.digits 10 n).reverse.map digitChar) = n := by
  induction n using Nat.strong_induction_on with
  | _ n ih =>
    rcases Nat.eq_zero_or_pos n with h0 | hpos
    · simp [h0, digitsVal]
    · rw [Nat.digits_def' (b := 10) (by omega) hpos]
      simp only [List.reverse_cons, List.map_append, List.map_cons, List.map_nil]
      rw [digitsVal_append]
      have hlt : n / 10 < n := Nat.div_lt_self hpos (by omega)
      rw [ih (n / 10) hlt]
      have hmod : n % 10 < 10 := Nat.mod_lt n (by omega)
      simp [digitsVal, digitVal_digitChar hmod]
      omega

theorem digitsVal_natToDigits (n : Nat) : digitsVal (natToDigits n) = n := by
  rw [natToDigits, natDigitsLE_eq_digits]
  exact digitsVal_digits_reverse n

theorem digitsVal_natDecimal (n : Nat) : digitsVal (natDecimal n) = n := by
  by_cases h : n = 0
  · subst h
    decide
  · rw [natDecimal, if_neg h, digitsVal_natToDigits]

theorem natToDigits_all_digits (n : Nat) :
    ∀ c ∈ natToDigits n, isDigit c = true := by
  intro c hc
  rw [natToDigits, natDigitsLE_eq_digits] at hc
  simp only [List.mem_map, List.mem_reverse] at hc
  obtain ⟨d, hd, rfl⟩ := hc
  exact digitChar_isDigit (Nat.digits_lt_base (by omega) hd)

theorem natDecimal_all_digits (n : Nat) :
    ∀ c ∈ natDecimal n, isDigit c = true := by
  by_cases h : n = 0
  · subst h
    decide
  · rw [natDecimal, if_neg h]
    exact natToDigits_all_digits n

theorem natDecimal_ne_nil (n : Nat) : natDecimal n ≠ [] := by
  by_cases h : n = 0
  · simp [natDecimal, h]
  · rw [natDecimal, if_neg h, natToDigits, natDigitsLE_eq_digits]
    simp [Nat.digits_ne_nil_iff_ne_zero, h]

theorem digitsVal_replicate_zero (z : Nat) : digitsVal (List.replicate z '0') = 0 := by
  induction z with
  | zero => rfl
  | succ z ih =>
    have : digitsVal (List.replicate (z + 1) '0') =
        digitsVal (List.replicate z '0' ++ ['0']) := by
      rw [← List.replicate_succ' z '0']
    rw [this, digitsVal_append, ih]
    decide

theorem natToDigits_length_le {n k : Nat} (h : n < 10 ^ k) :
    (natToDigits n).length ≤ k := by
  rw [natToDigits, natDigitsLE_eq_digits]
  by_cases hn : n = 0
  · simp [hn]
  · have hlog := (Nat.lt_pow_iff_log_lt (b := 10) (by omega) hn).mp h
    have hlen := Nat.digits_len 10 n (by omega) hn
    simp only [List.length_map, List.length_reverse]
    omega

/-- Smallest exponent `k ≤ den` with `den ∣ 10 ^ k`, if any (a denominator
has one exactly when it is of the form `2^a * 5^b`, i.e. the rational has a
finite decimal expansion). -/
def decExp (den : Nat) : Option Nat :=
  (List.range (den + 1)).find? (fun j => den ∣ 10 ^ j)

/-- Exact decimal representation of a rational whose denominator divides a
power of ten; an escaped fallback form otherwise (never produced by the
modelled code paths, which only format parsed floats). -/
def ratDecimal (q : ℚ) : List Char :=
  match decExp q.den with
  | some k =>
      let n10 := q.num.natAbs * (10 ^ k / q.den)
      let ip := n10 / 10 ^ k
      let fp := n10 % 10 ^ k
      let fd := if k = 0 then ['0']
                else List.replicate (k - (natToDigits fp).length) '0' ++ natToDigits fp
      (if q.num < 0 then ['-'] else []) ++ natDecimal ip ++ '.' :: fd
  | none => '!' :: (toString q.num ++ "/" ++ toString q.den).data

/-- Modelled from the spec: `utils.floatToGoString` (the `utils` module is
not part of the sources).  Formats `+Inf`/`-Inf` specially and finite
values as Go-style decimal literals; injective on every float obtainable
from `pyFloat` (proved below), which is what byte-matching of bucket keys
requires. -/
def floatToGoString : PFloat → String
  | .inf => "+Inf"
  | .ninf => "-Inf"
  | .fin q => ⟨ratDecimal q⟩

/-- Parse an unsigned decimal literal (digits, optionally a dot and more
digits; at least one digit overall), as Python `float` does. -/
def parseDec (cs : List Char) : Option ℚ :=
  let ip := cs.takeWhile isDigit
  let rest := cs.dropWhile isDigit
  match rest with
  | [] => if ip = [] then none else some ((digitsVal ip : ℚ))
  | '.' :: frac =>
      if frac.all isDigit ∧ (ip ≠ [] ∨ frac ≠ []) then
        some ((digitsVal ip : ℚ) + (digitsVal frac : ℚ) / 10 ^ frac.length)
      else none
  | _ => none

/-- Unsigned part of Python `float(...)`: an infinity name or a decimal
literal. -/
def pyFloatCore (cs : List Char) (neg : Bool) : Option PFloat :=
  if cs = "inf".data ∨ cs = "Inf".data ∨ cs = "infinity".data ∨ cs = "Infinity".data then
    some (if neg then .ninf else .inf)
  else
    (parseDec cs).map (fun q => .fin (if neg then -q else q))

/-- Model of Python `float(str)` on the literal forms the modelled code
produces and consumes: an optional sign followed by an infinity name or a
decimal literal (exponents and case variants not exercised by the code are
omitted). -/
def pyFloat (s : String) : Option PFloat :=
  match s.data with
  | '+' :: rest => pyFloatCore rest false
  | '-' :: rest => pyFloatCore rest true
  | cs => pyFloatCore cs false

theorem takeWhile_all_append {p : Char → Bool} (A : List Char)
    (hA : ∀ a ∈ A, p a = true) (c : Char) (hc : p c = false) (B : List Char) :
    (A ++ c :: B).takeWhile p = A ∧ (A ++ c :: B).dropWhile p = c :: B := by
  induction A with
  | nil => simp [List.takeWhile_cons, List.dropWhile_cons, hc]
  | cons a A ih =>
    have ha := hA a (List.mem_cons_self a A)
    have := ih (fun x hx => hA x (List.mem_cons_of_mem a hx))
    simp [List.takeWhile_cons, List.dropWhile_cons, ha, this]

theorem decExp_dvd {den k : Nat} (h : decExp den = some k) : den ∣ 10 ^ k := by
  have := List.find?_some h
  simpa using this

theorem dvd_two_five :
    ∀ n a b : Nat, n ∣ 2 ^ a * 5 ^ b → ∃ i j, i ≤ a ∧ j ≤ b ∧ n = 2 ^ i * 5 ^ j := by
  intro n
  induction n using Nat.strong_induction_on with
  | _ n ih =>
    intro a b hdvd
    rcases Nat.lt_or_ge n 2 with h2 | h2
    · interval_cases n
      · exfalso
        have h0 := Nat.eq_zero_of_zero_dvd hdvd
        have : (0 : ℕ) < 2 ^ a * 5 ^ b := by positivity
        omega
      · exact ⟨0, 0, Nat.zero_le _, Nat.zero_le _, by simp⟩
    · obtain ⟨p, hp, hpn⟩ := Nat.exists_prime_and_dvd (by omega : n ≠ 1)
      have hp25 : p = 2 ∨ p = 5 := by
        have hpd : p ∣ 2 ^ a * 5 ^ b := hpn.trans hdvd
        rcases (Nat.Prime.dvd_mul hp).mp hpd with h | h
        · exact Or.inl ((Nat.prime_dvd_prime_iff_eq hp Nat.prime_two).mp (hp.dvd_of_dvd_pow h))
        · exact Or.inr ((Nat.prime_dvd_prime_iff_eq hp (by norm_num)).mp (hp.dvd_of_dvd_pow h))
      obtain ⟨m, rfl⟩ := hpn
      have hm0 : m ≠ 0 := by rintro rfl; omega
      have hm_lt : m < p * m := by
        calc m = 1 * m := (one_mul m).symm
        _ < p * m := (Nat.mul_lt_mul_right (Nat.pos_of_ne_zero hm0)).mpr hp.one_lt
      rcases hp25 with rfl | rfl
      · have ha : a ≠ 0 := by
          rintro rfl
          have h2d : (2 : ℕ) ∣ 5 ^ b := dvd_trans (Dvd.intro m rfl) (by simpa using hdvd)
          have := Nat.Prime.dvd_of_dvd_pow Nat.prime_two h2d
          norm_num at this
        obtain ⟨a0, rfl⟩ : ∃ a0, a = a0 + 1 := ⟨a - 1, by omega⟩
        have hmd : m ∣ 2 ^ a0 * 5 ^ b := by
          have h1 : 2 * m ∣ 2 * (2 ^ a0 * 5 ^ b) := by
            have h22 : 2 ^ (a0 + 1) * 5 ^ b = 2 * (2 ^ a0 * 5 ^ b) := by ring
            rw [← h22]
            exact hdvd
          exact (Nat.mul_dvd_mul_iff_left (by omega : 0 < 2)).mp h1
        obtain ⟨i, j, hi, hj, rfl⟩ := ih m hm_lt a0 b hmd
        exact ⟨i + 1, j, by omega, hj, by ring⟩
      · have hb : b ≠ 0 := by
          rintro rfl
          have h5d : (5 : ℕ) ∣ 2 ^ a := dvd_trans (Dvd.intro m rfl) (by simpa using hdvd)
          have := Nat.Prime.dvd_of_dvd_pow (by norm_num : Nat.Prime 5) h5d
          norm_num at this
        obtain ⟨b0, rfl⟩ : ∃ b0, b = b0 + 1 := ⟨b - 1, by omega⟩
        have hmd : m ∣ 2 ^ a * 5 ^ b0 := by
          have h1 : 5 * m ∣ 5 * (2 ^ a * 5 ^ b0) := by
            have h55 : 2 ^ a * 5 ^ (b0 + 1) = 5 * (2 ^ a * 5 ^ b0) := by ring
            rw [← h55]
            exact hdvd
          exact (Nat.mul_dvd_mul_iff_left (by omega : 0 < 5)).mp h1
        obtain ⟨i, j, hi, hj, rfl⟩ := ih m hm_lt a (b0) hmd
        exact ⟨i, j + 1, hi, by omega, by ring⟩

theorem decExp_isSome {den L : Nat} (h : den ∣ 10 ^ L) (h0 : den ≠ 0) :
    ∃ k, decExp den = some k := by
  obtain ⟨i, j, _, _, hden⟩ := dvd_two_five den L L
    (by rw [show (10 : ℕ) = 2 * 5 by norm_num, mul_pow] at h; exact h)
  have hij : i ≤ den ∧ j ≤ den := by
    constructor
    · have h1 : i < 2 ^ i := Nat.lt_two_pow i
      have hle : 2 ^ i ≤ 2 ^ i * 5 ^ j := Nat.le_mul_of_pos_right _ (by positivity)
      omega
    · have h1 : j < 5 ^ j := Nat.lt_pow_self (by omega) j
      have hle : 5 ^ j ≤ 2 ^ i * 5 ^ j := Nat.le_mul_of_pos_left _ (by positivity)
      omega
  have hd : den ∣ 10 ^ den := by
    calc den = 2 ^ i * 5 ^ j := hden
    _ ∣ 2 ^ den * 5 ^ den := mul_dvd_mul (pow_dvd_pow 2 hij.1) (pow_dvd_pow 5 hij.2)
    _ = 10 ^ den := by rw [show (10 : ℕ) = 2 * 5 by norm_num, mul_pow]
  have hsome : (decExp den).isSome := by
    rw [decExp, List.find?_isSome]
    exact ⟨den, by simp, by simpa using hd⟩
  obtain ⟨k, hk⟩ := Option.isSome_iff_exists.mp hsome
  exact ⟨k, hk⟩

theorem isDigit_ne_sign {c : Char} (hc : isDigit c = true) : c ≠ '+' ∧ c ≠ '-' := by
  constructor <;> rintro rfl <;> simp [isDigit] at hc

theorem pyFloat_cons_of_not_sign {c : Char} (h1 : c ≠ '+') (h2 : c ≠ '-')
    (t : List Char) : pyFloat ⟨c :: t⟩ = pyFloatCore (c :: t) false := by
  unfold pyFloat
  split
  · next rest heq => exact absurd (List.head_eq_of_cons_eq heq) h1
  · next rest heq => exact absurd (List.head_eq_of_cons_eq heq) h2
  · rfl

theorem pyFloat_neg_cons (t : List Char) : pyFloat ⟨'-' :: t⟩ = pyFloatCore t true := rfl

theorem pyFloatCore_digit_head {c : Char} (hc : isDigit c = true) (t : List Char)
    (neg : Bool) :
    pyFloatCore (c :: t) neg =
      (parseDec (c :: t)).map (fun q => .fin (if neg then -q else q)) := by
  rw [pyFloatCore, if_neg]
  rintro (h | h | h | h)
  · rw [show "inf".data = ['i', 'n', 'f'] from rfl] at h
    injection h with h1 _
    subst h1
    exact absurd hc (by decide)
  · rw [show "Inf".data = ['I', 'n', 'f'] from rfl] at h
    injection h with h1 _
    subst h1
    exact absurd hc (by decide)
  · rw [show "infinity".data = ['i', 'n', 'f', 'i', 'n', 'i', 't', 'y'] from rfl] at h
    injection h with h1 _
    subst h1
    exact absurd hc (by decide)
  · rw [show "Infinity".data = ['I', 'n', 'f', 'i', 'n', 'i', 't', 'y'] from rfl] at h
    injection h with h1 _
    subst h1
    exact absurd hc (by decide)

theorem parseDec_decimal (i : Nat) (fd : List Char)
    (hfd : ∀ c ∈ fd, isDigit c = true) :
    parseDec (natDecimal i ++ '.' :: fd) =
      some ((i : ℚ) + (digitsVal fd : ℚ) / 10 ^ fd.length) := by
  obtain ⟨ht, hd⟩ :=
    takeWhile_all_append (natDecimal i) (natDecimal_all_digits i) '.' (by decide) fd
  rw [parseDec]
  simp only [ht, hd]
  rw [if_pos ⟨List.all_eq_true.mpr hfd, Or.inl (natDecimal_ne_nil i)⟩,
    digitsVal_natDecimal]

theorem pyFloat_ratDecimal (q : ℚ) {k : Nat} (hk : decExp q.den = some k) :
    pyFloat ⟨ratDecimal q⟩ = some (.fin q) := by
  have hdenpos : 0 < q.den := q.pos
  have hden0 : ((q.den : ℚ)) ≠ 0 := by positivity
  have hdvd := decExp_dvd hk
  have h10 : ((10 : ℚ)) ^ k ≠ 0 := by positivity
  set n10 := q.num.natAbs * (10 ^ k / q.den) with hn10
  set ip := n10 / 10 ^ k with hip
  set fp := n10 % 10 ^ k with hfp
  set fd : List Char :=
    (if k = 0 then ['0']
     else List.replicate (k - (natToDigits fp).length) '0' ++ natToDigits fp) with hfddef
  have hratdec :
      ratDecimal q = (if q.num < 0 then ['-'] else []) ++ natDecimal ip ++ '.' :: fd := by
    rw [ratDecimal, hk]
  have hfd_dig : ∀ c ∈ fd, isDigit c = true := by
    rw [hfddef]
    by_cases hk0 : k = 0
    · simp only [hk0, if_pos]
      intro c hc
      simp at hc
      subst hc
      decide
    · simp only [hk0, if_neg, ite_false]
      intro c hc
      rcases List.mem_append.mp hc with h | h
      · rw [List.eq_of_mem_replicate h]
        decide
      · exact natToDigits_all_digits fp c h
  have hvalfd : (digitsVal fd : ℚ) / 10 ^ fd.length = (fp : ℚ) / 10 ^ k := by
    rw [hfddef]
    by_cases hk0 : k = 0
    · have hfp0 : fp = 0 := by
        rw [hfp, hk0]
        simp only [pow_zero]
        omega
      simp [hk0, hfp0]
      decide
    · simp only [hk0, if_neg, ite_false]
      have hlen : (natToDigits fp).length ≤ k :=
        natToDigits_length_le (by rw [hfp]; exact Nat.mod_lt _ (by positivity))
      rw [digitsVal_append, digitsVal_replicate_zero, digitsVal_natToDigits]
      simp only [List.length_append, List.length_replicate]
      rw [show k - (natToDigits fp).length + (natToDigits fp).length = k by omega]
      ring
  have hcast : ((10 ^ k / q.den : ℕ) : ℚ) = (10 : ℚ) ^ k / (q.den : ℚ) := by
    rw [Nat.cast_div hdvd hden0]
    push_cast
    ring
  have hsum : (ip : ℚ) + (fp : ℚ) / (10 : ℚ) ^ k = (q.num.natAbs : ℚ) / (q.den : ℚ) := by
    have hdm : 10 ^ k * ip + fp = n10 := Nat.div_add_mod n10 (10 ^ k)
    have hcastdm : ((10 : ℚ)) ^ k * (ip : ℚ) + (fp : ℚ) = (n10 : ℚ) := by
      exact_mod_cast congrArg (fun n : ℕ => (n : ℚ)) hdm
    have hn10q : (n10 : ℚ) = (q.num.natAbs : ℚ) * ((10 : ℚ) ^ k / (q.den : ℚ)) := by
      rw [hn10]
      push_cast [hcast]
      ring
    have h2 : (n10 : ℚ) * (q.den : ℚ) = (q.num.natAbs : ℚ) * (10 : ℚ) ^ k := by
      rw [hn10q]
      field_simp
    field_simp
    linear_combination (q.den : ℚ) * hcastdm + h2
  have hunsigned :
      pyFloat ⟨natDecimal ip ++ '.' :: fd⟩ = some (.fin ((q.num.natAbs : ℚ) / (q.den : ℚ))) := by
    cases hnd : natDecimal ip with
    | nil => exact absurd hnd (natDecimal_ne_nil ip)
    | cons c t =>
      have hcdig : isDigit c = true :=
        natDecimal_all_digits ip c (by rw [hnd]; exact List.mem_cons_self c t)
      obtain ⟨hcp, hcm⟩ := isDigit_ne_sign hcdig
      have hstep : (c :: t) ++ '.' :: fd = c :: (t ++ '.' :: fd) := rfl
      rw [hstep, pyFloat_cons_of_not_sign hcp hcm, pyFloatCore_digit_head hcdig, ← hstep,
        ← hnd, parseDec_decimal ip fd hfd_dig]
      simp only [Option.map]
      rw [hvalfd, hsum]
      rfl
  rw [hratdec]
  by_cases hneg : q.num < 0
  · rw [if_pos hneg]
    have habs : (q.num.natAbs : ℚ) = -(q.num : ℚ) := by
      have h1 : |q.num| = -q.num := abs_of_neg hneg
      rw [Int.cast_natAbs, h1]
      push_cast
      ring
    have hbody : pyFloatCore (natDecimal ip ++ '.' :: fd) true =
        some (.fin (-((q.num.natAbs : ℚ) / (q.den : ℚ)))) := by
      cases hnd : natDecimal ip with
      | nil => exact absurd hnd (natDecimal_ne_nil ip)
      | cons c t =>
        have hcdig : isDigit c = true :=
          natDecimal_all_digits ip c (by rw [hnd]; exact List.mem_cons_self c t)
        have hstep : (c :: t) ++ '.' :: fd = c :: (t ++ '.' :: fd) := rfl
        rw [hstep, pyFloatCore_digit_head hcdig, ← hstep, ← hnd,
          parseDec_decimal ip fd hfd_dig]
        simp only [Option.map]
        rw [hvalfd, hsum]
        rfl
    show pyFloat ⟨'-' :: (natDecimal ip ++ '.' :: fd)⟩ = some (PFloat.fin q)
    rw [pyFloat_neg_cons, hbody, habs]
    have : -(-(q.num : ℚ) / (q.den : ℚ)) = (q.num : ℚ) / (q.den : ℚ) := by ring
    rw [this, Rat.num_div_den]
  · rw [if_neg hneg]
    have habs : (q.num.natAbs : ℚ) = (q.num : ℚ) := by
      have h1 : |q.num| = q.num := abs_of_nonneg (not_lt.mp hneg)
      rw [Int.cast_natAbs, h1]
    show pyFloat ⟨natDecimal ip ++ '.' :: fd⟩ = some (PFloat.fin q)
    rw [hunsigned, habs, Rat.num_div_den]

theorem den_dvd_of_eq_div {q : ℚ} {a : ℤ} {b : ℕ} (h : q = (a : ℚ) / (b : ℚ)) :
    q.den ∣ b := by
  have h1 : q = Rat.divInt a (b : ℤ) := by
    rw [Rat.divInt_eq_div, h]
    push_cast
    ring
  have h2 := Rat.den_dvd a (b : ℤ)
  rw [← h1] at h2
  exact_mod_cast h2

theorem parseDec_den_dvd {cs : List Char} {q : ℚ} (h : parseDec cs = some q) :
    ∃ L, q.den ∣ 10 ^ L := by
  rw [parseDec] at h
  split at h
  · split at h
    · exact absurd h (by simp)
    · refine ⟨0, ?_⟩
      have hq : q = ((digitsVal (cs.takeWhile isDigit) : ℕ) : ℚ) := by
        injection h with h
        exact h.symm
      rw [hq]
      simp
  · next frac heq =>
    split at h
    · injection h with h
      refine ⟨frac.length, ?_⟩
      have hq : q = (((digitsVal (cs.takeWhile isDigit) * 10 ^ frac.length +
          digitsVal frac : ℕ) : ℤ) : ℚ) / ((10 ^ frac.length : ℕ) : ℚ) := by
        rw [← h]
        have h10 : ((10 : ℚ)) ^ frac.length ≠ 0 := by positivity
        push_cast
        field_simp
      exact den_dvd_of_eq_div hq
    · exact absurd h (by simp)
  · exact absurd h (by simp)

theorem pyFloatCore_fin {cs : List Char} {neg : Bool} {q : ℚ}
    (h : pyFloatCore cs neg = some (.fin q)) :
    ∃ q₀, parseDec cs = some q₀ ∧ q.den = q₀.den := by
  rw [pyFloatCore] at h
  split at h
  · cases neg <;> exact absurd h (by simp)
  · cases hp : parseDec cs with
    | none =>
      rw [hp] at h
      exact absurd h (by simp [Option.map])
    | some q₀ =>
      rw [hp] at h
      simp only [Option.map] at h
      injection h with h
      cases neg with
      | false =>
        refine ⟨q₀, rfl, ?_⟩
        simp only [if_neg Bool.false_ne_true] at h
        injection h with h
        rw [← h]
      | true =>
        refine ⟨q₀, rfl, ?_⟩
        injection h with h
        rw [← h]
        simp [Rat.neg_den]

theorem pyFloat_fin_decExp {s : String} {q : ℚ} (h : pyFloat s = some (.fin q)) :
    ∃ k, decExp q.den = some k := by
  have hcore : ∃ cs neg, pyFloatCore cs neg = some (.fin q) := by
    rw [pyFloat] at h
    split at h
    · exact ⟨_, _, h⟩
    · exact ⟨_, _, h⟩
    · exact ⟨_, _, h⟩
  obtain ⟨cs, neg, hc⟩ := hcore
  obtain ⟨q₀, hp, hden⟩ := pyFloatCore_fin hc
  obtain ⟨L, hL⟩ := parseDec_den_dvd hp
  rw [← hden] at hL
  exact decExp_isSome hL (by have := q.pos; omega)

/-- Any float obtained from `pyFloat` is formatted by `floatToGoString` into
a string that parses back to the same float. -/
theorem pyFloat_image_roundtrip {s : String} {x : PFloat} (h : pyFloat s = some x) :
    pyFloat (floatToGoString x) = some x := by
  cases x with
  | inf => decide
  | ninf => decide
  | fin q =>
    obtain ⟨k, hk⟩ := pyFloat_fin_decExp h
    exact pyFloat_ratDecimal q hk

/-- `floatToGoString` is injective on floats obtained from `pyFloat`
(distinct parsed bucket bounds format to distinct label strings). -/
theorem floatToGoString_injOn {s₁ s₂ : String} {x y : PFloat}
    (h₁ : pyFloat s₁ = some x) (h₂ : pyFloat s₂ = some y)
    (he : floatToGoString x = floatToGoString y) : x = y := by
  have r1 := pyFloat_image_roundtrip h₁
  have r2 := pyFloat_image_roundtrip h₂
  rw [he, r2] at r1
  injection r1 with r1
  exact r1.symm

/-! ### UTF-8

The store encodes keys with `key.encode('utf-8')` and decodes them with
`encoded.decode('utf-8')`; both are modelled by an executable UTF-8 codec
over byte values. -/

/-- UTF-8 encoding of one Unicode code point, as byte values. -/
def utf8EncodeNat (n : Nat) : List Nat :=
  if n < 0x80 then [n]
  else if n < 0x800 then [0xC0 + n / 64, 0x80 + n % 64]
  else if n < 0x10000 then [0xE0 + n / 4096, 0x80 + n / 64 % 64, 0x80 + n % 64]
  else [0xF0 + n / 262144, 0x80 + n / 4096 % 64, 0x80 + n / 64 % 64, 0x80 + n % 64]

/-- Model of Python `key.encode('utf-8')`: the UTF-8 bytes of a string. -/
def utf8Encode (s : String) : List Nat :=
  s.data.foldr (fun c acc => utf8EncodeNat c.toNat ++ acc) []

/-- Is this byte a UTF-8 continuation byte? -/
def isCont (b : Nat) : Prop := 0x80 ≤ b ∧ b < 0xC0

instance (b : Nat) : Decidable (isCont b) := by
  rw [isCont]
  infer_instance

/-- Decode one UTF-8-encoded code point from a leading byte and the
following bytes, returning the code point and the unconsumed bytes
(strict: `none` on malformed input). -/
def utf8DecodeOne (b : Nat) (rest : List Nat) : Option (Nat × List Nat) :=
  if b < 0x80 then some (b, rest)
  else if b < 0xC0 then none
  else if b < 0xE0 then
    match rest with
    | b1 :: rest1 =>
        if isCont b1 then some ((b - 0xC0) * 64 + (b1 - 0x80), rest1) else none
    | [] => none
  else if b < 0xF0 then
    match rest with
    | b1 :: b2 :: rest2 =>
        if isCont b1 ∧ isCont b2 then
          some ((b - 0xE0) * 4096 + (b1 - 0x80) * 64 + (b2 - 0x80), rest2)
        else none
    | _ => none
  else if b < 0xF8 then
    match rest with
    | b1 :: b2 :: b3 :: rest3 =>
        if isCont b1 ∧ isCont b2 ∧ isCont b3 then
          some ((b - 0xF0) * 262144 + (b1 - 0x80) * 4096 + (b2 - 0x80) * 64 + (b3 - 0x80),
            rest3)
        else none
    | _ => none
  else none

/-- Decode a UTF-8 byte sequence into code points.  The fuel argument only
bounds the number of decoded code points; `utf8DecodeNats` supplies enough
for any input. -/
def utf8DecodeAux : Nat → List Nat → Option (List Nat)
  | _, [] => some []
  | 0, _ :: _ => none
  | fuel + 1, b :: rest =>
      match utf8DecodeOne b rest with
      | some (cp, rest2) => (utf8DecodeAux fuel rest2).map (cp :: ·)
      | none => none

/-- Decode a UTF-8 byte sequence into code points (strict; `none` on
malformed input, like Python `bytes.decode('utf-8')` raising). -/
def utf8DecodeNats (bs : List Nat) : Option (List Nat) := utf8DecodeAux bs.length bs

/-- Build a `Char` from a code point, refusing surrogates and
out-of-range values. -/
def mkChar? (n : Nat) : Option Char :=
  if n < 0xd800 ∨ (0xdfff < n ∧ n < 0x110000) then some (Char.ofNat n) else none

theorem mkChar?_toNat (c : Char) : mkChar? c.toNat = some c := by
  have hv : c.toNat < 0xd800 ∨ (0xdfff < c.toNat ∧ c.toNat < 0x110000) := c.valid
  rw [mkChar?, if_pos hv, Char.ofNat_toNat]

/-- Model of Python `bytes.decode('utf-8')`. -/
def utf8Decode (bs : List Nat) : Option String :=
  (utf8DecodeNats bs).bind (fun cps => (cps.mapM mkChar?).map (fun cs => ⟨cs⟩))

theorem utf8DecodeOne_encode (n : Nat) (hn : n < 0x110000) (rest : List Nat) :
    ∃ b tl, utf8EncodeNat n = b :: tl ∧ tl.length ≤ 3 ∧
      utf8DecodeOne b (tl ++ rest) = some (n, rest) := by
  rw [utf8EncodeNat]
  by_cases h1 : n < 0x80
  · refine ⟨n, [], by rw [if_pos h1], by simp, ?_⟩
    rw [utf8DecodeOne.eq_def, if_pos h1]
    rfl
  · rw [if_neg h1]
    by_cases h2 : n < 0x800
    · refine ⟨0xC0 + n / 64, [0x80 + n % 64], by rw [if_pos h2], by simp, ?_⟩
      rw [utf8DecodeOne.eq_def]
      have hb : ¬ (0xC0 + n / 64 < 0x80) := by omega
      have hb2 : ¬ (0xC0 + n / 64 < 0xC0) := by omega
      have hb3 : 0xC0 + n / 64 < 0xE0 := by omega
      rw [if_neg hb, if_neg hb2, if_pos hb3]
      have hc : isCont (0x80 + n % 64) := ⟨by omega, by omega⟩
      show (if isCont (0x80 + n % 64) then
        some ((0xC0 + n / 64 - 0xC0) * 64 + (0x80 + n % 64 - 0x80), rest) else none) =
        some (n, rest)
      rw [if_pos hc]
      have hval : (0xC0 + n / 64 - 0xC0) * 64 + (0x80 + n % 64 - 0x80) = n := by omega
      rw [hval]
    · rw [if_neg h2]
      by_cases h3 : n < 0x10000
      · refine ⟨0xE0 + n / 4096, [0x80 + n / 64 % 64, 0x80 + n % 64], by rw [if_pos h3],
          by simp, ?_⟩
        rw [utf8DecodeOne.eq_def]
        have hb : ¬ (0xE0 + n / 4096 < 0x80) := by omega
        have hb2 : ¬ (0xE0 + n / 4096 < 0xC0) := by omega
        have hb3 : ¬ (0xE0 + n / 4096 < 0xE0) := by omega
        have hb4 : 0xE0 + n / 4096 < 0xF0 := by omega
        rw [if_neg hb, if_neg hb2, if_neg hb3, if_pos hb4]
        have hc : isCont (0x80 + n / 64 % 64) ∧ isCont (0x80 + n % 64) :=
          ⟨⟨by omega, by omega⟩, ⟨by omega, by omega⟩⟩
        show (if isCont (0x80 + n / 64 % 64) ∧ isCont (0x80 + n % 64) then
          some ((0xE0 + n / 4096 - 0xE0) * 4096 + (0x80 + n / 64 % 64 - 0x80) * 64 +
            (0x80 + n % 64 - 0x80), rest) else none) = some (n, rest)
        rw [if_pos hc]
        have hval : (0xE0 + n / 4096 - 0xE0) * 4096 + (0x80 + n / 64 % 64 - 0x80) * 64 +
            (0x80 + n % 64 - 0x80) = n := by omega
        rw [hval]
      · refine ⟨0xF0 + n / 262144, [0x80 + n / 4096 % 64, 0x80 + n / 64 % 64, 0x80 + n % 64],
          by rw [if_neg h3], by simp, ?_⟩
        rw [utf8DecodeOne.eq_def]
        have hd : n / 262144 < 5 := by omega
        have hb : ¬ (0xF0 + n / 262144 < 0x80) := by omega
        have hb2 : ¬ (0xF0 + n / 262144 < 0xC0) := by omega
        have hb3 : ¬ (0xF0 + n / 262144 < 0xE0) := by omega
        have hb4 : ¬ (0xF0 + n / 262144 < 0xF0) := by omega
        have hb5 : 0xF0 + n / 262144 < 0xF8 := by omega
        rw [if_neg hb, if_neg hb2, if_neg hb3, if_neg hb4, if_pos hb5]
        have hc : isCont (0x80 + n / 4096 % 64) ∧ isCont (0x80 + n / 64 % 64) ∧
            isCont (0x80 + n % 64) :=
          ⟨⟨by omega, by omega⟩, ⟨by omega, by omega⟩, ⟨by omega, by omega⟩⟩
        show (if isCont (0x80 + n / 4096 % 64) ∧ isCont (0x80 + n / 64 % 64) ∧
            isCont (0x80 + n % 64) then
          some ((0xF0 + n / 262144 - 0xF0) * 262144 + (0x80 + n / 4096 % 64 - 0x80) * 4096 +
            (0x80 + n / 64 % 64 - 0x80) * 64 + (0x80 + n % 64 - 0x80), rest) else none) =
          some (n, rest)
        rw [if_pos hc]
        have hval : (0xF0 + n / 262144 - 0xF0) * 262144 + (0x80 + n / 4096 % 64 - 0x80) * 4096 +
            (0x80 + n / 64 % 64 - 0x80) * 64 + (0x80 + n % 64 - 0x80) = n := by omega
        rw [hval]

theorem utf8Encode_cons (c : Char) (t : List Char) :
    utf8Encode ⟨c :: t⟩ = utf8EncodeNat c.toNat ++ utf8Encode ⟨t⟩ := rfl

theorem charToNat_lt (c : Char) : c.toNat < 0x110000 := by
  have hv : c.toNat < 0xd800 ∨ (0xdfff < c.toNat ∧ c.toNat < 0x110000) := c.valid
  omega

theorem utf8DecodeAux_encodeList (cs : List Char) :
    ∀ fuel : Nat, (utf8Encode ⟨cs⟩).length ≤ fuel →
      utf8DecodeAux fuel (utf8Encode ⟨cs⟩) = some (cs.map Char.toNat) := by
  induction cs with
  | nil =>
    intro fuel _
    cases fuel <;> rfl
  | cons c t ih =>
    intro fuel hf
    obtain ⟨b, tl, henc, htl, hdec⟩ :=
      utf8DecodeOne_encode c.toNat (charToNat_lt c) (utf8Encode ⟨t⟩)
    rw [utf8Encode_cons, henc] at hf ⊢
    have hlen : 1 + (utf8Encode ⟨t⟩).length ≤ fuel := by
      simp only [List.cons_append, List.length_cons, List.length_append] at hf
      omega
    obtain ⟨f, rfl⟩ : ∃ f, fuel = f + 1 := ⟨fuel - 1, by omega⟩
    rw [show ((b :: tl) ++ utf8Encode ⟨t⟩ : List Nat) = b :: (tl ++ utf8Encode ⟨t⟩) from rfl,
      utf8DecodeAux, hdec]
    show (utf8DecodeAux f (utf8Encode ⟨t⟩)).map (c.toNat :: ·) =
      some ((c :: t).map Char.toNat)
    rw [ih f (by omega)]
    rfl

/-- UTF-8 round trip at the byte level: decoding recovers the code
points. -/
theorem utf8DecodeNats_utf8Encode (cs : List Char) :
    utf8DecodeNats (utf8Encode ⟨cs⟩) = some (cs.map Char.toNat) :=
  utf8DecodeAux_encodeList cs _ le_rfl

theorem mapM_mkChar?_map_toNat (cs : List Char) :
    (cs.map Char.toNat).mapM mkChar? = some cs := by
  induction cs with
  | nil => rfl
  | cons c t iht =>
    rw [List.map_cons, List.mapM_cons, mkChar?_toNat, iht]
    rfl

/-- UTF-8 round trip: decoding the encoding of any string yields the
string back. -/
theorem utf8Decode_utf8Encode (s : String) : utf8Decode (utf8Encode s) = some s := by
  obtain ⟨cs⟩ := s
  rw [utf8Decode, utf8DecodeNats_utf8Encode, Option.bind, mapM_mkChar?_map_toNat]
  rfl

/-! ### JSON keys

`mmap_dict.mmap_key` builds the on-disk key with
`json.dumps([metric_name, name, labels], sort_keys=True)` and
`multiprocess.merge` reads it back with `json.loads(key)`.  The serializer
below models `json.dumps` (default separators, `ensure_ascii=True`
escaping, sorted object keys); the parser models `json.loads` on the key
shape the code emits. -/

/-- Lowercase hex digit character. -/
def hexDigitChar : Nat → Char
  | 0 => '0' | 1 => '1' | 2 => '2' | 3 => '3' | 4 => '4' | 5 => '5' | 6 => '6'
  | 7 => '7' | 8 => '8' | 9 => '9' | 10 => 'a' | 11 => 'b' | 12 => 'c' | 13 => 'd'
  | 14 => 'e' | _ => 'f'

/-- Value of a hex digit character (either case). -/
def hexVal? (c : Char) : Option Nat :=
  if 48 ≤ c.toNat ∧ c.toNat ≤ 57 then some (c.toNat - 48)
  else if 97 ≤ c.toNat ∧ c.toNat ≤ 102 then some (c.toNat - 87)
  else if 65 ≤ c.toNat ∧ c.toNat ≤ 70 then some (c.toNat - 55)
  else none

/-- A `\uXXXX` escape for a 16-bit value. -/
def uEscape (n : Nat) : List Char :=
  ['\\', 'u', hexDigitChar (n / 4096 % 16), hexDigitChar (n / 256 % 16),
    hexDigitChar (n / 16 % 16), hexDigitChar (n % 16)]

/-- Python `json.dumps` (`ensure_ascii=True`) escaping of one character:
quote/backslash and the named control escapes, printable ASCII verbatim,
everything else as `\uXXXX` (surrogate pairs above the BMP). -/
def escapeChar (c : Char) : List Char :=
  if c = '"' then ['\\', '"']
  else if c = '\\' then ['\\', '\\']
  else if c.toNat = 8 then ['\\', 'b']
  else if c.toNat = 9 then ['\\', 't']
  else if c.toNat = 10 then ['\\', 'n']
  else if c.toNat = 12 then ['\\', 'f']
  else if c.toNat = 13 then ['\\', 'r']
  else if 0x20 ≤ c.toNat ∧ c.toNat ≤ 0x7E then [c]
  else if c.toNat < 0x10000 then uEscape c.toNat
  else uEscape (0xD800 + (c.toNat - 0x10000) / 1024) ++
    uEscape (0xDC00 + (c.toNat - 0x10000) % 1024)

/-- Escaped body of a JSON string. -/
def jBody (cs : List Char) : List Char := cs.foldr (fun c acc => escapeChar c ++ acc) []

/-- A JSON string literal. -/
def jString (s : String) : List Char := '"' :: jBody s.data ++ ['"']

/-- Parse four hex digits. -/
def parseHex4 : List Char → Option (Nat × List Char)
  | h1 :: h2 :: h3 :: h4 :: rest =>
      (hexVal? h1).bind fun a =>
      (hexVal? h2).bind fun b =>
      (hexVal? h3).bind fun c =>
      (hexVal? h4).bind fun d =>
      some (((a * 16 + b) * 16 + c) * 16 + d, rest)
  | _ => none

/-- Decode one backslash escape (the input starts right after the
backslash), returning the decoded character and the remaining input. -/
def unescapeCons : List Char → Option (Char × List Char)
  | [] => none
  | e :: rest1 =>
    if e = '"' then some ('"', rest1)
    else if e = '\\' then some ('\\', rest1)
    else if e = '/' then some ('/', rest1)
    else if e = 'b' then some (Char.ofNat 8, rest1)
    else if e = 't' then some (Char.ofNat 9, rest1)
    else if e = 'n' then some (Char.ofNat 10, rest1)
    else if e = 'f' then some (Char.ofNat 12, rest1)
    else if e = 'r' then some (Char.ofNat 13, rest1)
    else if e = 'u' then
      (parseHex4 rest1).bind fun pn =>
        if 0xD800 ≤ pn.1 ∧ pn.1 < 0xDC00 then
          match pn.2 with
          | '\\' :: 'u' :: rest3 =>
            (parseHex4 rest3).bind fun pn2 =>
              if 0xDC00 ≤ pn2.1 ∧ pn2.1 < 0xE000 then
                (mkChar? (0x10000 + (pn.1 - 0xD800) * 1024 + (pn2.1 - 0xDC00))).map
                  fun ch => (ch, pn2.2)
              else none
          | _ => none
        else
          (mkChar? pn.1).map fun ch => (ch, pn.2)
    else none

/-- Decode the body of a JSON string literal up to (and consuming) the
closing quote; returns the decoded characters and the remaining input.
Fuel decreases once per decoded character. -/
def parseJSBodyAux : Nat → List Char → Option (List Char × List Char)
  | 0, _ => none
  | _ + 1, [] => none
  | fuel + 1, c :: rest =>
    if c = '"' then some ([], rest)
    else if c = '\\' then
      (unescapeCons rest).bind fun p =>
        (parseJSBodyAux fuel p.2).map (fun q => (p.1 :: q.1, q.2))
    else (parseJSBodyAux fuel rest).map (fun q => (c :: q.1, q.2))

/-- Parse a JSON string literal. -/
def parseStr (cs : List Char) : Option (String × List Char) :=
  match cs with
  | '"' :: rest => (parseJSBodyAux (rest.length + 1) rest).map (fun p => (⟨p.1⟩, p.2))
  | _ => none

/-- Consume an exact token. -/
def dropToken : List Char → List Char → Option (List Char)
  | [], cs => some cs
  | t :: ts, c :: cs => if c = t then dropToken ts cs else none
  | _ :: _, [] => none

/-- Serialize the members of a non-empty JSON object, including the
closing brace (`json.dumps` default separators). -/
def dumpPairs : List (String × String) → List Char
  | [] => ['}']
  | [p] => jString p.1 ++ ':' :: ' ' :: (jString p.2 ++ ['}'])
  | p :: rest => jString p.1 ++ ':' :: ' ' :: (jString p.2 ++ ',' :: ' ' :: dumpPairs rest)

/-- Serialize a JSON object of string pairs. -/
def dumpObj (pairs : List (String × String)) : List Char :=
  match pairs with
  | [] => ['{', '}']
  | ps => '{' :: dumpPairs ps

/-- After an object member: either `, ` (more members, `true`) or `}`
(end of the object, `false`). -/
def sepOrEnd : List Char → Option (Bool × List Char)
  | ',' :: ' ' :: cs4 => some (true, cs4)
  | '}' :: cs4 => some (false, cs4)
  | _ => none

/-- Parse the members of a JSON object up to (and consuming) the closing
brace. -/
def parsePairsAux : Nat → List Char → Option (List (String × String) × List Char)
  | 0, _ => none
  | fuel + 1, cs =>
    (parseStr cs).bind fun pk =>
    (dropToken [':', ' '] pk.2).bind fun cs2 =>
    (parseStr cs2).bind fun pv =>
    (sepOrEnd pv.2).bind fun se =>
      if se.1 then (parsePairsAux fuel se.2).map (fun p => ((pk.1, pv.1) :: p.1, p.2))
      else some ([(pk.1, pv.1)], se.2)

/-- Parse a JSON object of string pairs. -/
def parseObj (cs : List Char) : Option (List (String × String) × List Char) :=
  match cs with
  | '{' :: c :: rest =>
      if c = '}' then some ([], rest) else parsePairsAux (rest.length + 2) (c :: rest)
  | _ => none

/-- Order used by `sort_keys=True`: pairs compared by key, then value
(Python tuple order; keys are distinct in a dict, so the key decides). -/
def pairLe (p q : String × String) : Prop := p.1 < q.1 ∨ (p.1 = q.1 ∧ p.2 ≤ q.2)

instance : DecidableRel pairLe := by
  intro p q
  rw [pairLe]
  infer_instance

/-- Python `sorted` on pairs (a stable sort; insertion sort here). -/
def sortPairs (l : List (String × String)) : List (String × String) :=
  List.insertionSort pairLe l

/-- Source: `mmap_dict.mmap_key` — format a key for use in the mmap file:
`json.dumps([metric_name, name, dict(zip(labelnames, labelvalues))],
sort_keys=True)`. -/
def mmap_key (metric_name name : String) (labelnames labelvalues : List String) :
    String :=
  ⟨'[' :: (jString metric_name ++ (',' :: ' ' :: (jString name ++ (',' :: ' ' ::
    (dumpObj (sortPairs (pyDict (labelnames.zip labelvalues))) ++ [']'])))))⟩

/-- Model of `json.loads(key)` followed by the destructuring
`metric_name, name, labels = ...` in `multiprocess.merge`: parses exactly
the `[str, str, {str: str, ...}]` shape that `mmap_key` emits (any other
JSON shape fails the destructuring). -/
def parseKey (s : String) : Option (String × String × List (String × String)) :=
  match s.data with
  | '[' :: rest =>
    (parseStr rest).bind fun pm =>
    (dropToken [',', ' '] pm.2).bind fun cs2 =>
    (parseStr cs2).bind fun pn =>
    (dropToken [',', ' '] pn.2).bind fun cs4 =>
    (parseObj cs4).bind fun pl =>
      if pl.2 = [']'] then some (pm.1, pn.1, pl.1) else none
  | _ => none

theorem hexVal?_hexDigitChar {d : Nat} (h : d < 16) :
    hexVal? (hexDigitChar d) = some d := by
  interval_cases d <;> decide

theorem parseHex4_uEscape_digits {n : Nat} (rest : List Char) :
    parseHex4 (hexDigitChar (n / 4096 % 16) :: hexDigitChar (n / 256 % 16) ::
      hexDigitChar (n / 16 % 16) :: hexDigitChar (n % 16) :: rest) =
      some (n / 4096 % 16 * 4096 + n / 256 % 16 * 256 + n / 16 % 16 * 16 + n % 16, rest) := by
  rw [parseHex4, hexVal?_hexDigitChar (by omega), hexVal?_hexDigitChar (by omega),
    hexVal?_hexDigitChar (by omega), hexVal?_hexDigitChar (by omega)]
  simp only [Option.some_bind]
  congr 2
  ring

theorem parseHex4_uEscape {n : Nat} (hn : n < 0x10000) (rest : List Char) :
    parseHex4 (hexDigitChar (n / 4096 % 16) :: hexDigitChar (n / 256 % 16) ::
      hexDigitChar (n / 16 % 16) :: hexDigitChar (n % 16) :: rest) = some (n, rest) := by
  rw [parseHex4_uEscape_digits]
  congr 2
  omega

theorem unescapeCons_uEscape_bmp {n : Nat} (hn : n < 0x10000)
    (hs : ¬ (0xD800 ≤ n ∧ n < 0xDC00)) (rest : List Char) :
    unescapeCons ('u' :: (hexDigitChar (n / 4096 % 16) :: hexDigitChar (n / 256 % 16) ::
      hexDigitChar (n / 16 % 16) :: hexDigitChar (n % 16) :: rest)) =
      (mkChar? n).map fun ch => (ch, rest) := by
  rw [unescapeCons, if_neg (by decide), if_neg (by decide), if_neg (by decide),
    if_neg (by decide), if_neg (by decide), if_neg (by decide), if_neg (by decide),
    if_neg (by decide), if_pos rfl, parseHex4_uEscape hn]
  rw [Option.some_bind, if_neg hs]

theorem parseJSBody_escapeChar (c : Char) (rest : List Char) (fuel : Nat) :
    parseJSBodyAux (fuel + 1) (escapeChar c ++ rest) =
      (parseJSBodyAux fuel rest).map (fun q => (c :: q.1, q.2)) := by
  rw [escapeChar]
  by_cases h1 : c = '"'
  · subst h1
    rw [if_pos rfl]
    rw [show (['\\', '"'] ++ rest : List Char) = '\\' :: '"' :: rest from rfl,
      parseJSBodyAux, if_neg (by decide), if_pos rfl, unescapeCons, if_pos rfl,
      Option.some_bind]
  · rw [if_neg h1]
    by_cases h2 : c = '\\'
    · subst h2
      rw [if_pos rfl]
      rw [show (['\\', '\\'] ++ rest : List Char) = '\\' :: '\\' :: rest from rfl,
        parseJSBodyAux, if_neg (by decide), if_pos rfl, unescapeCons,
        if_neg (by decide), if_pos rfl, Option.some_bind]
    · rw [if_neg h2]
      by_cases h3 : c.toNat = 8
      · rw [if_pos h3]
        have hc : c = Char.ofNat 8 := by rw [← h3, Char.ofNat_toNat]
        rw [show (['\\', 'b'] ++ rest : List Char) = '\\' :: 'b' :: rest from rfl,
          parseJSBodyAux, if_neg (by decide), if_pos rfl, unescapeCons,
          if_neg (by decide), if_neg (by decide), if_neg (by decide), if_pos rfl,
          Option.some_bind, ← hc]
      · rw [if_neg h3]
        by_cases h4 : c.toNat = 9
        · rw [if_pos h4]
          have hc : c = Char.ofNat 9 := by rw [← h4, Char.ofNat_toNat]
          rw [show (['\\', 't'] ++ rest : List Char) = '\\' :: 't' :: rest from rfl,
            parseJSBodyAux, if_neg (by decide), if_pos rfl, unescapeCons,
            if_neg (by decide), if_neg (by decide), if_neg (by decide),
            if_neg (by decide), if_pos rfl, Option.some_bind, ← hc]
        · rw [if_neg h4]
          by_cases h5 : c.toNat = 10
          · rw [if_pos h5]
            have hc : c = Char.ofNat 10 := by rw [← h5, Char.ofNat_toNat]
            rw [show (['\\', 'n'] ++ rest : List Char) = '\\' :: 'n' :: rest from rfl,
              parseJSBodyAux, if_neg (by decide), if_pos rfl, unescapeCons,
              if_neg (by decide), if_neg (by decide), if_neg (by decide),
              if_neg (by decide), if_neg (by decide), if_pos rfl, Option.some_bind, ← hc]
          · rw [if_neg h5]
            by_cases h6 : c.toNat = 12
            · rw [if_pos h6]
              have hc : c = Char.ofNat 12 := by rw [← h6, Char.ofNat_toNat]
              rw [show (['\\', 'f'] ++ rest : List Char) = '\\' :: 'f' :: rest from rfl,
                parseJSBodyAux, if_neg (by decide), if_pos rfl, unescapeCons,
                if_neg (by decide), if_neg (by decide), if_neg (by decide),
                if_neg (by decide), if_neg (by decide), if_neg (by decide), if_pos rfl,
                Option.some_bind, ← hc]
            · rw [if_neg h6]
              by_cases h7 : c.toNat = 13
              · rw [if_pos h7]
                have hc : c = Char.ofNat 13 := by rw [← h7, Char.ofNat_toNat]
                rw [show (['\\', 'r'] ++ rest : List Char) = '\\' :: 'r' :: rest from rfl,
                  parseJSBodyAux, if_neg (by decide), if_pos rfl, unescapeCons,
                  if_neg (by decide), if_neg (by decide), if_neg (by decide),
                  if_neg (by decide), if_neg (by decide), if_neg (by decide),
                  if_neg (by decide), if_pos rfl, Option.some_bind, ← hc]
              · rw [if_neg h7]
                by_cases h8 : 0x20 ≤ c.toNat ∧ c.toNat ≤ 0x7E
                · rw [if_pos h8]
                  rw [show ([c] ++ rest : List Char) = c :: rest from rfl,
                    parseJSBodyAux, if_neg h1, if_neg h2]
                · rw [if_neg h8]
                  have hvalid : c.toNat < 0xd800 ∨ (0xdfff < c.toNat ∧ c.toNat < 0x110000) :=
                    c.valid
                  by_cases h9 : c.toNat < 0x10000
                  · rw [if_pos h9]
                    rw [show (uEscape c.toNat ++ rest : List Char) =
                      '\\' :: 'u' :: (hexDigitChar (c.toNat / 4096 % 16) ::
                        hexDigitChar (c.toNat / 256 % 16) :: hexDigitChar (c.toNat / 16 % 16) ::
                        hexDigitChar (c.toNat % 16) :: rest) from rfl,
                      parseJSBodyAux, if_neg (by decide), if_pos rfl,
                      unescapeCons_uEscape_bmp h9 (by omega), mkChar?_toNat]
                    show ((some (c, rest)).bind fun p =>
                      (parseJSBodyAux fuel p.2).map (fun q => (p.1 :: q.1, q.2))) =
                      (parseJSBodyAux fuel rest).map (fun q => (c :: q.1, q.2))
                    rw [Option.some_bind]
                  · rw [if_neg h9]
                    have hm : c.toNat - 0x10000 < 0x100000 := by omega
                    set hi := 0xD800 + (c.toNat - 0x10000) / 1024 with hhi
                    set lo := 0xDC00 + (c.toNat - 0x10000) % 1024 with hlo
                    have hhi16 : hi < 0x10000 := by rw [hhi]; omega
                    have hlo16 : lo < 0x10000 := by rw [hlo]; omega
                    rw [show (uEscape hi ++ uEscape lo ++ rest : List Char) =
                      '\\' :: 'u' :: (hexDigitChar (hi / 4096 % 16) ::
                        hexDigitChar (hi / 256 % 16) :: hexDigitChar (hi / 16 % 16) ::
                        hexDigitChar (hi % 16) ::
                        ('\\' :: 'u' :: (hexDigitChar (lo / 4096 % 16) ::
                          hexDigitChar (lo / 256 % 16) :: hexDigitChar (lo / 16 % 16) ::
                          hexDigitChar (lo % 16) :: rest))) from rfl,
                      parseJSBodyAux, if_neg (by decide), if_pos rfl]
                    rw [unescapeCons, if_neg (by decide), if_neg (by decide),
                      if_neg (by decide), if_neg (by decide), if_neg (by decide),
                      if_neg (by decide), if_neg (by decide), if_neg (by decide), if_pos rfl,
                      parseHex4_uEscape hhi16, Option.some_bind,
                      if_pos (by constructor <;> omega)]
                    show ((parseHex4 (hexDigitChar (lo / 4096 % 16) ::
                        hexDigitChar (lo / 256 % 16) :: hexDigitChar (lo / 16 % 16) ::
                        hexDigitChar (lo % 16) :: rest)).bind fun pn2 =>
                      if 0xDC00 ≤ pn2.1 ∧ pn2.1 < 0xE000 then
                        (mkChar? (0x10000 + (hi - 0xD800) * 1024 + (pn2.1 - 0xDC00))).map
                          fun ch => (ch, pn2.2)
                      else none).bind (fun p =>
                        (parseJSBodyAux fuel p.2).map (fun q => (p.1 :: q.1, q.2))) =
                      (parseJSBodyAux fuel rest).map (fun q => (c :: q.1, q.2))
                    rw [parseHex4_uEscape hlo16, Option.some_bind,
                      if_pos (by constructor <;> omega)]
                    have hcomb : 0x10000 + (hi - 0xD800) * 1024 + (lo - 0xDC00) = c.toNat := by
                      rw [hhi, hlo]
                      omega
                    rw [hcomb, mkChar?_toNat]
                    rfl

theorem jBody_cons (c : Char) (t : List Char) :
    jBody (c :: t) = escapeChar c ++ jBody t := rfl

theorem escapeChar_length_pos (c : Char) : 1 ≤ (escapeChar c).length := by
  rw [escapeChar]
  split_ifs <;> simp [uEscape]

theorem jBody_length_ge (cs : List Char) : cs.length ≤ (jBody cs).length := by
  induction cs with
  | nil => simp [jBody]
  | cons c t ih =>
    rw [jBody_cons]
    simp only [List.length_cons, List.length_append]
    have := escapeChar_length_pos c
    omega

theorem parseJSBody_jBody (cs : List Char) :
    ∀ (fuel : Nat) (rest : List Char),
      parseJSBodyAux (fuel + cs.length + 1) (jBody cs ++ '"' :: rest) = some (cs, rest) := by
  induction cs with
  | nil =>
    intro fuel rest
    rw [show (jBody [] ++ '"' :: rest : List Char) = '"' :: rest from rfl,
      parseJSBodyAux, if_pos rfl]
  | cons c t ih =>
    intro fuel rest
    rw [jBody_cons, List.append_assoc]
    rw [show fuel + (c :: t).length + 1 = (fuel + t.length + 1) + 1 by
      simp only [List.length_cons]; omega]
    rw [parseJSBody_escapeChar, ih]
    rfl

theorem parseStr_cons_quote (X : List Char) :
    parseStr ('"' :: X) =
      (parseJSBodyAux (X.length + 1) X).map (fun p => (String.mk p.1, p.2)) := rfl

theorem parseStr_jString (s : String) (rest : List Char) :
    parseStr (jString s ++ rest) = some (s, rest) := by
  obtain ⟨cs⟩ := s
  have hshape : jString ⟨cs⟩ ++ rest = '"' :: (jBody cs ++ '"' :: rest) := by
    simp [jString]
  rw [hshape, parseStr_cons_quote]
  have hlen := jBody_length_ge cs
  obtain ⟨d, hd⟩ : ∃ d, (jBody cs ++ '"' :: rest).length + 1 = d + cs.length + 1 :=
    ⟨(jBody cs).length - cs.length + rest.length + 1, by
      simp only [List.length_append, List.length_cons]
      omega⟩
  rw [hd, parseJSBody_jBody]
  rfl

theorem dropToken_append (toks rest : List Char) :
    dropToken toks (toks ++ rest) = some rest := by
  induction toks with
  | nil => rfl
  | cons t ts ih =>
    rw [show ((t :: ts) ++ rest : List Char) = t :: (ts ++ rest) from rfl, dropToken,
      if_pos rfl, ih]

theorem jString_length_ge (s : String) : 2 ≤ (jString s).length := by
  rw [jString]
  simp

theorem dumpPairs_one (p : String × String) :
    dumpPairs [p] = jString p.1 ++ ':' :: ' ' :: (jString p.2 ++ ['}']) := rfl

theorem dumpPairs_cons2 (p q : String × String) (qs : List (String × String)) :
    dumpPairs (p :: q :: qs) =
      jString p.1 ++ ':' :: ' ' :: (jString p.2 ++ ',' :: ' ' :: dumpPairs (q :: qs)) := rfl

theorem dumpPairs_length_ge (ps : List (String × String)) :
    ps.length ≤ (dumpPairs ps).length := by
  induction ps with
  | nil => simp [dumpPairs]
  | cons p ps ih =>
    cases ps with
    | nil =>
      rw [dumpPairs_one]
      have h1 := jString_length_ge p.1
      simp only [List.length_cons, List.length_append, List.length_nil]
      omega
    | cons q qs =>
      rw [dumpPairs_cons2]
      have h1 := jString_length_ge p.1
      simp only [List.length_cons, List.length_append] at *
      omega

theorem parsePairs_dumpPairs (ps : List (String × String)) (hne : ps ≠ []) :
    ∀ (fuel : Nat) (rest : List Char),
      parsePairsAux (fuel + ps.length) (dumpPairs ps ++ rest) = some (ps, rest) := by
  induction ps with
  | nil => exact absurd rfl hne
  | cons p ps ih =>
    intro fuel rest
    cases ps with
    | nil =>
      rw [show fuel + ([p] : List (String × String)).length = fuel + 1 from rfl,
        dumpPairs_one, parsePairsAux]
      rw [show ((jString p.1 ++ ':' :: ' ' :: (jString p.2 ++ ['}'])) ++ rest : List Char) =
        jString p.1 ++ (':' :: ' ' :: (jString p.2 ++ '}' :: rest)) by
          simp [List.append_assoc]]
      rw [parseStr_jString, Option.some_bind]
      rw [show (':' :: ' ' :: (jString p.2 ++ '}' :: rest) : List Char) =
        [':', ' '] ++ (jString p.2 ++ '}' :: rest) from rfl, dropToken_append,
        Option.some_bind, parseStr_jString, Option.some_bind]
      rw [show sepOrEnd ('}' :: rest) = some (false, rest) from rfl, Option.some_bind]
      rfl
    | cons q qs =>
      rw [show fuel + (p :: q :: qs : List (String × String)).length =
        (fuel + (q :: qs : List (String × String)).length) + 1 by simp; omega]
      rw [dumpPairs_cons2, parsePairsAux]
      rw [show ((jString p.1 ++ ':' :: ' ' ::
          (jString p.2 ++ ',' :: ' ' :: dumpPairs (q :: qs))) ++ rest : List Char) =
        jString p.1 ++ (':' :: ' ' ::
          (jString p.2 ++ ',' :: ' ' :: (dumpPairs (q :: qs) ++ rest))) by
          simp [List.append_assoc]]
      rw [parseStr_jString, Option.some_bind]
      rw [show (':' :: ' ' :: (jString p.2 ++ ',' :: ' ' ::
          (dumpPairs (q :: qs) ++ rest)) : List Char) =
        [':', ' '] ++ (jString p.2 ++ ',' :: ' ' :: (dumpPairs (q :: qs) ++ rest)) from rfl,
        dropToken_append, Option.some_bind, parseStr_jString, Option.some_bind]
      rw [show sepOrEnd (',' :: ' ' :: (dumpPairs (q :: qs) ++ rest)) =
        some (true, dumpPairs (q :: qs) ++ rest) from rfl, Option.some_bind]
      rw [if_pos rfl, ih (List.cons_ne_nil q qs) fuel rest]
      rfl

theorem parseObj_dumpObj (ps : List (String × String)) (rest : List Char) :
    parseObj (dumpObj ps ++ rest) = some (ps, rest) := by
  cases ps with
  | nil =>
    rw [show (dumpObj [] ++ rest : List Char) = '{' :: '}' :: rest from rfl]
    show (if ('}' : Char) = '}' then some (([] : List (String × String)), rest)
      else parsePairsAux (rest.length + 2) ('}' :: rest)) = some ([], rest)
    rw [if_pos rfl]
  | cons p ps =>
    have hdp : ∃ X, dumpPairs (p :: ps) = '"' :: X := by
      cases ps with
      | nil => exact ⟨_, rfl⟩
      | cons q qs => exact ⟨_, rfl⟩
    obtain ⟨X, hX⟩ := hdp
    rw [show (dumpObj (p :: ps) ++ rest : List Char) =
      '{' :: (dumpPairs (p :: ps) ++ rest) from rfl, hX]
    rw [show (('"' :: X) ++ rest : List Char) = '"' :: (X ++ rest) from rfl]
    show (if ('"' : Char) = '}' then some (([] : List (String × String)), X ++ rest)
      else parsePairsAux ((X ++ rest).length + 2) ('"' :: (X ++ rest))) =
      some (p :: ps, rest)
    rw [if_neg (by decide)]
    have hback : ('"' :: (X ++ rest) : List Char) = dumpPairs (p :: ps) ++ rest := by
      rw [hX]
      rfl
    rw [hback]
    have hlen : (p :: ps : List (String × String)).length ≤ (X ++ rest).length + 2 := by
      have h1 := dumpPairs_length_ge (p :: ps)
      rw [hX] at h1
      simp only [List.length_cons, List.length_append] at *
      omega
    obtain ⟨f0, hf0⟩ : ∃ f0, (X ++ rest).length + 2 =
        f0 + (p :: ps : List (String × String)).length :=
      ⟨(X ++ rest).length + 2 - (p :: ps : List (String × String)).length, by omega⟩
    rw [hf0, parsePairs_dumpPairs (p :: ps) (List.cons_ne_nil p ps) f0 rest]

/-- `ParseKey ∘ MakeKey` round trip: parsing a generated key recovers the
metric name, the sample name, and the labels (as the sorted dict built
from the given names and values). -/
theorem parseKey_mmap_key (m n : String) (lns lvs : List String) :
    parseKey (mmap_key m n lns lvs) =
      some (m, n, sortPairs (pyDict (lns.zip lvs))) := by
  set L := sortPairs (pyDict (lns.zip lvs)) with hL
  show (parseStr (jString m ++ (',' :: ' ' :: (jString n ++ (',' :: ' ' ::
      (dumpObj L ++ [']'])))))).bind (fun pm =>
    (dropToken [',', ' '] pm.2).bind fun cs2 =>
    (parseStr cs2).bind fun pn =>
    (dropToken [',', ' '] pn.2).bind fun cs4 =>
    (parseObj cs4).bind fun pl =>
      if pl.2 = [']'] then some (pm.1, pn.1, pl.1) else none) =
    some (m, n, L)
  rw [parseStr_jString, Option.some_bind]
  rw [show (',' :: ' ' :: (jString n ++ (',' :: ' ' :: (dumpObj L ++ [']']))) :
      List Char) =
    [',', ' '] ++ (jString n ++ (',' :: ' ' :: (dumpObj L ++ [']']))) from rfl,
    dropToken_append, Option.some_bind, parseStr_jString, Option.some_bind]
  rw [show (',' :: ' ' :: (dumpObj L ++ [']']) : List Char) =
    [',', ' '] ++ (dumpObj L ++ [']']) from rfl,
    dropToken_append, Option.some_bind, parseObj_dumpObj, Option.some_bind,
    if_pos rfl]

instance : IsTotal (String × String) pairLe := by
  constructor
  intro p q
  rw [pairLe, pairLe]
  rcases lt_trichotomy p.1 q.1 with h | h | h
  · exact Or.inl (Or.inl h)
  · rcases le_total p.2 q.2 with h2 | h2
    · exact Or.inl (Or.inr ⟨h, h2⟩)
    · exact Or.inr (Or.inr ⟨h.symm, h2⟩)
  · exact Or.inr (Or.inl h)

instance : IsTrans (String × String) pairLe := by
  constructor
  intro p q r hpq hqr
  rw [pairLe] at *
  rcases hpq with h1 | ⟨h1, h1v⟩ <;> rcases hqr with h2 | ⟨h2, h2v⟩
  · exact Or.inl (h1.trans h2)
  · exact Or.inl (h2 ▸ h1)
  · exact Or.inl (h1 ▸ h2)
  · exact Or.inr ⟨h1.trans h2, h1v.trans h2v⟩

instance : IsAntisymm (String × String) pairLe := by
  constructor
  intro p q hpq hqp
  rw [pairLe] at *
  rcases hpq with h1 | ⟨h1, h1v⟩ <;> rcases hqp with h2 | ⟨h2, h2v⟩
  · exact absurd (h1.trans h2) (lt_irrefl _)
  · exact absurd h1 (h2 ▸ lt_irrefl _)
  · exact absurd h2 (h1 ▸ lt_irrefl _)
  · exact Prod.ext h1 (h1v.antisymm h2v)

/-- Sorting is invariant under permutation of the input (a permutation
followed by an order-antisymmetric sort gives identical lists). -/
theorem sortPairs_congr_perm {l₁ l₂ : List (String × String)} (hp : l₁.Perm l₂) :
    sortPairs l₁ = sortPairs l₂ :=
  List.eq_of_perm_of_sorted (r := pairLe)
    ((List.perm_insertionSort pairLe l₁).trans
      (hp.trans (List.perm_insertionSort pairLe l₂).symm))
    (List.sorted_insertionSort pairLe l₁)
    (List.sorted_insertionSort pairLe l₂)

theorem zip_keys_sublist (lns lvs : List String) :
    List.Sublist (alKeys (lns.zip lvs)) lns := by
  induction lns generalizing lvs with
  | nil => simp [alKeys]
  | cons a lns ih =>
    cases lvs with
    | nil => simp [alKeys]
    | cons b lvs =>
      rw [List.zip_cons_cons]
      exact List.Sublist.cons₂ a (ih lvs)

theorem alGet_some_iff_mem {α β : Type} [DecidableEq α] {l : List (α × β)}
    (hnd : (alKeys l).Nodup) (k : α) (v : β) :
    alGet l k = some v ↔ (k, v) ∈ l := by
  induction l with
  | nil => simp [alGet]
  | cons p rest ih =>
    obtain ⟨a, b⟩ := p
    simp only [alKeys, List.map_cons, List.nodup_cons] at hnd
    by_cases h : a = k
    · subst h
      rw [alGet, if_pos rfl]
      constructor
      · intro hsome
        injection hsome with hsome
        subst hsome
        exact List.mem_cons_self _ _
      · intro hmem
        rcases List.mem_cons.mp hmem with heq | hmem2
        · rw [Prod.ext_iff] at heq
          exact congrArg some heq.2.symm
        · exact absurd (List.mem_map.mpr ⟨(_, v), hmem2, rfl⟩) hnd.1
    · rw [alGet, if_neg h]
      rw [ih (by simpa [alKeys] using hnd.2)]
      constructor
      · exact fun hmem => List.mem_cons_of_mem _ hmem
      · intro hmem
        rcases List.mem_cons.mp hmem with heq | hmem2
        · rw [Prod.ext_iff] at heq
          exact absurd heq.1.symm h
        · exact hmem2

theorem alGet_congr_perm {α β : Type} [DecidableEq α] {l₁ l₂ : List (α × β)}
    (hp : l₁.Perm l₂) (hnd : (alKeys l₁).Nodup) (k : α) :
    alGet l₁ k = alGet l₂ k := by
  have hnd₂ : (alKeys l₂).Nodup := (hp.map Prod.fst).nodup_iff.mp hnd
  cases hv : alGet l₁ k with
  | none =>
    rw [alGet_eq_none_iff] at hv
    have : k ∉ alKeys l₂ := fun hmem => hv ((hp.map Prod.fst).mem_iff.mpr hmem)
    exact ((alGet_eq_none_iff l₂ k).mpr this).symm
  | some v =>
    rw [alGet_some_iff_mem hnd] at hv
    exact ((alGet_some_iff_mem hnd₂ k v).mpr (hp.mem_iff.mp hv)).symm

/-! ### The mmap-backed dict (`mmap_dict.MmapedDict`)

The file layout is modelled byte-for-byte: a 4-byte header int (`used`),
4 bytes of padding, then records of a 4-byte key length, the UTF-8 key
bytes, space padding to 8-byte alignment, and a packed 16-byte
(value, timestamp) double pair.  A `Cell` is one byte; packed ints and
doubles are tagged with the value they encode and their byte index. -/

/-- One byte of the mmapped file. -/
inductive Cell where
  | zero : Cell
  | intB (v : Int) (i : Nat) : Cell
  | strB (b : Nat) : Cell
  | vtB (v : PFloat) (t : PFloat) (i : Nat) : Cell
deriving DecidableEq

/-- The mmapped file contents (zero-extended to infinity: `truncate`
extends the file with zero bytes). -/
def Mem : Type := Nat → Cell

/-- A fresh (all-zeroes) file. -/
def zeroMem : Mem := fun _ => .zero

/-- Write a run of bytes at a position (a raw slice assignment
`m[pos:pos+len] = ...`). -/
def writeList (m : Mem) (pos : Nat) (cs : List Cell) : Mem :=
  fun n => if pos ≤ n ∧ n - pos < cs.length then cs.getD (n - pos) .zero else m n

/-- `struct.pack('i', v)`: the four bytes of a packed little-endian
int32. -/
def encodeInt (v : Int) : List Cell := [.intB v 0, .intB v 1, .intB v 2, .intB v 3]

/-- `struct.unpack_from('i', m, pos)`: reads a packed int32.  All-zero
bytes decode as 0 (a fresh file); byte patterns that were never written
as a packed int have no decoding in the model. -/
def readInt (m : Mem) (pos : Nat) : Option Int :=
  match m pos, m (pos + 1), m (pos + 2), m (pos + 3) with
  | .intB v 0, .intB w 1, .intB x 2, .intB y 3 =>
      if v = w ∧ w = x ∧ x = y then some v else none
  | .zero, .zero, .zero, .zero => some 0
  | _, _, _, _ => none

/-- `struct.Struct('dd').pack(value, timestamp)`: 16 bytes. -/
def encodeVT (v t : PFloat) : List Cell := (List.range 16).map (fun i => .vtB v t i)

/-- `struct.Struct('dd').unpack_from(m, pos)`. -/
def readVT (m : Mem) (pos : Nat) : Option (PFloat × PFloat) :=
  match m pos with
  | .vtB v t 0 =>
      if (List.range 16).all (fun i => decide (m (pos + i) = .vtB v t i)) then some (v, t)
      else none
  | _ => none

/-- Read a run of raw string bytes (the `'%ss' % len` unpack). -/
def readBytes (m : Mem) (pos : Nat) : Nat → Option (List Nat)
  | 0 => some []
  | len + 1 =>
    match m pos with
    | .strB b => (readBytes m (pos + 1) len).map (b :: ·)
    | _ => none

/-- Source: `mmap_dict._to_timestamp_float` — `None` is encoded as
`+Inf`. -/
def toTimestampFloat : Option ℚ → PFloat
  | none => .inf
  | some q => .fin q

/-- Source: `mmap_dict._from_timestamp_float` — `+Inf` is decoded as
`None` (absent).  `-Inf` never occurs through the modelled API. -/
def fromTimestampFloat : PFloat → Option ℚ
  | .inf => none
  | .fin q => some q
  | .ninf => none

/-- The in-memory state of an open `MmapedDict`. -/
structure MmapedDict where
  m : Mem
  capacity : Nat
  positions : List (String × Nat)
  used : Nat

/-- The capacity-doubling `while` loop of `_init_value` (fuel-based; the
fuel `need` always suffices since doubling a positive capacity reaches any
bound within `need` steps). -/
def growCapAux : Nat → Nat → Nat → Nat
  | 0, _, cap => cap
  | fuel + 1, need, cap => if need ≤ cap then cap else growCapAux fuel need (cap * 2)

/-- Capacity after the growth loop for a required size. -/
def growCap (need cap : Nat) : Nat := growCapAux need need cap

/-- Source: `MmapedDict._init_value` — append a fresh record
`int32(len(key_utf8)) + key_utf8 + b' ' * (8 - (len + 4) % 8) +
pack('dd', 0.0, 0.0)`, bump `used`, rewrite the header, record the
value offset. -/
def initValue (s : MmapedDict) (key : String) : MmapedDict :=
  let encoded := utf8Encode key
  let pad := 8 - (encoded.length + 4) % 8
  let record := encodeInt encoded.length ++ encoded.map .strB ++
    List.replicate pad (.strB 32) ++ encodeVT (.fin 0) (.fin 0)
  let cap2 := growCap (s.used + record.length) s.capacity
  let m2 := writeList s.m s.used record
  let used2 := s.used + record.length
  let m3 := writeList m2 0 (encodeInt (used2 : Int))
  { m := m3, capacity := cap2,
    positions := alSet s.positions key (used2 - 16), used := used2 }

/-- Source: `MmapedDict.write_value`. -/
def write_value (s : MmapedDict) (key : String) (value : ℚ)
    (timestamp : Option ℚ) : MmapedDict :=
  let s1 := if alGet s.positions key = none then initValue s key else s
  match alGet s1.positions key with
  | some pos =>
      { s1 with m := writeList s1.m pos (encodeVT (.fin value) (toTimestampFloat timestamp)) }
  | none => s1

/-- Source: `MmapedDict.read_value_timestamp` (allocates an unknown key
first, like the Python code). -/
def read_value_timestamp (s : MmapedDict) (key : String) :
    MmapedDict × Option (PFloat × Option ℚ) :=
  let s1 := if alGet s.positions key = none then initValue s key else s
  match alGet s1.positions key with
  | some pos => (s1, (readVT s1.m pos).map (fun vt => (vt.1, fromTimestampFloat vt.2)))
  | none => (s1, none)

/-- Failures of `_read_all_values`: `corruption` is the explicit
`RuntimeError` bound check; `garbage` stands for raw struct unpacks of
byte patterns the cell model cannot decode (never produced by the API). -/
inductive ReadErr where
  | corruption : ReadErr
  | garbage : ReadErr
deriving DecidableEq

/-- Source: the scan loop of `MmapedDict._read_all_values`, yielding
`(key, value, timestamp, pos)`.  Fuel bounds the number of iterations;
each record occupies at least 21 bytes, so fuel `used` always suffices. -/
def readRecordsAux (m : Mem) (used : Nat) :
    Nat → Nat → Except ReadErr (List (String × PFloat × Option ℚ × Nat))
  | 0, pos => if pos < used then .error .garbage else .ok []
  | fuel + 1, pos =>
    if pos < used then
      match readInt m pos with
      | none => .error .garbage
      | some L =>
        if L + (pos : Int) > (used : Int) then .error .corruption
        else if L < 0 then .error .garbage
        else
          match readBytes m (pos + 4) L.toNat with
          | none => .error .garbage
          | some bytes =>
            match utf8Decode bytes with
            | none => .error .garbage
            | some key =>
              let padded := L.toNat + (8 - (L.toNat + 4) % 8)
              let pos2 := pos + 4 + padded
              match readVT m pos2 with
              | none => .error .garbage
              | some vt =>
                (readRecordsAux m used fuel (pos2 + 16)).map
                  (fun entries => (key, vt.1, fromTimestampFloat vt.2, pos2) :: entries)
    else .ok []

/-- Source: `MmapedDict._read_all_values`. -/
def readAllRecords (s : MmapedDict) :
    Except ReadErr (List (String × PFloat × Option ℚ × Nat)) :=
  readRecordsAux s.m s.used s.used 8

/-- Source: `MmapedDict.read_all_values` (drops the position). -/
def read_all_values (s : MmapedDict) :
    Except ReadErr (List (String × PFloat × Option ℚ)) :=
  (readAllRecords s).map (List.map (fun e => (e.1, e.2.1, e.2.2.1)))

/-- Source: `MmapedDict.__init__` on a file with the given contents and
size: an empty file is truncated to 1 MiB and its header initialized to
`used = 8`; otherwise `used` is read from the header and (in write mode)
the position index is rebuilt by scanning all records. -/
def openDict (m : Mem) (fileSize : Nat) (readMode : Bool) :
    Except ReadErr MmapedDict :=
  let cap := if fileSize = 0 then 2 ^ 20 else fileSize
  match readInt m 0 with
  | none => .error .garbage
  | some u =>
    if u = 0 then
      .ok { m := writeList m 0 (encodeInt 8), capacity := cap, positions := [], used := 8 }
    else if readMode then
      .ok { m := m, capacity := cap, positions := [], used := u.toNat }
    else
      match readRecordsAux m u.toNat u.toNat 8 with
      | .error e => .error e
      | .ok entries =>
        .ok { m := m, capacity := cap,
              positions := entries.foldl (fun ps e => alSet ps e.1 e.2.2.2) [],
              used := u.toNat }

/-- A store freshly opened on an empty file. -/
def freshDict : MmapedDict :=
  { m := writeList zeroMem 0 (encodeInt 8), capacity := 2 ^ 20, positions := [], used := 8 }

/-- A single-threaded sequence of `write_value` calls. -/
def applyWrites (s : MmapedDict) (ws : List (String × ℚ × Option ℚ)) : MmapedDict :=
  ws.foldl (fun st w => write_value st w.1 w.2.1 w.2.2) s

theorem openDict_empty : openDict zeroMem 0 false = .ok freshDict := rfl

/-! ### Memory layout lemmas -/

theorem writeList_nil (m : Mem) (pos : Nat) : writeList m pos [] = m := by
  funext n
  simp [writeList]

theorem writeList_append (m : Mem) (pos : Nat) (l₁ l₂ : List Cell) :
    writeList m pos (l₁ ++ l₂) = writeList (writeList m pos l₁) (pos + l₁.length) l₂ := by
  funext n
  simp only [writeList, List.length_append]
  by_cases h1 : pos ≤ n ∧ n - pos < l₁.length
  · rw [if_pos ⟨h1.1, by omega⟩, if_neg (by omega), if_pos h1,
      List.getD_append _ _ _ _ (by omega)]
  · by_cases h2 : pos + l₁.length ≤ n ∧ n - (pos + l₁.length) < l₂.length
    · rw [if_pos (by omega), if_pos h2,
        List.getD_append_right _ _ _ _ (by omega)]
      congr 1
      omega
    · rw [if_neg (by omega), if_neg h2, if_neg h1]

theorem writeList_comm_disjoint (m : Mem) (p₁ p₂ : Nat) (l₁ l₂ : List Cell)
    (h : p₁ + l₁.length ≤ p₂) :
    writeList (writeList m p₁ l₁) p₂ l₂ = writeList (writeList m p₂ l₂) p₁ l₁ := by
  funext n
  simp only [writeList]
  by_cases h1 : p₁ ≤ n ∧ n - p₁ < l₁.length
  · rw [if_neg (by omega), if_pos h1, if_pos h1]
  · by_cases h2 : p₂ ≤ n ∧ n - p₂ < l₂.length
    · rw [if_pos h2, if_neg h1, if_pos h2]
    · rw [if_neg h2, if_neg h1, if_neg h1, if_neg h2]

theorem writeList_overwrite (m : Mem) (pos : Nat) (l₁ l₂ : List Cell)
    (h : l₁.length = l₂.length) :
    writeList (writeList m pos l₁) pos l₂ = writeList m pos l₂ := by
  funext n
  simp only [writeList]
  by_cases h2 : pos ≤ n ∧ n - pos < l₂.length
  · rw [if_pos h2, if_pos h2]
  · rw [if_neg h2, if_neg h2, if_neg (by omega)]

/-- The canonical memory of a store: a packed header int at offset 0 and
the record cells from offset 8. -/
def mkMem (used : Int) (cells : List Cell) : Mem :=
  writeList (writeList zeroMem 0 (encodeInt used)) 8 cells

theorem mkMem_apply (u : Int) (X : List Cell) (n : Nat) :
    mkMem u X n = if 8 ≤ n ∧ n - 8 < X.length then X.getD (n - 8) Cell.zero
      else if n < 4 then Cell.intB u n else Cell.zero := by
  simp only [mkMem, writeList, encodeInt, zeroMem, List.length_cons, List.length_nil]
  by_cases h2 : 8 ≤ n ∧ n - 8 < X.length
  · rw [if_pos h2, if_pos h2]
  · rw [if_neg h2, if_neg h2]
    by_cases h1 : n < 4
    · rw [if_pos (by omega), if_pos h1]
      interval_cases n <;> rfl
    · rw [if_neg (by omega), if_neg h1]

theorem mkMem_header_rewrite (u u₂ : Int) (X : List Cell) :
    writeList (mkMem u X) 0 (encodeInt u₂) = mkMem u₂ X := by
  funext n
  rw [mkMem_apply u₂ X n]
  simp only [writeList, encodeInt, List.length_cons, List.length_nil]
  by_cases h1 : n < 4
  · rw [if_pos (by omega), if_neg (by omega), if_pos h1]
    interval_cases n <;> rfl
  · rw [if_neg (by omega), mkMem_apply]
    by_cases h2 : 8 ≤ n ∧ n - 8 < X.length
    · rw [if_pos h2, if_pos h2]
    · rw [if_neg h2, if_neg h2, if_neg h1, if_neg h1]

theorem mkMem_append_write (u : Int) (X rec : List Cell) :
    writeList (mkMem u X) (8 + X.length) rec = mkMem u (X ++ rec) := by
  rw [mkMem, mkMem, writeList_append]

/-- Replace a fixed-size slice in the middle of the record area. -/
theorem mkMem_update_middle (u : Int) (A V B W : List Cell)
    (h : W.length = V.length) :
    writeList (mkMem u (A ++ V ++ B)) (8 + A.length) W = mkMem u (A ++ W ++ B) := by
  have e1 : mkMem u (A ++ V ++ B) =
      writeList (writeList (mkMem u A) (8 + A.length) V) (8 + (A ++ V).length) B := by
    rw [mkMem_append_write, mkMem_append_write]
  have hlav : (A ++ V).length = A.length + V.length := List.length_append A V
  have hlaw : (A ++ W).length = A.length + W.length := List.length_append A W
  have hd : 8 + A.length + W.length ≤ 8 + (A ++ V).length := by omega
  calc writeList (mkMem u (A ++ V ++ B)) (8 + A.length) W
      = writeList (writeList (writeList (mkMem u A) (8 + A.length) V)
          (8 + (A ++ V).length) B) (8 + A.length) W := by rw [e1]
    _ = writeList (writeList (writeList (mkMem u A) (8 + A.length) V)
          (8 + A.length) W) (8 + (A ++ V).length) B :=
        (writeList_comm_disjoint _ _ _ _ _ hd).symm
    _ = writeList (writeList (mkMem u A) (8 + A.length) W) (8 + (A ++ V).length) B := by
        rw [writeList_overwrite _ _ _ _ h.symm]
    _ = writeList (mkMem u (A ++ W)) (8 + (A ++ W).length) B := by
        rw [show (8 + (A ++ V).length) = (8 + (A ++ W).length) by omega,
          mkMem_append_write]
    _ = mkMem u ((A ++ W) ++ B) := mkMem_append_write u (A ++ W) B

/-- The bytes at positions `pos..pos+|cs|` are exactly `cs`. -/
def matchesAt (m : Mem) (pos : Nat) (cs : List Cell) : Prop :=
  ∀ i, i < cs.length → m (pos + i) = cs.getD i .zero

theorem matchesAt_append {m : Mem} {pos : Nat} {l₁ l₂ : List Cell}
    (h : matchesAt m pos (l₁ ++ l₂)) :
    matchesAt m pos l₁ ∧ matchesAt m (pos + l₁.length) l₂ := by
  constructor
  · intro i hi
    rw [h i (by simp; omega), List.getD_append _ _ _ _ hi]
  · intro i hi
    have := h (l₁.length + i) (by simp; omega)
    rw [List.getD_append_right _ _ _ _ (by omega)] at this
    rw [show pos + l₁.length + i = pos + (l₁.length + i) by omega, this]
    congr 1
    omega

theorem mkMem_matchesAt (u : Int) (X : List Cell) : matchesAt (mkMem u X) 8 X := by
  intro i hi
  simp only [mkMem, writeList]
  rw [if_pos (by constructor <;> omega)]
  congr 1
  omega

theorem readInt_mkMem (u : Int) (X : List Cell) : readInt (mkMem u X) 0 = some u := by
  have h : ∀ j, j < 4 → mkMem u X j = Cell.intB u j := by
    intro j hj
    simp only [mkMem, writeList, encodeInt, zeroMem]
    rw [if_neg (by simp; omega), if_pos (by constructor <;> simp <;> omega)]
    interval_cases j <;> rfl
  rw [readInt, h 0 (by omega), h 1 (by omega), h 2 (by omega), h 3 (by omega)]
  simp

theorem readInt_matchesAt {m : Mem} {pos : Nat} {v : Int}
    (h : matchesAt m pos (encodeInt v)) : readInt m pos = some v := by
  have h0 := h 0 (by simp [encodeInt])
  have h1 := h 1 (by simp [encodeInt])
  have h2 := h 2 (by simp [encodeInt])
  have h3 := h 3 (by simp [encodeInt])
  simp only [encodeInt] at h0 h1 h2 h3
  rw [readInt, show pos + 0 = pos by omega] at *
  rw [h0, h1, h2, h3]
  simp

theorem readVT_matchesAt {m : Mem} {pos : Nat} {v t : PFloat}
    (h : matchesAt m pos (encodeVT v t)) : readVT m pos = some (v, t) := by
  have hlen : (encodeVT v t).length = 16 := by simp [encodeVT]
  have hcell : ∀ i, i < 16 → m (pos + i) = Cell.vtB v t i := by
    intro i hi
    have := h i (by omega)
    rwa [encodeVT, List.getD_eq_getElem?_getD, List.getElem?_map, List.getElem?_range hi]
      at this
  rw [readVT, show pos = pos + 0 by omega, hcell 0 (by omega)]
  show (if ((List.range 16).all fun i => decide (m (pos + 0 + i) = Cell.vtB v t i)) = true
    then some (v, t) else none) = some (v, t)
  rw [if_pos]
  rw [List.all_eq_true]
  intro i hi
  rw [List.mem_range] at hi
  rw [show pos + 0 + i = pos + i by omega, hcell i hi]
  simp

theorem readBytes_matchesAt {m : Mem} {pos : Nat} {bs : List Nat}
    (h : matchesAt m pos (bs.map Cell.strB)) : readBytes m pos bs.length = some bs := by
  induction bs generalizing pos with
  | nil => rfl
  | cons b bs ih =>
    have h0 : m pos = Cell.strB b := by
      have := h 0 (by simp)
      simpa using this
    rw [show (b :: bs).length = bs.length + 1 from rfl, readBytes, h0]
    have hrest : matchesAt m (pos + 1) (bs.map Cell.strB) := by
      intro i hi
      have := h (i + 1) (by simp at hi ⊢; omega)
      rw [show pos + (i + 1) = pos + 1 + i by omega] at this
      rw [this]
      simp [List.getD_cons_succ]
    rw [ih hrest]
    rfl

/-! ### Record layout and the store invariant -/

/-- Cells of a record before the value/timestamp pair: packed key length,
UTF-8 key bytes, space padding to the 8-byte boundary. -/
def recPre (k : String) : List Cell :=
  encodeInt ((utf8Encode k).length : Int) ++ (utf8Encode k).map .strB ++
    List.replicate (8 - ((utf8Encode k).length + 4) % 8) (.strB 32)

/-- Cells of a whole record for key/value/timestamp. -/
def layoutRec (r : String × PFloat × PFloat) : List Cell :=
  recPre r.1 ++ encodeVT r.2.1 r.2.2

/-- Size in bytes of the record for a key. -/
def recSize (k : String) : Nat := (recPre k).length + 16

/-- Cells of a record list laid out contiguously. -/
def layout (recs : List (String × PFloat × PFloat)) : List Cell :=
  (recs.map layoutRec).flatten

/-- The position index built over a record list starting at an offset. -/
def positionsOf : Nat → List (String × PFloat × PFloat) → List (String × Nat)
  | _, [] => []
  | pos, r :: rest => (r.1, pos + recSize r.1 - 16) :: positionsOf (pos + recSize r.1) rest

/-- The scan entries produced over a record list starting at an offset. -/
def entriesOf : Nat → List (String × PFloat × PFloat) →
    List (String × PFloat × Option ℚ × Nat)
  | _, [] => []
  | pos, r :: rest =>
      (r.1, r.2.1, fromTimestampFloat r.2.2, pos + recSize r.1 - 16) ::
        entriesOf (pos + recSize r.1) rest

/-- Well-formedness: the store is exactly the canonical memory of a record
list with distinct keys, with matching header, size, and position index. -/
def WF (s : MmapedDict) (recs : List (String × PFloat × PFloat)) : Prop :=
  s.m = mkMem (s.used : Int) (layout recs) ∧
  s.used = 8 + (layout recs).length ∧
  s.positions = positionsOf 8 recs ∧
  (alKeys recs).Nodup

theorem recPre_length (k : String) :
    (recPre k).length =
      4 + (utf8Encode k).length + (8 - ((utf8Encode k).length + 4) % 8) := by
  simp only [recPre, encodeInt, List.length_append, List.length_map,
    List.length_replicate, List.length_cons, List.length_nil]

theorem recSize_ge (k : String) : 21 ≤ recSize k := by
  rw [recSize, recPre_length]
  omega

theorem recSize_mod8 (k : String) : recSize k % 8 = 0 := by
  rw [recSize, recPre_length]
  omega

theorem layout_nil : layout [] = [] := rfl

theorem layout_cons (r : String × PFloat × PFloat)
    (recs : List (String × PFloat × PFloat)) :
    layout (r :: recs) = layoutRec r ++ layout recs := by
  simp [layout]

theorem layout_append (l₁ l₂ : List (String × PFloat × PFloat)) :
    layout (l₁ ++ l₂) = layout l₁ ++ layout l₂ := by
  simp [layout]

theorem layoutRec_length (r : String × PFloat × PFloat) :
    (layoutRec r).length = recSize r.1 := by
  simp [layoutRec, recSize, encodeVT]

/-- The scan loop of `_read_all_values`, run over a well-laid-out memory
region, succeeds and yields exactly the record entries. -/
theorem readRecordsAux_layout (m : Mem) (used : Nat)
    (recs : List (String × PFloat × PFloat)) :
    ∀ (fuel pos : Nat),
      matchesAt m pos (layout recs) →
      used = pos + (layout recs).length →
      recs.length ≤ fuel →
      readRecordsAux m used fuel pos = .ok (entriesOf pos recs) := by
  induction recs with
  | nil =>
    intro fuel pos _ hu _
    rw [layout_nil] at hu
    simp only [List.length_nil] at hu
    cases fuel with
    | zero => rw [readRecordsAux, if_neg (by omega)]; rfl
    | succ f => rw [readRecordsAux, if_neg (by omega)]; rfl
  | cons r rest ih =>
    intro fuel pos hm hu hf
    obtain ⟨k, v, t⟩ := r
    rw [layout_cons] at hm hu
    obtain ⟨hm1, hm2⟩ := matchesAt_append hm
    rw [show layoutRec (k, v, t) = recPre k ++ encodeVT v t from rfl] at hm1
    obtain ⟨hpre, hvt⟩ := matchesAt_append hm1
    rw [show recPre k =
      (encodeInt ((utf8Encode k).length : Int) ++ (utf8Encode k).map .strB) ++
        List.replicate (8 - ((utf8Encode k).length + 4) % 8) (.strB 32) from rfl] at hpre
    obtain ⟨h12, _⟩ := matchesAt_append hpre
    obtain ⟨hint, hstr⟩ := matchesAt_append h12
    rw [show (encodeInt ((utf8Encode k).length : Int)).length = 4 from rfl] at hstr
    have hlr : (layoutRec (k, v, t)).length = recSize k := layoutRec_length (k, v, t)
    have hlen : (layoutRec (k, v, t) ++ layout rest).length =
        recSize k + (layout rest).length := by
      rw [List.length_append, hlr]
    have hprel := recPre_length k
    have hrsz : recSize k = (recPre k).length + 16 := rfl
    cases fuel with
    | zero => simp at hf
    | succ f =>
      rw [readRecordsAux, if_pos (show pos < used by
        have := recSize_ge k; omega)]
      rw [readInt_matchesAt hint]
      simp only
      rw [if_neg (show ¬(((utf8Encode k).length : Int) + (pos : Int) > (used : Int)) by
        have := recSize_ge k; push_cast; omega)]
      rw [if_neg (show ¬(((utf8Encode k).length : Int) < 0) by omega)]
      rw [Int.toNat_natCast, readBytes_matchesAt hstr]
      simp only
      rw [utf8Decode_utf8Encode k]
      simp only
      rw [show pos + 4 + ((utf8Encode k).length +
            (8 - ((utf8Encode k).length + 4) % 8)) = pos + (recPre k).length by omega]
      rw [readVT_matchesAt hvt]
      simp only
      rw [hlr] at hm2
      rw [show pos + (recPre k).length + 16 = pos + recSize k by omega]
      rw [ih f (pos + recSize k) hm2 (by omega) (by simp at hf; omega)]
      show Except.ok ((k, v, fromTimestampFloat t, pos + (recPre k).length) ::
        entriesOf (pos + recSize k) rest) = _
      rw [entriesOf]
      rw [show pos + recSize ((k, v, t) : String × PFloat × PFloat).1 - 16 =
        pos + (recPre k).length by rw [hrsz]; omega]

theorem alSet_append_not_mem {α β : Type} [DecidableEq α]
    (l₁ l₂ : List (α × β)) (k : α) (v : β) (h : k ∉ alKeys l₁) :
    alSet (l₁ ++ l₂) k v = l₁ ++ alSet l₂ k v := by
  induction l₁ with
  | nil => simp
  | cons p rest ih =>
    obtain ⟨a, b⟩ := p
    simp only [alKeys, List.map_cons, List.mem_cons] at h
    push_neg at h
    have hne : a ≠ k := fun hk => h.1 hk.symm
    simp only [List.cons_append, alSet, if_neg hne, List.append_eq]
    rw [ih (by simpa [alKeys] using h.2)]

theorem layout_singleton (r : String × PFloat × PFloat) :
    layout [r] = layoutRec r := by
  simp [layout]

theorem encodeVT_length (v t : PFloat) : (encodeVT v t).length = 16 := by
  simp [encodeVT]

theorem layout_length_ge (recs : List (String × PFloat × PFloat)) :
    recs.length ≤ (layout recs).length := by
  induction recs with
  | nil => simp [layout_nil]
  | cons r rest ih =>
    rw [layout_cons, List.length_append, layoutRec_length, List.length_cons]
    have := recSize_ge r.1
    omega

theorem positionsOf_append (l₁ l₂ : List (String × PFloat × PFloat)) :
    ∀ p, positionsOf p (l₁ ++ l₂) =
      positionsOf p l₁ ++ positionsOf (p + (layout l₁).length) l₂ := by
  induction l₁ with
  | nil => intro p; simp [positionsOf, layout_nil]
  | cons r rest ih =>
    intro p
    rw [List.cons_append, positionsOf, positionsOf, ih, layout_cons,
      List.length_append, layoutRec_length]
    rw [show p + recSize r.1 + (layout rest).length =
      p + (recSize r.1 + (layout rest).length) by omega]
    rfl

theorem positionsOf_keys (recs : List (String × PFloat × PFloat)) :
    ∀ p, alKeys (positionsOf p recs) = alKeys recs := by
  induction recs with
  | nil => intro p; rfl
  | cons r rest ih =>
    intro p
    rw [positionsOf]
    show r.1 :: alKeys (positionsOf (p + recSize r.1) rest) = r.1 :: alKeys rest
    rw [ih]

theorem entriesOf_positions (recs : List (String × PFloat × PFloat)) :
    ∀ p, (entriesOf p recs).map (fun e => (e.1, e.2.2.2)) = positionsOf p recs := by
  induction recs with
  | nil => intro p; rfl
  | cons r rest ih =>
    intro p
    rw [entriesOf, positionsOf, List.map_cons, ih]

theorem entriesOf_keys (recs : List (String × PFloat × PFloat)) (p : Nat) :
    alKeys (entriesOf p recs) = alKeys recs := by
  have h1 : alKeys (entriesOf p recs) =
      alKeys ((entriesOf p recs).map (fun e => (e.1, e.2.2.2))) := by
    simp [alKeys]
  rw [h1, entriesOf_positions, positionsOf_keys]

theorem entriesOf_values (recs : List (String × PFloat × PFloat)) :
    ∀ p, (entriesOf p recs).map (fun e => (e.1, e.2.1, e.2.2.1)) =
      recs.map (fun r => (r.1, r.2.1, fromTimestampFloat r.2.2)) := by
  induction recs with
  | nil => intro p; rfl
  | cons r rest ih =>
    intro p
    rw [entriesOf, List.map_cons, List.map_cons, ih]

/-- A successful position lookup splits the record list around the key,
and the position is the byte offset of the record's value/timestamp
pair. -/
theorem positionsOf_decomp (key : String) :
    ∀ (recs : List (String × PFloat × PFloat)) (base p : Nat),
      alGet (positionsOf base recs) key = some p →
      ∃ A v t B, recs = A ++ (key, v, t) :: B ∧
        p = base + (layout A).length + (recPre key).length := by
  intro recs
  induction recs with
  | nil => intro base p h; exact absurd h (by simp [positionsOf, alGet])
  | cons r rest ih =>
    intro base p h
    rw [positionsOf, alGet] at h
    by_cases hk : r.1 = key
    · rw [if_pos hk] at h
      injection h with h
      rw [hk] at h
      refine ⟨[], r.2.1, r.2.2, rest, ?_, ?_⟩
      · rw [← hk]
        simp
      · simp only [layout_nil, List.length_nil]
        have hsz : recSize key = (recPre key).length + 16 := rfl
        omega
    · rw [if_neg hk] at h
      obtain ⟨A, v, t, B, hsplit, hpos⟩ := ih (base + recSize r.1) p h
      refine ⟨r :: A, v, t, B, by rw [hsplit, List.cons_append], ?_⟩
      rw [hpos, layout_cons, List.length_append, layoutRec_length]
      omega

theorem alSet_middle {α β : Type} [DecidableEq α] (A B : List (α × β)) (k : α)
    (w v : β) (h : k ∉ alKeys A) :
    alSet (A ++ (k, w) :: B) k v = A ++ (k, v) :: B := by
  rw [alSet_append_not_mem _ _ _ _ h]
  simp [alSet]

theorem positionsOf_congr {recs₁ recs₂ : List (String × PFloat × PFloat)}
    (h : alKeys recs₁ = alKeys recs₂) :
    ∀ p, positionsOf p recs₁ = positionsOf p recs₂ := by
  induction recs₁ generalizing recs₂ with
  | nil =>
    cases recs₂ with
    | nil => intro p; rfl
    | cons r₂ rest₂ => simp [alKeys] at h
  | cons r rest ih =>
    cases recs₂ with
    | nil => simp [alKeys] at h
    | cons r₂ rest₂ =>
      simp only [alKeys, List.map_cons, List.cons.injEq] at h
      intro p
      rw [positionsOf, positionsOf, h.1, ih (by simpa [alKeys] using h.2)]

/-- `_init_value` on a fresh key appends a `(0.0, 0.0)` record and
preserves well-formedness. -/
theorem initValue_WF {s : MmapedDict} {recs : List (String × PFloat × PFloat)}
    {key : String} (hWF : WF s recs) (hnew : key ∉ alKeys recs) :
    WF (initValue s key) (recs ++ [(key, .fin 0, .fin 0)]) := by
  obtain ⟨hm, hu, hp, hnd⟩ := hWF
  have h1 : (initValue s key).m =
      writeList (writeList s.m s.used (layoutRec (key, .fin 0, .fin 0))) 0
        (encodeInt ((s.used + (layoutRec (key, .fin 0, .fin 0)).length : Nat) : Int)) := rfl
  have h2 : (initValue s key).used =
      s.used + (layoutRec (key, .fin 0, .fin 0)).length := rfl
  have h3 : (initValue s key).positions =
      alSet s.positions key
        (s.used + (layoutRec (key, .fin 0, .fin 0)).length - 16) := rfl
  refine ⟨?_, ?_, ?_, ?_⟩
  · rw [h1, h2, hm, hu, mkMem_append_write, mkMem_header_rewrite,
      layout_append, layout_singleton]
  · rw [h2, hu, layout_append, layout_singleton, List.length_append]
    omega
  · rw [h3, hp, hu, positionsOf_append,
      alSet_eq_append_of_not_mem _ _ _ (by rw [positionsOf_keys]; exact hnew)]
    rw [show positionsOf (8 + (layout recs).length)
        [((key, PFloat.fin 0, PFloat.fin 0) : String × PFloat × PFloat)] =
      [(key, 8 + (layout recs).length + recSize key - 16)] from rfl]
    rw [layoutRec_length]
  · have hkeys : alKeys (recs ++ [((key : String), (PFloat.fin 0 : PFloat),
        (PFloat.fin 0 : PFloat))]) = alKeys recs ++ [key] := by simp [alKeys]
    rw [hkeys]
    refine List.Nodup.append hnd (List.nodup_singleton key) ?_
    intro x hx hx2
    rw [List.mem_singleton] at hx2
    exact hnew (hx2 ▸ hx)

/-- Overwriting the value/timestamp slice at a looked-up position updates
the record list in place and preserves well-formedness. -/
theorem writeVT_WF {s : MmapedDict} {recs : List (String × PFloat × PFloat)}
    {key : String} {p : Nat} (hWF : WF s recs)
    (hget : alGet s.positions key = some p) (v t : PFloat) :
    WF { s with m := writeList s.m p (encodeVT v t) } (alSet recs key (v, t)) := by
  obtain ⟨hm, hu, hp, hnd⟩ := hWF
  rw [hp] at hget
  obtain ⟨A, v₀, t₀, B, hsplit, hpos⟩ := positionsOf_decomp key recs 8 p hget
  have hkeys : alKeys recs = alKeys A ++ key :: alKeys B := by
    rw [hsplit]; simp [alKeys]
  have hndk : (alKeys A ++ key :: alKeys B).Nodup := hkeys ▸ hnd
  have hkA : key ∉ alKeys A := by
    intro hmemA
    exact (List.nodup_append.mp hndk).2.2 hmemA (List.mem_cons_self _ _)
  have hmem : key ∈ alKeys recs := by
    rw [hkeys]
    exact List.mem_append_right _ (List.mem_cons_self _ _)
  have hset : alSet recs key (v, t) = A ++ (key, (v, t)) :: B := by
    rw [hsplit, alSet_middle _ _ _ _ _ hkA]
  have hcells : layout recs = (layout A ++ recPre key) ++ encodeVT v₀ t₀ ++ layout B := by
    rw [hsplit, layout_append, layout_cons]
    rw [show layoutRec (key, v₀, t₀) = recPre key ++ encodeVT v₀ t₀ from rfl]
    simp [List.append_assoc]
  have hcells2 : layout (alSet recs key (v, t)) =
      (layout A ++ recPre key) ++ encodeVT v t ++ layout B := by
    rw [hset, layout_append, layout_cons]
    rw [show layoutRec (key, (v, t)) = recPre key ++ encodeVT v t from rfl]
    simp [List.append_assoc]
  have hlen_eq : (layout (alSet recs key (v, t))).length = (layout recs).length := by
    rw [hcells, hcells2]
    simp [encodeVT_length]
  have hplen : p = 8 + (layout A ++ recPre key).length := by
    rw [List.length_append]
    omega
  refine ⟨?_, ?_, ?_, ?_⟩
  · show writeList s.m p (encodeVT v t) = mkMem (s.used : Int) (layout (alSet recs key (v, t)))
    rw [hm, hcells, hplen, hcells2]
    exact mkMem_update_middle _ _ _ _ _ (by rw [encodeVT_length, encodeVT_length])
  · show s.used = 8 + (layout (alSet recs key (v, t))).length
    rw [hlen_eq]
    exact hu
  · show s.positions = positionsOf 8 (alSet recs key (v, t))
    rw [hp]
    have hk2 : alKeys (alSet recs key (v, t)) = alKeys recs := by
      rw [alKeys_alSet, if_pos hmem]
    exact positionsOf_congr hk2.symm 8
  · show (alKeys (alSet recs key (v, t))).Nodup
    rw [alKeys_alSet, if_pos hmem]
    exact hnd

/-- `write_value` realizes exactly a Python-dict assignment on the
abstract record list. -/
theorem write_value_WF {s : MmapedDict} {recs : List (String × PFloat × PFloat)}
    (hWF : WF s recs) (key : String) (value : ℚ) (ts : Option ℚ) :
    WF (write_value s key value ts)
      (alSet recs key (.fin value, toTimestampFloat ts)) := by
  by_cases hmem : key ∈ alKeys recs
  · have hne : ¬(alGet s.positions key = none) := by
      rw [hWF.2.2.1, alGet_eq_none_iff, positionsOf_keys]
      simpa using hmem
    obtain ⟨p, hp'⟩ : ∃ p, alGet s.positions key = some p := by
      cases h : alGet s.positions key with
      | none => exact absurd h hne
      | some p => exact ⟨p, rfl⟩
    have hres := writeVT_WF hWF hp' (.fin value) (toTimestampFloat ts)
    simp only [write_value]
    rw [if_neg hne, hp']
    exact hres
  · have hget0 : alGet s.positions key = none := by
      rw [hWF.2.2.1, alGet_eq_none_iff, positionsOf_keys]
      exact hmem
    have hWF1 := initValue_WF hWF hmem
    have hmem1 : key ∈ alKeys (recs ++ [((key : String), (PFloat.fin 0 : PFloat),
        (PFloat.fin 0 : PFloat))]) := by simp [alKeys]
    obtain ⟨p, hp1⟩ : ∃ p, alGet (initValue s key).positions key = some p := by
      cases h : alGet (initValue s key).positions key with
      | none =>
        rw [hWF1.2.2.1, alGet_eq_none_iff, positionsOf_keys] at h
        exact absurd hmem1 h
      | some p => exact ⟨p, rfl⟩
    have hres := writeVT_WF hWF1 hp1 (.fin value) (toTimestampFloat ts)
    have hre : alSet (recs ++ [((key : String), (PFloat.fin 0 : PFloat),
          (PFloat.fin 0 : PFloat))]) key (.fin value, toTimestampFloat ts) =
        alSet recs key (.fin value, toTimestampFloat ts) := by
      rw [alSet_append_not_mem _ _ _ _ hmem, alSet_eq_append_of_not_mem _ _ _ hmem]
      simp [alSet]
    rw [hre] at hres
    simp only [write_value]
    rw [if_pos hget0, hp1]
    exact hres

/-- A store freshly opened on an empty file is well formed over no
records. -/
theorem freshDict_WF : WF freshDict [] := by
  refine ⟨?_, rfl, rfl, List.nodup_nil⟩
  show writeList zeroMem 0 (encodeInt 8) = mkMem ((8 : Nat) : Int) (layout [])
  rw [layout_nil, mkMem, writeList_nil]
  norm_num

/-- The abstract effect of a write sequence: a left fold of dict
assignments. -/
def recsOf (recs : List (String × PFloat × PFloat))
    (ws : List (String × ℚ × Option ℚ)) : List (String × PFloat × PFloat) :=
  ws.foldl (fun rs w => alSet rs w.1 (.fin w.2.1, toTimestampFloat w.2.2)) recs

/-- A single-threaded sequence of `write_value` calls preserves
well-formedness, tracking the folded record list. -/
theorem applyWrites_WF {s : MmapedDict} {recs : List (String × PFloat × PFloat)}
    (hWF : WF s recs) (ws : List (String × ℚ × Option ℚ)) :
    WF (applyWrites s ws) (recsOf recs ws) := by
  induction ws generalizing s recs with
  | nil => exact hWF
  | cons w ws ih =>
    have h1 := write_value_WF hWF w.1 w.2.1 w.2.2
    exact ih h1

/-- Reopening a well-formed store's file in write mode succeeds and
rebuilds the position index exactly. -/
theorem openDict_WF {s : MmapedDict} {recs : List (String × PFloat × PFloat)}
    (hWF : WF s recs) (fileSize : Nat) :
    openDict s.m fileSize false =
      .ok { m := s.m, capacity := if fileSize = 0 then 2 ^ 20 else fileSize,
            positions := positionsOf 8 recs, used := s.used } := by
  obtain ⟨hm, hu, hp, hnd⟩ := hWF
  have hscan : readRecordsAux s.m s.used s.used 8 = .ok (entriesOf 8 recs) := by
    refine readRecordsAux_layout s.m s.used recs s.used 8 ?_ hu ?_
    · rw [hm]
      exact mkMem_matchesAt _ _
    · have := layout_length_ge recs
      omega
  have hread : readInt s.m 0 = some ((s.used : Nat) : Int) := by
    rw [hm]
    exact readInt_mkMem _ _
  have hfold : (entriesOf 8 recs).foldl (fun ps e => alSet ps e.1 e.2.2.2) [] =
      positionsOf 8 recs := by
    have h1 : (entriesOf 8 recs).foldl (fun ps e => alSet ps e.1 e.2.2.2) [] =
        ((entriesOf 8 recs).map (fun e => (e.1, e.2.2.2))).foldl
          (fun ps p => alSet ps p.1 p.2) [] := by
      rw [List.foldl_map]
    rw [h1, entriesOf_positions]
    have h2 := pyDict_go_eq_append (positionsOf 8 recs) []
      (by rw [List.nil_append, positionsOf_keys]; exact hnd)
    simpa using h2
  simp only [openDict]
  rw [hread]
  simp only
  rw [if_neg (show ¬(((s.used : Nat) : Int) = 0) by push_cast; omega)]
  rw [if_neg (show ¬(false = true) by simp)]
  rw [Int.toNat_natCast, hscan]
  simp only
  rw [hfold]

/-- The per-key content of the write fold: the value at a key is that of
the last write to it. -/
def lastWrites (ws : List (String × ℚ × Option ℚ)) : List (String × ℚ × Option ℚ) :=
  ws.foldl (fun rs w => alSet rs w.1 w.2) []

theorem fromTimestampFloat_toTimestampFloat (t : Option ℚ) :
    fromTimestampFloat (toTimestampFloat t) = t := by
  cases t <;> rfl

theorem map_alSet {β γ : Type} (g : β → γ) (l : List (String × β)) (k : String) (v : β) :
    (alSet l k v).map (fun p => (p.1, g p.2)) =
      alSet (l.map (fun p => (p.1, g p.2))) k (g v) := by
  induction l with
  | nil => rfl
  | cons p rest ih =>
    obtain ⟨a, b⟩ := p
    by_cases h : a = k <;> simp [alSet, h, ih]

theorem foldl_alSet_map {β γ : Type} (g : β → γ) :
    ∀ (ws l : List (String × β)),
      (ws.foldl (fun rs w => alSet rs w.1 w.2) l).map (fun p => (p.1, g p.2)) =
        ws.foldl (fun rs w => alSet rs w.1 (g w.2)) (l.map (fun p => (p.1, g p.2))) := by
  intro ws
  induction ws with
  | nil => intro l; rfl
  | cons w rest ih =>
    intro l
    simp only [List.foldl_cons]
    rw [ih (alSet l w.1 w.2), map_alSet]

theorem recsOf_lastWrites (ws : List (String × ℚ × Option ℚ)) :
    recsOf [] ws = (lastWrites ws).map
      (fun r => (r.1, PFloat.fin r.2.1, toTimestampFloat r.2.2)) := by
  have h := foldl_alSet_map
    (fun vt : ℚ × Option ℚ => ((PFloat.fin vt.1 : PFloat), toTimestampFloat vt.2)) ws []
  rw [lastWrites, recsOf]
  rw [show (List.map (fun p => (p.1, (PFloat.fin p.2.1 : PFloat), toTimestampFloat p.2.2))
    (List.foldl (fun rs w => alSet rs w.1 w.2) [] ws)) =
    (List.map (fun p : String × ℚ × Option ℚ =>
      (p.1, ((fun vt : ℚ × Option ℚ => ((PFloat.fin vt.1 : PFloat), toTimestampFloat vt.2)) p.2)))
    (List.foldl (fun rs w => alSet rs w.1 w.2) [] ws)) from rfl]
  rw [h]
  rfl

theorem lastWrites_getLast (k : String) (ws : List (String × ℚ × Option ℚ)) :
    alGet (lastWrites ws) k =
      ((ws.filter (fun w => w.1 = k)).getLast?).map (fun w => w.2) := by
  induction ws using List.reverseRecOn with
  | nil => rfl
  | append_singleton ws w ih =>
    rw [lastWrites, List.foldl_append]
    simp only [List.foldl_cons, List.foldl_nil]
    rw [show List.foldl (fun rs w => alSet rs w.1 w.2) [] ws = lastWrites ws from rfl]
    rw [List.filter_append]
    by_cases hk : w.1 = k
    · rw [show List.filter (fun w => decide (w.1 = k)) [w] = [w] by simp [hk]]
      rw [List.getLast?_concat]
      rw [← hk]
      rw [alGet_alSet_self]
      rfl
    · rw [show List.filter (fun w => decide (w.1 = k)) [w] = [] by simp [hk]]
      rw [List.append_nil, alGet_alSet_ne _ _ _ _ hk]
      exact ih

theorem alGet_append_not_mem {α β : Type} [DecidableEq α]
    (A B : List (α × β)) (k : α) (h : k ∉ alKeys A) :
    alGet (A ++ B) k = alGet B k := by
  induction A with
  | nil => rfl
  | cons p rest ih =>
    obtain ⟨a, b⟩ := p
    simp only [alKeys, List.map_cons, List.mem_cons] at h
    push_neg at h
    have hne : ¬(a = k) := fun hk => h.1 hk.symm
    rw [List.cons_append, alGet, if_neg hne]
    exact ih (by simpa [alKeys] using h.2)

/-- `read_all_values` on a well-formed store yields the record list. -/
theorem read_all_values_WF {s : MmapedDict} {recs : List (String × PFloat × PFloat)}
    (hWF : WF s recs) :
    read_all_values s =
      .ok (recs.map (fun r => (r.1, r.2.1, fromTimestampFloat r.2.2))) := by
  obtain ⟨hm, hu, _, _⟩ := hWF
  have hscan : readRecordsAux s.m s.used s.used 8 = .ok (entriesOf 8 recs) := by
    refine readRecordsAux_layout s.m s.used recs s.used 8 ?_ hu ?_
    · rw [hm]
      exact mkMem_matchesAt _ _
    · have := layout_length_ge recs
      omega
  rw [read_all_values, readAllRecords, hscan]
  simp only [Except.map]
  rw [entriesOf_values]

/-- Reading the value/timestamp pair at a looked-up position recovers
the record's stored pair. -/
theorem readVT_lookup {s : MmapedDict} {recs : List (String × PFloat × PFloat)}
    {key : String} {p : Nat} (hWF : WF s recs)
    (hget : alGet s.positions key = some p) {v t : PFloat}
    (hval : alGet recs key = some (v, t)) : readVT s.m p = some (v, t) := by
  obtain ⟨hm, hu, hp, hnd⟩ := hWF
  rw [hp] at hget
  obtain ⟨A, v₀, t₀, B, hsplit, hpos⟩ := positionsOf_decomp key recs 8 p hget
  have hkeys : alKeys recs = alKeys A ++ key :: alKeys B := by
    rw [hsplit]; simp [alKeys]
  have hndk : (alKeys A ++ key :: alKeys B).Nodup := hkeys ▸ hnd
  have hkA : key ∉ alKeys A := by
    intro hmemA
    exact (List.nodup_append.mp hndk).2.2 hmemA (List.mem_cons_self _ _)
  have hv0 : v₀ = v ∧ t₀ = t := by
    rw [hsplit, alGet_append_not_mem _ _ _ hkA] at hval
    rw [alGet, if_pos rfl] at hval
    injection hval with hval
    exact ⟨congrArg Prod.fst hval, congrArg Prod.snd hval⟩
  have hcells : layout recs =
      (layout A ++ recPre key) ++ (encodeVT v₀ t₀ ++ layout B) := by
    rw [hsplit, layout_append, layout_cons]
    rw [show layoutRec (key, v₀, t₀) = recPre key ++ encodeVT v₀ t₀ from rfl]
    simp [List.append_assoc]
  have hmatch : matchesAt s.m 8 (layout recs) := by
    rw [hm]
    exact mkMem_matchesAt _ _
  rw [hcells] at hmatch
  obtain ⟨_, h2⟩ := matchesAt_append hmatch
  obtain ⟨hVT, _⟩ := matchesAt_append h2
  have hplen : 8 + (layout A ++ recPre key).length = p := by
    rw [List.length_append]
    omega
  rw [hplen] at hVT
  rw [hv0.1, hv0.2] at hVT
  exact readVT_matchesAt hVT

/-- The loop-local corruption check of `_read_all_values` (lines 82-87):
an in-bounds record whose decoded `key_len` reaches past `used` raises
the corruption error. -/
theorem readRecordsAux_corrupt (m : Mem) (used fuel pos : Nat) (L : Int)
    (h1 : pos < used) (h2 : readInt m pos = some L)
    (h3 : L + (pos : Int) > (used : Int)) :
    readRecordsAux m used (fuel + 1) pos = .error .corruption := by
  rw [readRecordsAux, if_pos h1, h2]
  simp only
  rw [if_pos h3]

theorem matchesAt_writeList (m : Mem) (pos : Nat) (cs : List Cell) :
    matchesAt (writeList m pos cs) pos cs := by
  intro i hi
  simp only [writeList]
  rw [if_pos (by constructor <;> omega)]
  congr 1
  omega

theorem alSet_keys_nodup {α β : Type} [DecidableEq α] {l : List (α × β)}
    (h : (alKeys l).Nodup) (k : α) (v : β) : (alKeys (alSet l k v)).Nodup := by
  rw [alKeys_alSet]
  by_cases hm : k ∈ alKeys l
  · rw [if_pos hm]
    exact h
  · rw [if_neg hm]
    refine List.Nodup.append h (List.nodup_singleton k) ?_
    intro x hx hx2
    rw [List.mem_singleton] at hx2
    exact hm (hx2 ▸ hx)

theorem pyDict_keys_nodup {α β : Type} [DecidableEq α] (l : List (α × β)) :
    (alKeys (pyDict l)).Nodup := by
  suffices h : ∀ acc : List (α × β), (alKeys acc).Nodup →
      (alKeys (l.foldl (fun d p => alSet d p.1 p.2) acc)).Nodup by
    exact h [] (by simp [alKeys])
  induction l with
  | nil => intro acc h; exact h
  | cons p rest ih =>
    intro acc h
    exact ih _ (alSet_keys_nodup h p.1 p.2)

theorem layout_length_mod8 (recs : List (String × PFloat × PFloat)) :
    (layout recs).length % 8 = 0 := by
  induction recs with
  | nil => simp [layout_nil]
  | cons r rest ih =>
    rw [layout_cons, List.length_append, layoutRec_length]
    have := recSize_mod8 r.1
    omega

theorem positionsOf_mod8 (recs : List (String × PFloat × PFloat)) :
    ∀ base, base % 8 = 0 → ∀ pr ∈ positionsOf base recs, pr.2 % 8 = 0 := by
  induction recs with
  | nil => intro base _ pr hpr; simp [positionsOf] at hpr
  | cons r rest ih =>
    intro base hbase pr hpr
    rw [positionsOf, List.mem_cons] at hpr
    rcases hpr with h | h
    · have h8 := recSize_mod8 r.1
      have h21 := recSize_ge r.1
      rw [h]
      omega
    · have h8 := recSize_mod8 r.1
      exact ih (base + recSize r.1) (by omega) pr h

/-! ### The claims about `MmapedDict` -/

/-- **C1.** For a store opened in write mode on an empty file and mutated
only by a single-threaded sequence of `write_value` calls, reopening the
file and running `read_all_values` succeeds and yields exactly the set of
`(key, value, timestamp)` triples in which `(value, timestamp)` is the
last pair written for each distinct key, with an absent timestamp read
back as absent. -/
theorem C1_write_read_roundtrip (ws : List (String × ℚ × Option ℚ)) (fileSize : Nat) :
    ∃ d, openDict (applyWrites freshDict ws).m fileSize false = Except.ok d ∧
      read_all_values d =
        Except.ok ((lastWrites ws).map (fun r => (r.1, PFloat.fin r.2.1, r.2.2))) ∧
      (alKeys (lastWrites ws)).Nodup ∧
      ∀ (k : String) (v : ℚ) (t : Option ℚ),
        (k, (v, t)) ∈ lastWrites ws ↔
          (ws.filter (fun w => w.1 = k)).getLast? = some (k, v, t) := by
  have hWF := applyWrites_WF freshDict_WF ws
  have hopen := openDict_WF hWF fileSize
  have hndLW : (alKeys (lastWrites ws)).Nodup := by
    have h := hWF.2.2.2
    rw [recsOf_lastWrites] at h
    have he : alKeys ((lastWrites ws).map
        (fun r => (r.1, (PFloat.fin r.2.1 : PFloat), toTimestampFloat r.2.2))) =
        alKeys (lastWrites ws) := by
      simp [alKeys, List.map_map, Function.comp]
    rwa [he] at h
  refine ⟨_, hopen, ?_, hndLW, ?_⟩
  · have hWFd : WF
        { m := (applyWrites freshDict ws).m,
          capacity := if fileSize = 0 then 2 ^ 20 else fileSize,
          positions := positionsOf 8 (recsOf [] ws),
          used := (applyWrites freshDict ws).used } (recsOf [] ws) :=
      ⟨hWF.1, hWF.2.1, rfl, hWF.2.2.2⟩
    rw [read_all_values_WF hWFd, recsOf_lastWrites, List.map_map]
    congr 1
    refine List.map_congr_left ?_
    intro r _
    simp [Function.comp, fromTimestampFloat_toTimestampFloat]
  · intro k v t
    rw [← alGet_some_iff_mem hndLW, lastWrites_getLast]
    constructor
    · intro h
      cases hl : (ws.filter (fun w => w.1 = k)).getLast? with
      | none => rw [hl] at h; exact absurd h (by simp)
      | some w =>
        rw [hl] at h
        simp only [Option.map] at h
        injection h with h
        have hmem : w ∈ ws.filter (fun w => w.1 = k) := by
          obtain ⟨hne, hw⟩ := List.mem_getLast?_eq_getLast (Option.mem_def.mpr hl)
          rw [hw]
          exact List.getLast_mem hne
        have hk : w.1 = k := of_decide_eq_true (List.mem_filter.mp hmem).2
        obtain ⟨w1, w2⟩ := w
        simp only at h hk
        rw [hk, h]
    · intro h
      rw [h]
      rfl

/-- **C4** (counterexample to the spec): the freshly allocated record
packs timestamp `0.0`, not `+Inf`: reading the fresh key `"a"` returns
timestamp `some 0`, not the absent timestamp the spec claims. -/
theorem C4_counterexample :
    (read_value_timestamp freshDict "a").2 = some (.fin 0, some 0) ∧
    (read_value_timestamp freshDict "a").2 ≠ some (.fin 0, none) := by
  refine ⟨rfl, ?_⟩
  rw [show (read_value_timestamp freshDict "a").2 = some (.fin 0, some 0) from rfl]
  simp

/-- **C4** (amended): `_init_value` packs `(0.0, 0.0)`, so
`read_value_timestamp` on a previously unwritten key returns value `0.0`
with the *zero* timestamp `some 0` — not an absent timestamp. -/
theorem C4_fresh_key_read {s : MmapedDict} {recs : List (String × PFloat × PFloat)}
    (hWF : WF s recs) (key : String) (h : key ∉ alKeys recs) :
    (read_value_timestamp s key).2 = some (.fin 0, some 0) := by
  have hget0 : alGet s.positions key = none := by
    rw [hWF.2.2.1, alGet_eq_none_iff, positionsOf_keys]
    exact h
  have hWF1 := initValue_WF hWF h
  obtain ⟨p, hp1⟩ : ∃ p, alGet (initValue s key).positions key = some p := by
    cases hx : alGet (initValue s key).positions key with
    | none =>
      rw [hWF1.2.2.1, alGet_eq_none_iff, positionsOf_keys] at hx
      exact absurd (by simp [alKeys] : key ∈ alKeys (recs ++
        [((key : String), (PFloat.fin 0 : PFloat), (PFloat.fin 0 : PFloat))])) hx
    | some p => exact ⟨p, rfl⟩
  have hval : alGet (recs ++ [((key : String), (PFloat.fin 0 : PFloat),
      (PFloat.fin 0 : PFloat))]) key = some (.fin 0, .fin 0) := by
    rw [alGet_append_not_mem _ _ _ h, alGet, if_pos rfl]
  have hVT := readVT_lookup hWF1 hp1 hval
  simp only [read_value_timestamp]
  rw [if_pos hget0, hp1]
  simp only
  rw [hVT]
  rfl

theorem C4_fresh_key_read_witness :
    (read_value_timestamp freshDict "b").2 = some (.fin 0, some 0) :=
  C4_fresh_key_read freshDict_WF "b" (by simp [alKeys])

/-- **C5.** `mmap_key` is insertion-order independent: two label lists
with the same logical dict content produce byte-identical keys; and
`parseKey` recovers the metric name, sample name, and the exact label
map content from the produced key. -/
theorem C5_make_key_roundtrip (m n : String) (lns₁ lvs₁ lns₂ lvs₂ : List String)
    (hperm : (pyDict (lns₁.zip lvs₁)).Perm (pyDict (lns₂.zip lvs₂))) :
    mmap_key m n lns₁ lvs₁ = mmap_key m n lns₂ lvs₂ ∧
    parseKey (mmap_key m n lns₁ lvs₁) =
      some (m, n, sortPairs (pyDict (lns₁.zip lvs₁))) ∧
    ∀ k, alGet (sortPairs (pyDict (lns₁.zip lvs₁))) k =
      alGet (pyDict (lns₁.zip lvs₁)) k := by
  refine ⟨?_, parseKey_mmap_key m n lns₁ lvs₁, ?_⟩
  · rw [mmap_key, mmap_key, sortPairs_congr_perm hperm]
  · intro k
    have hnd : (alKeys (sortPairs (pyDict (lns₁.zip lvs₁)))).Nodup :=
      ((List.perm_insertionSort pairLe _).map Prod.fst).nodup_iff.mpr
        (pyDict_keys_nodup _)
    exact alGet_congr_perm (List.perm_insertionSort pairLe _) hnd k

theorem C5_make_key_roundtrip_witness :
    mmap_key "m" "s" ["a", "b"] ["1", "2"] = mmap_key "m" "s" ["b", "a"] ["2", "1"] :=
  (C5_make_key_roundtrip "m" "s" ["a", "b"] ["1", "2"] ["b", "a"] ["2", "1"]
    (by decide)).1

/-- **C8.** The scan of `_read_all_values` raises the corruption error
whenever a reached record's `key_len` plus its position exceeds `used`;
in particular, overwriting the first record's length field of a
well-formed store with the (too large) value `used` makes the scan fail
with the corruption error instead of yielding data. -/
theorem C8_corruption :
    (∀ (m : Mem) (used fuel pos : Nat) (L : Int), pos < used →
      readInt m pos = some L → L + (pos : Int) > (used : Int) →
      readRecordsAux m used (fuel + 1) pos = .error .corruption) ∧
    ∀ (s : MmapedDict) (recs : List (String × PFloat × PFloat)), WF s recs →
      recs ≠ [] →
      readAllRecords { s with m := writeList s.m 8 (encodeInt (s.used : Int)) } =
        .error .corruption := by
  refine ⟨fun m u f p L h1 h2 h3 => readRecordsAux_corrupt m u f p L h1 h2 h3, ?_⟩
  intro s recs hWF hne
  obtain ⟨hm, hu, hp, hnd⟩ := hWF
  have hlen : 21 ≤ (layout recs).length := by
    cases recs with
    | nil => exact absurd rfl hne
    | cons r rest =>
      rw [layout_cons, List.length_append, layoutRec_length]
      have := recSize_ge r.1
      omega
  rw [readAllRecords]
  show readRecordsAux (writeList s.m 8 (encodeInt (s.used : Int))) s.used s.used 8 =
    .error .corruption
  have hri : readInt (writeList s.m 8 (encodeInt (s.used : Int))) 8 =
      some (s.used : Int) :=
    readInt_matchesAt (matchesAt_writeList _ _ _)
  obtain ⟨f, hf⟩ : ∃ f, s.used = f + 1 := ⟨s.used - 1, by omega⟩
  rw [hf] at hri ⊢
  exact readRecordsAux_corrupt _ _ _ _ _ (by omega) hri (by push_cast; omega)

theorem C8_corruption_witness :
    readAllRecords { applyWrites freshDict [("a", 1, none)] with
      m := writeList (applyWrites freshDict [("a", 1, none)]).m 8
        (encodeInt ((applyWrites freshDict [("a", 1, none)]).used : Int)) } =
      .error .corruption :=
  C8_corruption.2 (applyWrites freshDict [("a", 1, none)]) (recsOf [] [("a", 1, none)])
    (applyWrites_WF freshDict_WF _) (by simp [recsOf, alSet])

/-- **C9.** In every store reachable from an empty file by `write_value`
calls, a record's padding length is `8 - ((key_len + 4) % 8)` (at least
1, making the whole record size a multiple of 8), every stored
value/timestamp offset is a multiple of 8, and `used` stays a multiple
of 8. -/
theorem C9_alignment (ws : List (String × ℚ × Option ℚ)) :
    (∀ key : String,
      1 ≤ 8 - (((utf8Encode key).length + 4) % 8) ∧
      (recPre key).length =
        4 + (utf8Encode key).length + (8 - (((utf8Encode key).length + 4) % 8)) ∧
      recSize key % 8 = 0) ∧
    (applyWrites freshDict ws).used % 8 = 0 ∧
    ∀ pr ∈ (applyWrites freshDict ws).positions, pr.2 % 8 = 0 := by
  have hWF := applyWrites_WF freshDict_WF ws
  refine ⟨?_, ?_, ?_⟩
  · intro key
    exact ⟨by omega, recPre_length key, recSize_mod8 key⟩
  · rw [hWF.2.1]
    have := layout_length_mod8 (recsOf [] ws)
    omega
  · rw [hWF.2.2.1]
    exact positionsOf_mod8 _ 8 (by norm_num)

theorem C9_alignment_witness :
    1 ≤ 8 - (((utf8Encode "a").length + 4) % 8) ∧
    (applyWrites freshDict [("a", 1, none)]).used % 8 = 0 ∧
    (("a", 16) : String × Nat).2 % 8 = 0 :=
  ⟨((C9_alignment [("a", 1, none)]).1 "a").1,
   (C9_alignment [("a", 1, none)]).2.1,
   (C9_alignment [("a", 1, none)]).2.2 ("a", 16) (by decide)⟩

/-! ### The merge engine (`multiprocess.merge`)

Input files are modelled by their basename and store contents; `none`
contents stand for a file that has vanished before `MmapedDict(f,
read_mode=True)` could open it (an `EnvironmentError`).  Python
exceptions escaping `merge` are modelled by `MergeErr`. -/

/-- Python float `<` on the modelled domain (the strict order of
`PFloat.le`). -/
def PFloat.lt (a b : PFloat) : Prop := ¬ PFloat.le b a

instance : DecidableRel PFloat.lt := fun a b => by
  rw [PFloat.lt]
  infer_instance

/-- Python float `+` on the modelled domain.  `inf + (-inf)` (a NaN in
Python) lies outside the modelled domain; no modelled code path adds
opposite infinities. -/
def PFloat.add : PFloat → PFloat → PFloat
  | .ninf, .ninf => .ninf
  | .ninf, .fin _ => .ninf
  | .ninf, .inf => .inf
  | .fin _, .ninf => .ninf
  | .fin a, .fin b => .fin (a + b)
  | .fin _, .inf => .inf
  | .inf, .ninf => .inf
  | .inf, .fin _ => .inf
  | .inf, .inf => .inf

/-- Python 2 `<` on timestamps (`None` compares below every number, as in
`max(..., key=lambda i: i.timestamp)` over samples whose timestamp may be
`None`). -/
def tsLt : Option ℚ → Option ℚ → Prop
  | none, none => False
  | none, some _ => True
  | some _, none => False
  | some x, some y => x < y

instance : DecidableRel tsLt := fun a b => by
  cases a <;> cases b <;> simp [tsLt] <;> infer_instance

/-- Modelled from the spec: `samples.Sample` (samples.py is not in the
repository) — a named tuple of sample name, labels (a dict, here an
insertion-ordered association list; `add_sample` stores the sorted
labels tuple in this field), value and optional timestamp. -/
structure Sample where
  name : String
  labels : List (String × String)
  value : PFloat
  timestamp : Option ℚ := none
deriving DecidableEq

/-- Modelled from the spec: `metrics_core.Metric` (metrics_core.py is not
in the repository) — a metric family with name, documentation, type
string, the `_multiprocess_mode` attribute (unset by default, assigned in
`merge` when the filename carries a truthy mode), and its sample list;
`add_sample` appends. -/
structure Metric where
  name : String
  documentation : String
  type : String
  mode : Option String := none
  samples : List Sample := []
deriving DecidableEq

/-- A merge input file: its basename (`os.path.basename(f)`) and the
`(key, value, timestamp)` triples its store yields; `none` stands for a
missing file (`EnvironmentError` on open). -/
structure MFile where
  base : String
  entries : Option (List (String × PFloat × Option ℚ))

/-- Python exceptions escaping `merge`. -/
inductive MergeErr where
  | mergeError (base : String) : MergeErr
  | indexError : MergeErr
  | badJson : MergeErr
  | valueError : MergeErr
  | emptyMax : MergeErr
deriving DecidableEq

/-- `os.path.splitext(base)[0]`: the basename with its last extension
removed (a name without a dot is returned whole; the leading-dot special
case of hidden files never arises for `*.db` inputs). -/
def splitextStem (s : String) : String :=
  match s.data.reverse.dropWhile (fun c => c ≠ '.') with
  | [] => s
  | _ :: rest => ⟨rest.reverse⟩

/-- Python `str.split('_')`: split at every underscore (empty pieces
kept, the empty string yields `[""]`). -/
def splitUnderscoreAux : List Char → List Char → List String
  | [], acc => [⟨acc.reverse⟩]
  | c :: rest, acc =>
    if c = '_' then ⟨acc.reverse⟩ :: splitUnderscoreAux rest []
    else splitUnderscoreAux rest (c :: acc)

/-- `os.path.splitext(os.path.basename(f))[0].split('_')` of line 97. -/
def fileParts (base : String) : List String :=
  splitUnderscoreAux (splitextStem base).data []

/-- Python truthiness of an optional string (`None` and `''` are falsy). -/
def truthyO : Option String → Bool
  | none => false
  | some s => !s.isEmpty

/-- Lines 97-100: `typ = parts[0]`, `multiprocess_mode = parts[1] if typ
== Gauge._type else None` (an `IndexError` when a gauge name has no
second part), `pid = parts[2] if multiprocess_mode and len(parts) > 2
else None`. -/
def fileMeta (base : String) : Except MergeErr (String × Option String × Option String) :=
  let parts := fileParts base
  let typ := parts.headD ""
  match (if typ = "gauge" then
      match parts.get? 1 with
      | some md => Except.ok (some md)
      | none => Except.error MergeErr.indexError
    else Except.ok (none : Option String)) with
  | .error e => .error e
  | .ok mode =>
    let pid := if truthyO mode ∧ 2 < parts.length then parts.get? 2 else none
    .ok (typ, mode, pid)

/-- Lines 127-139, the body of the per-entry loop: destructure the JSON
key, inject the pid label when the pid is truthy, sort the labels into
`labels_key`, create the metric on first sight, set its multiprocess
mode when truthy, and append the sample. -/
def ingestEntry (typ : String) (mode pid : Option String)
    (ms : List (String × Metric)) (e : String × PFloat × Option ℚ) :
    Except MergeErr (List (String × Metric)) :=
  match parseKey e.1 with
  | none => .error .badJson
  | some (metric_name, name, labels0) =>
    let labels := if truthyO pid then alSet labels0 "pid" (pid.getD "") else labels0
    let labels_key := sortPairs labels
    let metric := match alGet ms metric_name with
      | some m => m
      | none => { name := metric_name, documentation := "Multiprocess metric",
                  type := typ }
    let metric := if truthyO mode then { metric with mode := mode } else metric
    let metric := { metric with samples :=
      metric.samples ++ [{ name := name, labels := labels_key,
                           value := e.2.1, timestamp := e.2.2 }] }
    .ok (alSet ms metric_name metric)

/-- Lines 96-140, one iteration of the file loop: parse the filename, open
the store (a missing file is tolerated only for gauges of mode `livesum`
or `liveall`, line 123), and ingest all entries. -/
def processFile (ms : List (String × Metric)) (f : MFile) :
    Except MergeErr (List (String × Metric)) :=
  match fileMeta f.base with
  | .error e => .error e
  | .ok (typ, mode, pid) =>
    match f.entries with
    | none =>
      if typ = "gauge" ∧ (mode = some "livesum" ∨ mode = some "liveall")
      then .ok ms
      else .error (.mergeError f.base)
    | some entries => entries.foldlM (ingestEntry typ mode pid) ms

/-- Python `max(samples, key=lambda i: i.timestamp)`: the first sample
with maximal timestamp (`max` keeps the incumbent unless a later item is
strictly greater); `none` models the `ValueError` of `max` on an empty
sequence. -/
def maxByTs : List Sample → Option Sample
  | [] => none
  | s :: rest =>
    some (rest.foldl (fun best x => if tsLt best.timestamp x.timestamp then x else best) s)

/-- The order `sorted(values.items())` uses on bucket items: by upper
bound (bounds within one dict are distinct, so the bound decides). -/
def bucketLe (p q : PFloat × PFloat) : Prop := PFloat.le p.1 q.1

instance : DecidableRel bucketLe := fun p q =>
  (inferInstance : Decidable (PFloat.le p.1 q.1))

instance : IsTotal (PFloat × PFloat) bucketLe := ⟨fun p q => PFloat.leTotal p.1 q.1⟩

instance : IsTrans (PFloat × PFloat) bucketLe :=
  ⟨fun _ _ _ h₁ h₂ => PFloat.leTrans h₁ h₂⟩

/-- `sorted(values.items())` of line 201. -/
def sortBuckets (l : List (PFloat × PFloat)) : List (PFloat × PFloat) :=
  List.insertionSort bucketLe l

/-- Lines 198-212: accumulate bucket values.  For each label group, walk
its buckets sorted by upper bound; with `accumulate` write the running
sum into the samples dict at the `_bucket` key and finally the total at
the `_count` key, otherwise write the raw per-bucket value. -/
def histAccumulate (accumulate : Bool) (mname : String)
    (samples : List ((String × List (String × String)) × PFloat))
    (buckets : List (List (String × String) × List (PFloat × PFloat))) :
    List ((String × List (String × String)) × PFloat) :=
  buckets.foldl (fun samples lv =>
    let sorted := sortBuckets lv.2
    let res := sorted.foldl
      (fun (p : List ((String × List (String × String)) × PFloat) × PFloat) bv =>
        let key := (mname ++ "_bucket", lv.1 ++ [("le", floatToGoString bv.1)])
        if accumulate then
          let acc := PFloat.add p.2 bv.2
          (alSet p.1 key acc, acc)
        else (alSet p.1 key bv.2, p.2))
      (samples, PFloat.fin 0)
    if accumulate then alSet res.1 (mname ++ "_count", lv.1) res.2 else res.1) samples

/-- Lines 162-194, one iteration of the sample loop for a non-`latest`
metric: fold the sample into the `samples` value dict (gauge modes
`min`/`max`/`livesum`/other, histogram buckets or pass-through, counter
and summary sums).  `float(l[1])` failing to parse is the `ValueError`. -/
def foldSample (mtype : String) (mmode : Option String)
    (st : List ((String × List (String × String)) × PFloat) ×
      List (List (String × String) × List (PFloat × PFloat)))
    (s : Sample) :
    Except MergeErr
      (List ((String × List (String × String)) × PFloat) ×
        List (List (String × String) × List (PFloat × PFloat))) :=
  let samples := st.1
  let buckets := st.2
  if mtype = "gauge" then
    let without_pid := s.labels.filter (fun l => l.1 ≠ "pid")
    if mmode = some "min" then
      match alGet samples (s.name, without_pid) with
      | some current =>
        if PFloat.lt s.value current
        then .ok (alSet samples (s.name, without_pid) s.value, buckets)
        else .ok (samples, buckets)
      | none => .ok (alSet samples (s.name, without_pid) s.value, buckets)
    else if mmode = some "max" then
      match alGet samples (s.name, without_pid) with
      | some current =>
        if PFloat.lt current s.value
        then .ok (alSet samples (s.name, without_pid) s.value, buckets)
        else .ok (samples, buckets)
      | none => .ok (alSet samples (s.name, without_pid) s.value, buckets)
    else if mmode = some "livesum" then
      .ok (alSet samples (s.name, without_pid)
        (PFloat.add (alGetD samples (s.name, without_pid) (.fin 0)) s.value), buckets)
    else
      .ok (alSet samples (s.name, s.labels) s.value, buckets)
  else if mtype = "histogram" then
    match (s.labels.filter (fun l => l.1 = "le")).mapM (fun l => pyFloat l.2) with
    | none => .error .valueError
    | some bucket =>
      match bucket with
      | b :: _ =>
        let without_le := s.labels.filter (fun l => l.1 ≠ "le")
        let bmap := alGetD buckets without_le []
        let bmap := alSet bmap b (PFloat.add (alGetD bmap b (.fin 0)) s.value)
        .ok (samples, alSet buckets without_le bmap)
      | [] =>
        .ok (alSet samples (s.name, s.labels)
          (PFloat.add (alGetD samples (s.name, s.labels) (.fin 0)) s.value), buckets)
  else
    .ok (alSet samples (s.name, s.labels)
      (PFloat.add (alGetD samples (s.name, s.labels) (.fin 0)) s.value), buckets)

/-- Lines 142-214, the post-pass over one metric.  Gauge `latest`: group
by `(name, labels minus pid)` and keep each group's sample of maximal
timestamp (timestamp retained).  Everything else: fold the samples into
value dicts, accumulate histogram buckets, and convert to `Sample`s with
no timestamp. -/
def postPass (accumulate : Bool) (metric : Metric) : Except MergeErr Metric :=
  if metric.type = "gauge" ∧ metric.mode = some "latest" then
    match maxByTs metric.samples with
    | none => .error .emptyMax
    | some _ =>
      let grouped := metric.samples.foldl (fun gs s =>
        let labels := alDel (pyDict s.labels) "pid"
        let key := (s.name, sortPairs labels)
        alSet gs key (alGetD gs key [] ++ [s])) []
      match grouped.foldlM (fun acc g =>
          match maxByTs g.2 with
          | none => Except.error MergeErr.emptyMax
          | some s => Except.ok (acc ++
              [{ name := g.1.1, labels := pyDict g.1.2, value := s.value,
                 timestamp := s.timestamp : Sample }])) ([] : List Sample) with
      | .error e => .error e
      | .ok samples => .ok { metric with samples := samples }
  else
    match metric.samples.foldlM (foldSample metric.type metric.mode) ([], []) with
    | .error e => .error e
    | .ok (samples, buckets) =>
      let samples := if metric.type = "histogram"
        then histAccumulate accumulate metric.name samples buckets
        else samples
      .ok { metric with samples := samples.map (fun kv =>
        { name := kv.1.1, labels := pyDict kv.1.2, value := kv.2,
          timestamp := none }) }

/-- Lines 86-215: `merge(files, accumulate)` — ingest every file, then
post-process every metric, in insertion order of metric names. -/
def merge (files : List MFile) (accumulate : Bool) : Except MergeErr (List Metric) :=
  match files.foldlM processFile [] with
  | .error e => .error e
  | .ok ms => ms.mapM (fun kv => postPass accumulate kv.2)

/-! ### Merge lemmas -/

theorem alKeys_alDel_sublist {α β : Type} [DecidableEq α] (l : List (α × β)) (k : α) :
    List.Sublist (alKeys (alDel l k)) (alKeys l) := by
  induction l with
  | nil => exact List.Sublist.refl _
  | cons p rest ih =>
    obtain ⟨a, b⟩ := p
    by_cases h : a = k
    · rw [alDel, if_pos h]
      exact List.sublist_cons_of_sublist a (List.Sublist.refl _)
    · rw [alDel, if_neg h]
      exact List.Sublist.cons₂ a ih

theorem alDel_keys_nodup {α β : Type} [DecidableEq α] {l : List (α × β)} (k : α)
    (hnd : (alKeys l).Nodup) : (alKeys (alDel l k)).Nodup :=
  hnd.sublist (alKeys_alDel_sublist l k)

theorem alGet_alDel_self {α β : Type} [DecidableEq α] (l : List (α × β)) (k : α)
    (hnd : (alKeys l).Nodup) : alGet (alDel l k) k = none := by
  induction l with
  | nil => rfl
  | cons p rest ih =>
    obtain ⟨a, b⟩ := p
    simp only [alKeys, List.map_cons, List.nodup_cons] at hnd
    by_cases h : a = k
    · rw [alDel, if_pos h]
      rw [alGet_eq_none_iff]
      intro hmem
      exact hnd.1 (h ▸ hmem)
    · rw [alDel, if_neg h, alGet, if_neg h]
      exact ih hnd.2

/-- Looking a key up in the sorted copy of a dict gives the dict's value. -/
theorem alGet_sortPairs (l : List (String × String)) (hnd : (alKeys l).Nodup)
    (k : String) : alGet (sortPairs l) k = alGet l k :=
  alGet_congr_perm (List.perm_insertionSort pairLe l)
    (((List.perm_insertionSort pairLe l).map Prod.fst).nodup_iff.mpr hnd) k

theorem sortPairs_keys_nodup {l : List (String × String)}
    (hnd : (alKeys l).Nodup) : (alKeys (sortPairs l)).Nodup :=
  ((List.perm_insertionSort pairLe l).map Prod.fst).nodup_iff.mpr hnd

/-- Closed form of the filename metadata of lines 97-100. -/
theorem fileMeta_eq (base : String) :
    fileMeta base =
      if (fileParts base).headD "" = "gauge" then
        match (fileParts base).get? 1 with
        | none => .error .indexError
        | some md => .ok ("gauge", some md,
            if truthyO (some md) ∧ 2 < (fileParts base).length
            then (fileParts base).get? 2 else none)
      else .ok ((fileParts base).headD "", none, none) := by
  simp only [fileMeta]
  by_cases hg : (fileParts base).headD "" = "gauge"
  · rw [if_pos hg, if_pos hg]
    cases (fileParts base).get? 1 with
    | none => rfl
    | some md =>
      simp only
      rw [hg]
  · rw [if_neg hg, if_neg hg]
    simp [truthyO]

theorem tsLt_irrefl (a : Option ℚ) : ¬ tsLt a a := by
  cases a <;> simp [tsLt]

theorem tsLt_trans {a b c : Option ℚ} (h₁ : tsLt a b) (h₂ : tsLt b c) : tsLt a c := by
  cases a <;> cases b <;> cases c <;> simp_all [tsLt]
  linarith

theorem tsLt_of_lt_of_nlt {a b c : Option ℚ} (h₁ : tsLt a b) (h₂ : ¬ tsLt c b) :
    tsLt a c := by
  cases a <;> cases b <;> cases c <;> simp_all [tsLt]
  linarith

/-- **C3** (counterexample to the spec): a counter file with a pid suffix
(`counter_123.db`, a live worker file) does not get a `pid` label — the
code computes a pid only for gauge filenames, so the ingested sample's
labels stay empty. -/
theorem C3_counterexample :
    processFile [] ⟨"counter_123.db", some [(mmap_key "c" "ct" [] [], .fin 1, none)]⟩ =
      .ok [("c", { name := "c", documentation := "Multiprocess metric",
                   type := "counter", mode := none,
                   samples := [{ name := "ct", labels := [], value := .fin 1,
                                 timestamp := none }] })] ∧
    alGet ([] : List (String × String)) "pid" = none := by
  constructor
  · rfl
  · rfl

/-- **C3** (amended): a pid is parsed from the filename only for gauge
files (`pid = parts[2] if multiprocess_mode and len(parts) > 2`), and
exactly when that pid is truthy the ingested sample's labels carry
`"pid" ↦ pid`; otherwise the labels keep whatever the key's label dict
held. -/
theorem C3_pid_gauge_only (base : String) (typ : String) (mode pid : Option String)
    (hmeta : fileMeta base = .ok (typ, mode, pid)) :
    (truthyO pid = true →
      typ = "gauge" ∧ 2 < (fileParts base).length ∧ pid = (fileParts base).get? 2) ∧
    (typ ≠ "gauge" → pid = none) ∧
    ∀ (ms ms' : List (String × Metric)) (e : String × PFloat × Option ℚ)
      (mn n : String) (labels0 : List (String × String)),
      parseKey e.1 = some (mn, n, labels0) →
      (alKeys labels0).Nodup →
      ingestEntry typ mode pid ms e = .ok ms' →
      ∃ m, alGet ms' mn = some m ∧
        ∃ s, m.samples.getLast? = some s ∧
          alGet s.labels "pid" =
            (if truthyO pid then some (pid.getD "") else alGet labels0 "pid") := by
  rw [fileMeta_eq] at hmeta
  have hmeta2 : (truthyO pid = true →
      typ = "gauge" ∧ 2 < (fileParts base).length ∧ pid = (fileParts base).get? 2) ∧
      (typ ≠ "gauge" → pid = none) := by
    by_cases hg : (fileParts base).headD "" = "gauge"
    · rw [if_pos hg] at hmeta
      cases h1 : (fileParts base).get? 1 with
      | none => rw [h1] at hmeta; exact absurd hmeta (by simp)
      | some md =>
        rw [h1] at hmeta
        simp only [Except.ok.injEq, Prod.mk.injEq] at hmeta
        obtain ⟨ht, hmo, hpi⟩ := hmeta
        constructor
        · intro htr
          refine ⟨ht.symm, ?_, ?_⟩
          · by_cases hc : truthyO (some md) ∧ 2 < (fileParts base).length
            · exact hc.2
            · rw [if_neg hc] at hpi
              rw [← hpi] at htr
              exact absurd htr (by simp [truthyO])
          · by_cases hc : truthyO (some md) ∧ 2 < (fileParts base).length
            · rw [if_pos hc] at hpi
              exact hpi.symm
            · rw [if_neg hc] at hpi
              rw [← hpi] at htr
              exact absurd htr (by simp [truthyO])
        · intro hne
          exact absurd ht.symm hne
    · rw [if_neg hg] at hmeta
      simp only [Except.ok.injEq, Prod.mk.injEq] at hmeta
      obtain ⟨ht, hmo, hpi⟩ := hmeta
      constructor
      · intro htr
        rw [← hpi] at htr
        exact absurd htr (by simp [truthyO])
      · intro _
        exact hpi.symm
  refine ⟨hmeta2.1, hmeta2.2, ?_⟩
  intro ms ms' e mn n labels0 hparse hnd hing
  simp only [ingestEntry, hparse] at hing
  simp only [Except.ok.injEq] at hing
  subst hing
  refine ⟨_, alGet_alSet_self _ _ _, ?_⟩
  refine ⟨_, List.getLast?_concat _, ?_⟩
  by_cases hp : truthyO pid = true
  · rw [if_pos hp, if_pos hp, alGet_sortPairs _ (alSet_keys_nodup hnd _ _),
      alGet_alSet_self]
  · rw [if_neg hp, if_neg hp]
    exact alGet_sortPairs _ hnd _

theorem C3_pid_gauge_only_witness :
    ∃ m, alGet [(("g" : String),
        ({ name := "g",
           documentation := "Multiprocess metric",
           type := "gauge",
           mode := some "max",
           samples := [{ name := "gs", labels := [("pid", "7")],
                         value := PFloat.fin 1, timestamp := none }] } : Metric))]
      "g" = some m ∧
      ∃ s, m.samples.getLast? = some s ∧
        alGet s.labels "pid" =
          (if truthyO (some "7") then some ((some "7").getD "")
           else alGet ([] : List (String × String)) "pid") :=
  (C3_pid_gauge_only "gauge_max_7.db" "gauge" (some "max") (some "7") rfl).2.2
    [] _ (mmap_key "g" "gs" [] [], .fin 1, none) "g" "gs" [] rfl List.nodup_nil rfl

/-- **C7.** A file of the input list that is missing at open time is
silently skipped (the metrics map is returned unchanged) if and only if
it is a gauge file of multiprocess mode `livesum` or `liveall`; a missing
file of any other type or mode makes the merge fail with the merge error
instead of returning a result. -/
theorem C7_missing_file (f : MFile) (hmiss : f.entries = none)
    (ms : List (String × Metric)) (typ : String) (mode pid : Option String)
    (hmeta : fileMeta f.base = .ok (typ, mode, pid)) :
    (processFile ms f = .ok ms ↔
      typ = "gauge" ∧ (mode = some "livesum" ∨ mode = some "liveall")) ∧
    (¬(typ = "gauge" ∧ (mode = some "livesum" ∨ mode = some "liveall")) →
      processFile ms f = .error (.mergeError f.base) ∧
      merge [f] true = .error (.mergeError f.base)) := by
  have hgen : ∀ ms₀ : List (String × Metric), processFile ms₀ f =
      if typ = "gauge" ∧ (mode = some "livesum" ∨ mode = some "liveall")
      then .ok ms₀ else .error (.mergeError f.base) := by
    intro ms₀
    simp only [processFile, hmeta, hmiss]
  constructor
  · rw [hgen ms]
    by_cases hc : typ = "gauge" ∧ (mode = some "livesum" ∨ mode = some "liveall")
    · rw [if_pos hc]
      simp [hc]
    · rw [if_neg hc]
      simp [hc]
  · intro hc
    have h0 : processFile [] f = .error (.mergeError f.base) := by
      rw [hgen [], if_neg hc]
    refine ⟨by rw [hgen ms, if_neg hc], ?_⟩
    simp [merge, List.foldlM, h0]

theorem C7_missing_file_witness :
    processFile [] (⟨"gauge_livesum_1.db", none⟩ : MFile) = .ok [] :=
  ((C7_missing_file ⟨"gauge_livesum_1.db", none⟩ rfl [] "gauge" (some "livesum")
    (some "1") rfl).1).mpr ⟨rfl, Or.inl rfl⟩

theorem maxByTs_foldl (rest : List Sample) :
    ∀ best : Sample,
      ((rest.foldl (fun b x => if tsLt b.timestamp x.timestamp then x else b) best) = best ∨
        (rest.foldl (fun b x => if tsLt b.timestamp x.timestamp then x else b) best) ∈ rest) ∧
      ¬ tsLt (rest.foldl (fun b x => if tsLt b.timestamp x.timestamp then x else b)
          best).timestamp best.timestamp ∧
      ∀ y ∈ rest,
        ¬ tsLt (rest.foldl (fun b x => if tsLt b.timestamp x.timestamp then x else b)
            best).timestamp y.timestamp := by
  induction rest with
  | nil =>
    intro best
    exact ⟨Or.inl rfl, tsLt_irrefl _, by intro y hy; simp at hy⟩
  | cons x rest ih =>
    intro best
    rw [List.foldl_cons]
    by_cases hbx : tsLt best.timestamp x.timestamp
    · rw [if_pos hbx]
      obtain ⟨hmem, hnb, hall⟩ := ih x
      refine ⟨?_, ?_, ?_⟩
      · rcases hmem with h | h
        · exact Or.inr (by rw [h]; exact List.mem_cons_self x rest)
        · exact Or.inr (List.mem_cons_of_mem x h)
      · intro hlt
        exact hnb (tsLt_trans hlt hbx)
      · intro y hy
        rcases List.mem_cons.mp hy with h | h
        · rw [h]
          exact hnb
        · exact hall y h
    · rw [if_neg hbx]
      obtain ⟨hmem, hnb, hall⟩ := ih best
      refine ⟨?_, hnb, ?_⟩
      · rcases hmem with h | h
        · exact Or.inl h
        · exact Or.inr (List.mem_cons_of_mem x h)
      · intro y hy
        rcases List.mem_cons.mp hy with h | h
        · rw [h]
          intro hlt
          exact hnb (tsLt_of_lt_of_nlt hlt hbx)
        · exact hall y h

/-- `max(samples, key=timestamp)` returns a member of maximal
timestamp. -/
theorem maxByTs_mem_max {l : List Sample} {s : Sample} (h : maxByTs l = some s) :
    s ∈ l ∧ ∀ x ∈ l, ¬ tsLt s.timestamp x.timestamp := by
  cases l with
  | nil => exact absurd h (by simp [maxByTs])
  | cons s₀ rest =>
    rw [maxByTs] at h
    injection h with h
    obtain ⟨hmem, hnb, hall⟩ := maxByTs_foldl rest s₀
    rw [h] at hmem hnb hall
    constructor
    · rcases hmem with h2 | h2
      · rw [h2]
        exact List.mem_cons_self _ _
      · exact List.mem_cons_of_mem _ h2
    · intro x hx
      rcases List.mem_cons.mp hx with h2 | h2
      · rw [h2]
        exact hnb
      · exact hall x h2

/-- The grouping fold of the `latest` branch: the group of a key is the
in-order list of samples with that key. -/
theorem foldl_groupBy {α κ : Type} [DecidableEq κ] (key : α → κ) (l : List α) (k : κ) :
    (l.filter (fun a => key a = k) = [] →
      alGet (l.foldl (fun gs a => alSet gs (key a) (alGetD gs (key a) [] ++ [a])) []) k = none) ∧
    (l.filter (fun a => key a = k) ≠ [] →
      alGet (l.foldl (fun gs a => alSet gs (key a) (alGetD gs (key a) [] ++ [a])) []) k =
        some (l.filter (fun a => key a = k))) := by
  induction l using List.reverseRecOn with
  | nil => exact ⟨fun _ => rfl, fun h => absurd rfl h⟩
  | append_singleton l a ih =>
    rw [List.foldl_append, List.foldl_cons, List.foldl_nil, List.filter_append]
    by_cases hk : key a = k
    · rw [show List.filter (fun x => decide (key x = k)) [a] = [a] by simp [hk]]
      constructor
      · intro he
        exact absurd he (by simp)
      · intro _
        rw [← hk] at ih ⊢
        rw [alGet_alSet_self]
        rw [show alGetD (l.foldl (fun gs a => alSet gs (key a) (alGetD gs (key a) [] ++ [a])) [])
            (key a) [] = l.filter (fun x => decide (key x = key a)) by
          rw [alGetD]
          by_cases hf : l.filter (fun x => decide (key x = key a)) = []
          · rw [ih.1 hf, hf]
            rfl
          · rw [ih.2 hf]
            rfl]
    · rw [show List.filter (fun x => decide (key x = k)) [a] = [] by simp [hk]]
      rw [List.append_nil, alGet_alSet_ne _ _ _ _ (by simpa using hk)]
      exact ih

theorem foldl_groupBy_nodup {α κ : Type} [DecidableEq κ] (key : α → κ) (l : List α) :
    (alKeys (l.foldl (fun gs a => alSet gs (key a) (alGetD gs (key a) [] ++ [a])) [])).Nodup := by
  suffices h : ∀ acc : List (κ × List α), (alKeys acc).Nodup →
      (alKeys (l.foldl (fun gs a => alSet gs (key a) (alGetD gs (key a) [] ++ [a])) acc)).Nodup by
    exact h [] (by simp [alKeys])
  induction l with
  | nil => intro acc h; exact h
  | cons a rest ih =>
    intro acc h
    exact ih _ (alSet_keys_nodup h _ _)

theorem collect_prefix (mkO : ((String × List (String × String)) × List Sample) → Sample → Sample) :
    ∀ (gl : List ((String × List (String × String)) × List Sample)) (acc out : List Sample),
      gl.foldlM (fun acc g =>
        match maxByTs g.2 with
        | none => Except.error MergeErr.emptyMax
        | some s => Except.ok (acc ++ [mkO g s])) acc = .ok out →
      ∃ suf, out = acc ++ suf := by
  intro gl
  induction gl with
  | nil =>
    intro acc out h
    simp only [List.foldlM] at h
    injection h with h
    exact ⟨[], by rw [h, List.append_nil]⟩
  | cons g gl ih =>
    intro acc out h
    simp only [List.foldlM] at h
    cases hmx : maxByTs g.2 with
    | none =>
      rw [hmx] at h
      exact Except.noConfusion h
    | some s =>
      rw [hmx] at h
      have h2 : gl.foldlM (fun acc g =>
          match maxByTs g.2 with
          | none => Except.error MergeErr.emptyMax
          | some s => Except.ok (acc ++ [mkO g s])) (acc ++ [mkO g s]) = .ok out := h
      obtain ⟨suf, hsuf⟩ := ih (acc ++ [mkO g s]) out h2
      exact ⟨[mkO g s] ++ suf, by rw [hsuf, List.append_assoc]⟩

theorem collect_mem (mkO : ((String × List (String × String)) × List Sample) → Sample → Sample) :
    ∀ (gl : List ((String × List (String × String)) × List Sample)) (acc out : List Sample),
      gl.foldlM (fun acc g =>
        match maxByTs g.2 with
        | none => Except.error MergeErr.emptyMax
        | some s => Except.ok (acc ++ [mkO g s])) acc = .ok out →
      ∀ s' ∈ out, s' ∈ acc ∨ ∃ g ∈ gl, ∃ s, maxByTs g.2 = some s ∧ s' = mkO g s := by
  intro gl
  induction gl with
  | nil =>
    intro acc out h s' hs'
    simp only [List.foldlM] at h
    injection h with h
    rw [← h] at hs'
    exact Or.inl hs'
  | cons g gl ih =>
    intro acc out h s' hs'
    simp only [List.foldlM] at h
    cases hmx : maxByTs g.2 with
    | none =>
      rw [hmx] at h
      exact Except.noConfusion h
    | some s =>
      rw [hmx] at h
      have h2 : gl.foldlM (fun acc g =>
          match maxByTs g.2 with
          | none => Except.error MergeErr.emptyMax
          | some s => Except.ok (acc ++ [mkO g s])) (acc ++ [mkO g s]) = .ok out := h
      rcases ih (acc ++ [mkO g s]) out h2 s' hs' with hin | ⟨g₂, hg₂, s₂, hmx₂, he₂⟩
      · rcases List.mem_append.mp hin with h2 | h2
        · exact Or.inl h2
        · rw [List.mem_singleton] at h2
          exact Or.inr ⟨g, List.mem_cons_self _ _, s, hmx, h2⟩
      · exact Or.inr ⟨g₂, List.mem_cons_of_mem _ hg₂, s₂, hmx₂, he₂⟩

theorem collect_surj (mkO : ((String × List (String × String)) × List Sample) → Sample → Sample) :
    ∀ (gl : List ((String × List (String × String)) × List Sample)) (acc out : List Sample),
      gl.foldlM (fun acc g =>
        match maxByTs g.2 with
        | none => Except.error MergeErr.emptyMax
        | some s => Except.ok (acc ++ [mkO g s])) acc = .ok out →
      ∀ g ∈ gl, ∃ s, maxByTs g.2 = some s ∧ mkO g s ∈ out := by
  intro gl
  induction gl with
  | nil =>
    intro acc out _ g hg
    simp at hg
  | cons g₀ gl ih =>
    intro acc out h g hg
    simp only [List.foldlM] at h
    cases hmx : maxByTs g₀.2 with
    | none =>
      rw [hmx] at h
      exact Except.noConfusion h
    | some s₀ =>
      rw [hmx] at h
      have h2 : gl.foldlM (fun acc g =>
          match maxByTs g.2 with
          | none => Except.error MergeErr.emptyMax
          | some s => Except.ok (acc ++ [mkO g s])) (acc ++ [mkO g₀ s₀]) = .ok out := h
      rcases List.mem_cons.mp hg with h3 | h3
      · obtain ⟨suf, hsuf⟩ := collect_prefix mkO gl (acc ++ [mkO g₀ s₀]) out h2
        refine ⟨s₀, by rw [h3]; exact hmx, ?_⟩
        rw [h3, hsuf]
        exact List.mem_append_left _ (List.mem_append_right _ (List.mem_singleton_self _))
      · exact ih (acc ++ [mkO g₀ s₀]) out h2 g h3

theorem collect_keys (mkO : ((String × List (String × String)) × List Sample) → Sample → Sample)
    (keyf : Sample → String × List (String × String))
    (hk : ∀ g s, keyf (mkO g s) = (g.1.1, pyDict g.1.2)) :
    ∀ (gl : List ((String × List (String × String)) × List Sample)) (acc out : List Sample),
      gl.foldlM (fun acc g =>
        match maxByTs g.2 with
        | none => Except.error MergeErr.emptyMax
        | some s => Except.ok (acc ++ [mkO g s])) acc = .ok out →
      out.map keyf = acc.map keyf ++ gl.map (fun g => (g.1.1, pyDict g.1.2)) := by
  intro gl
  induction gl with
  | nil =>
    intro acc out h
    simp only [List.foldlM] at h
    injection h with h
    rw [← h, List.map_nil, List.append_nil]
  | cons g gl ih =>
    intro acc out h
    simp only [List.foldlM] at h
    cases hmx : maxByTs g.2 with
    | none =>
      rw [hmx] at h
      exact Except.noConfusion h
    | some s =>
      rw [hmx] at h
      have h2 : gl.foldlM (fun acc g =>
          match maxByTs g.2 with
          | none => Except.error MergeErr.emptyMax
          | some s => Except.ok (acc ++ [mkO g s])) (acc ++ [mkO g s]) = .ok out := h
      rw [ih (acc ++ [mkO g s]) out h2, List.map_append, List.map_cons]
      simp [hk]

/-- The output sample the `latest` branch emits for a group (line 156). -/
def latestSample (g : (String × List (String × String)) × List Sample)
    (s : Sample) : Sample :=
  { name := g.1.1, labels := pyDict g.1.2, value := s.value, timestamp := s.timestamp }

/-- Full behaviour of the gauge-`latest` post-pass: every output sample
is its group's first member of maximal timestamp (value and timestamp
retained, labels sorted and stripped of `pid`), every input group is
represented, and there is exactly one output sample per group. -/
theorem postPass_latest_spec {accumulate : Bool} {metric m' : Metric}
    (htyp : metric.type = "gauge") (hmode : metric.mode = some "latest")
    (h : postPass accumulate metric = .ok m') :
    (∀ s' ∈ m'.samples,
      ∃ s, s ∈ metric.samples ∧
        s'.name = s.name ∧
        s'.labels = pyDict (sortPairs (alDel (pyDict s.labels) "pid")) ∧
        s'.value = s.value ∧ s'.timestamp = s.timestamp ∧
        ∀ s₂ ∈ metric.samples,
          (s₂.name, sortPairs (alDel (pyDict s₂.labels) "pid")) =
            (s.name, sortPairs (alDel (pyDict s.labels) "pid")) →
          ¬ tsLt s.timestamp s₂.timestamp) ∧
    (∀ s ∈ metric.samples, ∃ s' ∈ m'.samples,
      s'.name = s.name ∧
      s'.labels = pyDict (sortPairs (alDel (pyDict s.labels) "pid"))) ∧
    (m'.samples.map (fun s' => (s'.name, s'.labels))).Nodup := by
  simp only [postPass] at h
  rw [if_pos ⟨htyp, hmode⟩] at h
  split at h
  · exact Except.noConfusion h
  split at h
  · exact Except.noConfusion h
  next out hcol =>
  injection h with h
  subst h
  set G := metric.samples.foldl (fun gs s =>
    alSet gs (s.name, sortPairs (alDel (pyDict s.labels) "pid"))
      (alGetD gs (s.name, sortPairs (alDel (pyDict s.labels) "pid")) [] ++ [s]))
    ([] : List ((String × List (String × String)) × List Sample)) with hG
  have hGnd : (alKeys G).Nodup := by
    rw [hG]
    exact foldl_groupBy_nodup
      (fun s : Sample => (s.name, sortPairs (alDel (pyDict s.labels) "pid")))
      metric.samples
  have hmemG : ∀ g ∈ G,
      g.2 = metric.samples.filter
        (fun s => (s.name, sortPairs (alDel (pyDict s.labels) "pid")) = g.1) ∧
      g.2 ≠ [] := by
    intro g hg
    have halg : alGet G g.1 = some g.2 := (alGet_some_iff_mem hGnd g.1 g.2).mpr hg
    have hgb := foldl_groupBy
      (fun s : Sample => (s.name, sortPairs (alDel (pyDict s.labels) "pid")))
      metric.samples g.1
    by_cases hf : metric.samples.filter
        (fun s => (s.name, sortPairs (alDel (pyDict s.labels) "pid")) = g.1) = []
    · rw [hG] at halg
      rw [hgb.1 hf] at halg
      exact absurd halg (by simp)
    · rw [hG] at halg
      rw [hgb.2 hf] at halg
      injection halg with halg
      exact ⟨halg.symm, by rw [← halg]; exact hf⟩
  have hkeyG : ∀ g ∈ G, pyDict g.1.2 = g.1.2 := by
    intro g hg
    obtain ⟨hfil, hne⟩ := hmemG g hg
    obtain ⟨s, hs⟩ := List.exists_mem_of_ne_nil g.2 hne
    rw [hfil] at hs
    have hkey : (s.name, sortPairs (alDel (pyDict s.labels) "pid")) = g.1 :=
      of_decide_eq_true (List.mem_filter.mp hs).2
    rw [← hkey]
    exact pyDict_eq_self_of_nodup _
      (sortPairs_keys_nodup (alDel_keys_nodup _ (pyDict_keys_nodup _)))
  refine ⟨?_, ?_, ?_⟩
  · intro s' hs'
    have hs2 : s' ∈ out := hs'
    rcases collect_mem latestSample G [] out hcol s' hs2 with
      hin | ⟨g, hgG, smax, hmx, he⟩
    · simp at hin
    · obtain ⟨hfil, _⟩ := hmemG g hgG
      obtain ⟨hsm, hmax⟩ := maxByTs_mem_max hmx
      rw [hfil] at hsm hmax
      have hsmem : smax ∈ metric.samples := (List.mem_filter.mp hsm).1
      have hkey : (smax.name, sortPairs (alDel (pyDict smax.labels) "pid")) = g.1 :=
        of_decide_eq_true (List.mem_filter.mp hsm).2
      refine ⟨smax, hsmem, ?_, ?_, ?_, ?_, ?_⟩
      · rw [he]
        show g.1.1 = smax.name
        rw [← hkey]
      · rw [he]
        show pyDict g.1.2 = pyDict (sortPairs (alDel (pyDict smax.labels) "pid"))
        rw [← hkey]
      · rw [he]
        rfl
      · rw [he]
        rfl
      · intro s₂ hs₂ hk₂
        refine hmax s₂ (List.mem_filter.mpr ⟨hs₂, decide_eq_true ?_⟩)
        rw [hk₂, hkey]
  · intro s hs
    have hfmem : s ∈ metric.samples.filter
        (fun x => (x.name, sortPairs (alDel (pyDict x.labels) "pid")) =
          (s.name, sortPairs (alDel (pyDict s.labels) "pid"))) :=
      List.mem_filter.mpr ⟨hs, decide_eq_true rfl⟩
    have hne : metric.samples.filter
        (fun x => (x.name, sortPairs (alDel (pyDict x.labels) "pid")) =
          (s.name, sortPairs (alDel (pyDict s.labels) "pid"))) ≠ [] :=
      List.ne_nil_of_mem hfmem
    have halg : alGet G (s.name, sortPairs (alDel (pyDict s.labels) "pid")) =
        some (metric.samples.filter
          (fun x => (x.name, sortPairs (alDel (pyDict x.labels) "pid")) =
            (s.name, sortPairs (alDel (pyDict s.labels) "pid")))) := by
      rw [hG]
      exact (foldl_groupBy
        (fun x : Sample => (x.name, sortPairs (alDel (pyDict x.labels) "pid")))
        metric.samples _).2 hne
    have hgmem := (alGet_some_iff_mem hGnd _ _).mp halg
    obtain ⟨smax, hmx, hout⟩ := collect_surj latestSample G [] out hcol _ hgmem
    exact ⟨_, hout, rfl, rfl⟩
  · have hkeys := collect_keys latestSample
      (fun s' => (s'.name, s'.labels)) (fun g s => rfl) G [] out hcol
    rw [List.map_nil, List.nil_append] at hkeys
    have hsame : G.map (fun g => (g.1.1, pyDict g.1.2)) = G.map Prod.fst := by
      refine List.map_congr_left ?_
      intro g hg
      rw [hkeyG g hg]
    show (out.map (fun s' => (s'.name, s'.labels))).Nodup
    rw [hkeys, hsame]
    exact hGnd

theorem pyDict_sortPairs_alDel (s : Sample) :
    pyDict (sortPairs (alDel (pyDict s.labels) "pid")) =
      sortPairs (alDel (pyDict s.labels) "pid") :=
  pyDict_eq_self_of_nodup _
    (sortPairs_keys_nodup (alDel_keys_nodup _ (pyDict_keys_nodup _)))

/-- **C6.** For a gauge metric of multiprocess mode `latest`, the
post-pass groups the samples by `(sample name, labels without pid)` and
emits exactly one sample per group, carrying the value and timestamp of
the group member with the largest timestamp, with the `pid` label
removed. -/
theorem C6_gauge_latest (accumulate : Bool) (metric m' : Metric)
    (htyp : metric.type = "gauge") (hmode : metric.mode = some "latest")
    (h : postPass accumulate metric = .ok m') :
    (m'.samples.map (fun s' => (s'.name, s'.labels))).Nodup ∧
    (∀ s' ∈ m'.samples,
      alGet s'.labels "pid" = none ∧
      ∃ s, s ∈ metric.samples ∧
        s'.name = s.name ∧
        s'.labels = sortPairs (alDel (pyDict s.labels) "pid") ∧
        s'.value = s.value ∧ s'.timestamp = s.timestamp ∧
        ∀ s₂ ∈ metric.samples,
          (s₂.name, sortPairs (alDel (pyDict s₂.labels) "pid")) =
            (s.name, sortPairs (alDel (pyDict s.labels) "pid")) →
          ¬ tsLt s.timestamp s₂.timestamp) ∧
    (∀ s ∈ metric.samples, ∃ s' ∈ m'.samples,
      s'.name = s.name ∧ s'.labels = sortPairs (alDel (pyDict s.labels) "pid")) := by
  obtain ⟨h1, h2, h3⟩ := postPass_latest_spec htyp hmode h
  refine ⟨h3, ?_, ?_⟩
  · intro s' hs'
    obtain ⟨s, hsmem, hname, hlab, hv, ht, hmax⟩ := h1 s' hs'
    rw [pyDict_sortPairs_alDel] at hlab
    refine ⟨?_, s, hsmem, hname, hlab, hv, ht, hmax⟩
    rw [hlab, alGet_sortPairs _ (alDel_keys_nodup _ (pyDict_keys_nodup _)),
      alGet_alDel_self _ _ (pyDict_keys_nodup _)]
  · intro s hs
    obtain ⟨s', hs', hname, hlab⟩ := h2 s hs
    rw [pyDict_sortPairs_alDel] at hlab
    exact ⟨s', hs', hname, hlab⟩

/-- A one-sample gauge-`latest` metric and its post-pass output. -/
def latestExampleIn : Metric :=
  { name := "g", documentation := "d", type := "gauge", mode := some "latest",
    samples := [{ name := "g", labels := [("pid", "1")], value := .fin 2,
                  timestamp := some 3 }] }

def latestExampleOut : Metric :=
  { name := "g", documentation := "d", type := "gauge", mode := some "latest",
    samples := [{ name := "g", labels := [], value := .fin 2, timestamp := some 3 }] }

theorem C6_gauge_latest_witness :
    (latestExampleOut.samples.map (fun s' => (s'.name, s'.labels))).Nodup ∧
    (∀ s' ∈ latestExampleOut.samples,
      alGet s'.labels "pid" = none ∧
      ∃ s, s ∈ latestExampleIn.samples ∧
        s'.name = s.name ∧
        s'.labels = sortPairs (alDel (pyDict s.labels) "pid") ∧
        s'.value = s.value ∧ s'.timestamp = s.timestamp ∧
        ∀ s₂ ∈ latestExampleIn.samples,
          (s₂.name, sortPairs (alDel (pyDict s₂.labels) "pid")) =
            (s.name, sortPairs (alDel (pyDict s.labels) "pid")) →
          ¬ tsLt s.timestamp s₂.timestamp) ∧
    (∀ s ∈ latestExampleIn.samples, ∃ s' ∈ latestExampleOut.samples,
      s'.name = s.name ∧ s'.labels = sortPairs (alDel (pyDict s.labels) "pid")) :=
  C6_gauge_latest true latestExampleIn latestExampleOut rfl rfl rfl

/-- **C10.** Every sample emitted by the post-pass for a metric that is
not a gauge of mode `latest` carries no timestamp, regardless of the
stored input timestamps; for a gauge of mode `latest` every emitted
sample retains the timestamp of one of its input samples. -/
theorem C10_timestamps (accumulate : Bool) (metric m' : Metric)
    (h : postPass accumulate metric = .ok m') :
    (¬(metric.type = "gauge" ∧ metric.mode = some "latest") →
      ∀ s ∈ m'.samples, s.timestamp = none) ∧
    ((metric.type = "gauge" ∧ metric.mode = some "latest") →
      ∀ s' ∈ m'.samples, ∃ s ∈ metric.samples, s'.timestamp = s.timestamp) := by
  constructor
  · intro hc s hs
    simp only [postPass] at h
    rw [if_neg hc] at h
    split at h
    · exact Except.noConfusion h
    injection h with h
    subst h
    obtain ⟨kv, _, hkv⟩ := List.mem_map.mp hs
    rw [← hkv]
  · intro hc s' hs'
    obtain ⟨h1, _, _⟩ := postPass_latest_spec hc.1 hc.2 h
    obtain ⟨s, hsmem, _, _, _, ht, _⟩ := h1 s' hs'
    exact ⟨s, hsmem, ht⟩

/-- A one-sample gauge-`all` metric and its post-pass output (the stored
timestamp is dropped). -/
def gaugeAllExampleIn : Metric :=
  { name := "g", documentation := "d", type := "gauge", mode := some "all",
    samples := [{ name := "g", labels := [("pid", "1")], value := .fin 2,
                  timestamp := some 5 }] }

def gaugeAllExampleOut : Metric :=
  { name := "g", documentation := "d", type := "gauge", mode := some "all",
    samples := [{ name := "g", labels := [("pid", "1")], value := .fin 2,
                  timestamp := none }] }

/-- Running prefix sums of a bucket list (`acc += value; samples[...] =
acc` of lines 206-208), keyed by the same bounds. -/
def prefixSums (a : PFloat) : List (PFloat × PFloat) → List (PFloat × PFloat)
  | [] => []
  | p :: rest => (p.1, PFloat.add a p.2) :: prefixSums (PFloat.add a p.2) rest

/-- The accumulator after the bucket loop. -/
def lastAcc (a : PFloat) (l : List (PFloat × PFloat)) : PFloat :=
  l.foldl (fun acc p => PFloat.add acc p.2) a

theorem PFloat.zero_add (v : PFloat) : PFloat.add (.fin 0) v = v := by
  cases v <;> simp [PFloat.add]

theorem PFloat.le_add_nonneg {v : PFloat} (h : PFloat.le (.fin 0) v) (a : PFloat) :
    PFloat.le a (PFloat.add a v) := by
  cases a <;> cases v <;> simp_all [PFloat.le, PFloat.add]

theorem PFloat.inf_le_iff (x : PFloat) : PFloat.le .inf x ↔ x = .inf := by
  cases x <;> simp [PFloat.le]

theorem prefixSums_map_fst (a : PFloat) (l : List (PFloat × PFloat)) :
    (prefixSums a l).map Prod.fst = l.map Prod.fst := by
  induction l generalizing a with
  | nil => rfl
  | cons p rest ih =>
    rw [prefixSums, List.map_cons, List.map_cons, ih]

theorem prefixSums_getLast (l : List (PFloat × PFloat)) :
    ∀ a, (prefixSums a l).getLast? =
      (l.getLast?).map (fun p => (p.1, lastAcc a l)) := by
  induction l with
  | nil => intro a; rfl
  | cons p rest ih =>
    intro a
    cases rest with
    | nil => rfl
    | cons q rest2 =>
      have hT : prefixSums (PFloat.add a p.2) (q :: rest2) =
          (q.1, PFloat.add (PFloat.add a p.2) q.2) ::
            prefixSums (PFloat.add (PFloat.add a p.2) q.2) rest2 := rfl
      show ((p.1, PFloat.add a p.2) ::
        prefixSums (PFloat.add a p.2) (q :: rest2)).getLast? = _
      calc ((p.1, PFloat.add a p.2) :: prefixSums (PFloat.add a p.2) (q :: rest2)).getLast?
          = (prefixSums (PFloat.add a p.2) (q :: rest2)).getLast? := by
            rw [hT, List.getLast?_cons_cons]
        _ = ((q :: rest2).getLast?).map
            (fun x => (x.1, lastAcc (PFloat.add a p.2) (q :: rest2))) :=
            ih (PFloat.add a p.2)
        _ = ((p :: q :: rest2).getLast?).map
            (fun x => (x.1, lastAcc a (p :: q :: rest2))) := by
            rw [List.getLast?_cons_cons]
            rfl

theorem prefixSums_chain (l : List (PFloat × PFloat))
    (hnn : ∀ v ∈ l.map Prod.snd, PFloat.le (.fin 0) v) :
    ∀ a, List.Chain' PFloat.le ((prefixSums a l).map Prod.snd) ∧
      ∀ x ∈ ((prefixSums a l).map Prod.snd).head?, PFloat.le a x := by
  induction l with
  | nil => intro a; exact ⟨List.chain'_nil, by intro x hx; simp [prefixSums] at hx⟩
  | cons p rest ih =>
    intro a
    have hnn2 : ∀ v ∈ rest.map Prod.snd, PFloat.le (.fin 0) v := by
      intro v hv
      exact hnn v (by rw [List.map_cons]; exact List.mem_cons_of_mem _ hv)
    have hp : PFloat.le (.fin 0) p.2 := hnn p.2 (by simp)
    obtain ⟨hch, hhd⟩ := ih hnn2 (PFloat.add a p.2)
    rw [prefixSums, List.map_cons]
    constructor
    · rw [List.chain'_cons']
      exact ⟨hhd, hch⟩
    · intro x hx
      rw [List.head?_cons, Option.mem_def] at hx
      injection hx with hx
      rw [← hx]
      exact PFloat.le_add_nonneg hp a

/-- In a list sorted by bound that mentions the `+Inf` bound, the last
element carries the `+Inf` bound. -/
theorem sorted_inf_last (l : List (PFloat × PFloat))
    (hs : List.Pairwise (fun p q : PFloat × PFloat => PFloat.le p.1 q.1) l)
    (hinf : PFloat.inf ∈ l.map Prod.fst) :
    ∃ v, l.getLast? = some (.inf, v) := by
  induction l with
  | nil => simp at hinf
  | cons p rest ih =>
    rw [List.pairwise_cons] at hs
    rw [List.map_cons, List.mem_cons] at hinf
    cases hr : rest with
    | nil =>
      rw [hr] at hinf
      simp only [List.map_nil, List.not_mem_nil, or_false] at hinf
      refine ⟨p.2, ?_⟩
      rw [List.getLast?_singleton]
      exact congrArg some (show p = ((PFloat.inf : PFloat), p.2) from Prod.ext hinf.symm rfl)
    | cons q rest2 =>
      rcases hinf with h1 | h2
      · have hq : PFloat.le p.1 q.1 := hs.1 q (by rw [hr]; exact List.mem_cons_self _ _)
        rw [← h1] at hq
        have hq2 : q.1 = .inf := (PFloat.inf_le_iff q.1).mp hq
        have hmem : PFloat.inf ∈ rest.map Prod.fst := by
          rw [hr, List.map_cons, ← hq2]
          exact List.mem_cons_self _ _
        obtain ⟨v, hv⟩ := ih hs.2 hmem
        rw [hr] at hv
        refine ⟨v, ?_⟩
        rw [List.getLast?_cons_cons]
        exact hv
      · obtain ⟨v, hv⟩ := ih hs.2 h2
        rw [hr] at hv
        refine ⟨v, ?_⟩
        rw [List.getLast?_cons_cons]
        exact hv

/-- `floatToGoString` separates bounds that parse back to themselves. -/
theorem floatToGoString_inj_roundtrip {b b₂ : PFloat}
    (h1 : pyFloat (floatToGoString b) = some b)
    (h2 : pyFloat (floatToGoString b₂) = some b₂)
    (hne : b ≠ b₂) : floatToGoString b ≠ floatToGoString b₂ := by
  intro he
  rw [he, h2] at h1
  injection h1 with h1
  exact hne h1.symm

theorem filter_le_of_bucket_labels (wle : List (String × String))
    (hwle : ∀ p ∈ wle, p.1 ≠ "le") (x : String) :
    (wle ++ [("le", x)]).filter (fun l => l.1 = "le") = [("le", x)] ∧
    (wle ++ [("le", x)]).filter (fun l => l.1 ≠ "le") = wle := by
  constructor
  · rw [List.filter_append]
    have h1 : wle.filter (fun l => decide (l.1 = "le")) = [] := by
      rw [List.filter_eq_nil]
      intro p hp
      simp [hwle p hp]
    rw [h1, List.nil_append]
    simp
  · rw [List.filter_append]
    have h1 : wle.filter (fun l => decide (l.1 ≠ "le")) = wle := by
      rw [List.filter_eq_self]
      intro p hp
      simp [hwle p hp]
    have h2 : ([(("le" : String), x)]).filter (fun l => decide (l.1 ≠ "le")) = [] := by
      simp
    rw [h1, h2, List.append_nil]

/-- One step of the sample loop on a histogram bucket sample (lines
182-188). -/
theorem foldSample_bucket (mmode : Option String) (sname : String)
    (wle : List (String × String)) (hwle : ∀ p ∈ wle, p.1 ≠ "le")
    (b v : PFloat) (hb : pyFloat (floatToGoString b) = some b) (ts : Option ℚ)
    (samples : List ((String × List (String × String)) × PFloat))
    (buckets : List (List (String × String) × List (PFloat × PFloat))) :
    foldSample "histogram" mmode (samples, buckets)
      { name := sname, labels := wle ++ [("le", floatToGoString b)], value := v,
        timestamp := ts } =
      .ok (samples, alSet buckets wle
        (alSet (alGetD buckets wle []) b
          (PFloat.add (alGetD (alGetD buckets wle []) b (.fin 0)) v))) := by
  obtain ⟨hf1, hf2⟩ := filter_le_of_bucket_labels wle hwle (floatToGoString b)
  simp only [foldSample]
  rw [if_neg (show ¬(("histogram" : String) = "gauge") by decide)]
  rw [if_pos trivial]
  rw [hf1]
  rw [show ([(("le" : String), floatToGoString b)]).mapM (fun l => pyFloat l.2) =
    some [b] by rw [List.mapM_cons, hb, List.mapM_nil]; rfl]
  simp only
  rw [hf2]

/-- The whole sample loop over a single-group list of bucket samples:
the state stays `(samples, one bucket dict for the group)`, and each
fresh bound appends its (zero-based) sum. -/
theorem histFold_inputs (mmode : Option String) (sname : String)
    (tsf : PFloat × PFloat → Option ℚ) (wle : List (String × String))
    (hwle : ∀ p ∈ wle, p.1 ≠ "le") :
    ∀ (rest : List (PFloat × PFloat)) (cur : List (PFloat × PFloat))
      (samples : List ((String × List (String × String)) × PFloat)),
      (rest.map Prod.fst).Nodup →
      (∀ b ∈ rest.map Prod.fst, pyFloat (floatToGoString b) = some b) →
      (∀ b ∈ rest.map Prod.fst, b ∉ alKeys cur) →
      (rest.map (fun p =>
        ({ name := sname,
           labels := wle ++ [("le", floatToGoString p.1)],
           value := p.2,
           timestamp := tsf p } : Sample))).foldlM
        (foldSample "histogram" mmode) (samples, [(wle, cur)]) =
      .ok (samples, [(wle, cur ++ rest.map (fun p => (p.1, PFloat.add (.fin 0) p.2)))]) := by
  intro rest
  induction rest with
  | nil =>
    intro cur samples _ _ _
    simp only [List.map_nil, List.foldlM, List.append_nil]
    rfl
  | cons p rest ih =>
    intro cur samples hnd hrd hks
    have hk : p.1 ∉ alKeys cur := hks p.1 (by simp)
    have hstep := foldSample_bucket mmode sname wle hwle p.1 p.2
      (hrd p.1 (by simp)) (tsf p) samples [(wle, cur)]
    have h1 : alGetD [(wle, cur)] wle [] = cur := by
      simp [alGetD, alGet]
    rw [h1] at hstep
    have h2 : alGetD cur p.1 (PFloat.fin 0) = .fin 0 := by
      rw [alGetD, (alGet_eq_none_iff cur p.1).mpr hk]
      rfl
    rw [h2] at hstep
    have h3 : alSet cur p.1 (PFloat.add (.fin 0) p.2) =
        cur ++ [(p.1, PFloat.add (.fin 0) p.2)] :=
      alSet_eq_append_of_not_mem _ _ _ hk
    rw [h3] at hstep
    have h4 : alSet [(wle, cur)] wle (cur ++ [(p.1, PFloat.add (.fin 0) p.2)]) =
        [(wle, cur ++ [(p.1, PFloat.add (.fin 0) p.2)])] := by
      simp [alSet]
    rw [h4] at hstep
    rw [List.map_cons]
    simp only [List.foldlM]
    rw [hstep]
    have hrec := ih (cur ++ [(p.1, PFloat.add (.fin 0) p.2)]) samples
      (by simpa using hnd.of_cons)
      (fun b hb => hrd b (by simp [hb]))
      (by
        intro b hb
        have hb1 : b ∉ alKeys cur := hks b (by simp [hb])
        have hb2 : b ≠ p.1 := by
          intro he
          rw [List.map_cons, List.nodup_cons] at hnd
          exact hnd.1 (he ▸ hb)
        simp only [alKeys, List.map_append, List.mem_append]
        intro hcase
        rcases hcase with hc | hc
        · exact hb1 hc
        · simp at hc
          exact hb2 hc)
    rw [show (p :: rest).map (fun p => (p.1, PFloat.add (.fin 0) p.2)) =
      (p.1, PFloat.add (.fin 0) p.2) :: rest.map (fun p => (p.1, PFloat.add (.fin 0) p.2))
      from List.map_cons _ _ _]
    rw [show cur ++ (p.1, PFloat.add (.fin 0) p.2) ::
        rest.map (fun p => (p.1, PFloat.add (.fin 0) p.2)) =
      (cur ++ [(p.1, PFloat.add (.fin 0) p.2)]) ++
        rest.map (fun p => (p.1, PFloat.add (.fin 0) p.2)) by
      rw [List.append_assoc, List.singleton_append]]
    exact hrec

/-- The bucket loop of lines 201-210 with `accumulate=true`: walking the
sorted buckets appends the prefix-sum samples in order and ends with the
total in the accumulator. -/
theorem histAccLoopTrue (mname : String) (wle : List (String × String)) :
    ∀ (l : List (PFloat × PFloat))
      (samples0 : List ((String × List (String × String)) × PFloat)) (a0 : PFloat),
      (l.map Prod.fst).Nodup →
      (∀ b ∈ l.map Prod.fst, pyFloat (floatToGoString b) = some b) →
      (∀ b ∈ l.map Prod.fst,
        ((mname ++ "_bucket" : String), wle ++ [(("le" : String), floatToGoString b)]) ∉
          alKeys samples0) →
      l.foldl (fun (p : List ((String × List (String × String)) × PFloat) × PFloat) bv =>
          (alSet p.1 (mname ++ "_bucket", wle ++ [("le", floatToGoString bv.1)])
            (PFloat.add p.2 bv.2), PFloat.add p.2 bv.2)) (samples0, a0) =
        (samples0 ++ (prefixSums a0 l).map
          (fun p => ((mname ++ "_bucket", wle ++ [("le", floatToGoString p.1)]), p.2)),
         lastAcc a0 l) := by
  intro l
  induction l with
  | nil =>
    intro samples0 a0 _ _ _
    simp only [List.foldl_nil, prefixSums, List.map_nil, List.append_nil]
    rfl
  | cons bv l ih =>
    intro samples0 a0 hnd hrd hfr
    rw [List.foldl_cons]
    have hkey : ((mname ++ "_bucket" : String),
        wle ++ [(("le" : String), floatToGoString bv.1)]) ∉ alKeys samples0 :=
      hfr bv.1 (by simp)
    rw [show alSet samples0 (mname ++ "_bucket", wle ++ [("le", floatToGoString bv.1)])
        (PFloat.add a0 bv.2) =
      samples0 ++ [((mname ++ "_bucket", wle ++ [("le", floatToGoString bv.1)]),
        PFloat.add a0 bv.2)] from alSet_eq_append_of_not_mem _ _ _ hkey]
    have hrec := ih (samples0 ++ [((mname ++ "_bucket",
        wle ++ [("le", floatToGoString bv.1)]), PFloat.add a0 bv.2)])
      (PFloat.add a0 bv.2)
      (by simpa using hnd.of_cons)
      (fun b hb => hrd b (by simp [hb]))
      (by
        intro b hb
        have hb1 : ((mname ++ "_bucket" : String),
            wle ++ [(("le" : String), floatToGoString b)]) ∉ alKeys samples0 :=
          hfr b (by simp [hb])
        have hb2 : b ≠ bv.1 := by
          intro he
          rw [List.map_cons, List.nodup_cons] at hnd
          exact hnd.1 (he ▸ hb)
        have hb3 : floatToGoString b ≠ floatToGoString bv.1 :=
          floatToGoString_inj_roundtrip (hrd b (by simp [hb])) (hrd bv.1 (by simp)) hb2
        simp only [alKeys, List.map_append, List.mem_append]
        intro hcase
        rcases hcase with hc | hc
        · exact hb1 hc
        · simp only [List.map_cons, List.map_nil, List.mem_singleton] at hc
          have hc2 := congrArg (fun q : String × List (String × String) => q.2) hc
          simp only at hc2
          have hc3 := List.append_cancel_left hc2
          injection hc3 with hc4 _
          exact hb3 (congrArg Prod.snd hc4))
    rw [hrec]
    rw [show prefixSums a0 (bv :: l) =
      (bv.1, PFloat.add a0 bv.2) :: prefixSums (PFloat.add a0 bv.2) l from rfl]
    rw [List.map_cons]
    rw [show lastAcc a0 (bv :: l) = lastAcc (PFloat.add a0 bv.2) l from rfl]
    rw [List.append_assoc, List.singleton_append]

/-- The bucket loop with `accumulate=false`: raw per-bucket values are
written and the accumulator never moves. -/
theorem histAccLoopFalse (mname : String) (wle : List (String × String)) :
    ∀ (l : List (PFloat × PFloat))
      (samples0 : List ((String × List (String × String)) × PFloat)) (a0 : PFloat),
      (l.map Prod.fst).Nodup →
      (∀ b ∈ l.map Prod.fst, pyFloat (floatToGoString b) = some b) →
      (∀ b ∈ l.map Prod.fst,
        ((mname ++ "_bucket" : String), wle ++ [(("le" : String), floatToGoString b)]) ∉
          alKeys samples0) →
      l.foldl (fun (p : List ((String × List (String × String)) × PFloat) × PFloat) bv =>
          (alSet p.1 (mname ++ "_bucket", wle ++ [("le", floatToGoString bv.1)]) bv.2,
           p.2)) (samples0, a0) =
        (samples0 ++ l.map
          (fun p => ((mname ++ "_bucket", wle ++ [("le", floatToGoString p.1)]), p.2)),
         a0) := by
  intro l
  induction l with
  | nil =>
    intro samples0 a0 _ _ _
    simp only [List.foldl_nil, List.map_nil, List.append_nil]
  | cons bv l ih =>
    intro samples0 a0 hnd hrd hfr
    rw [List.foldl_cons]
    have hkey : ((mname ++ "_bucket" : String),
        wle ++ [(("le" : String), floatToGoString bv.1)]) ∉ alKeys samples0 :=
      hfr bv.1 (by simp)
    rw [show alSet samples0 (mname ++ "_bucket", wle ++ [("le", floatToGoString bv.1)])
        bv.2 =
      samples0 ++ [((mname ++ "_bucket", wle ++ [("le", floatToGoString bv.1)]), bv.2)]
      from alSet_eq_append_of_not_mem _ _ _ hkey]
    have hrec := ih (samples0 ++ [((mname ++ "_bucket",
        wle ++ [("le", floatToGoString bv.1)]), bv.2)]) a0
      (by simpa using hnd.of_cons)
      (fun b hb => hrd b (by simp [hb]))
      (by
        intro b hb
        have hb1 : ((mname ++ "_bucket" : String),
            wle ++ [(("le" : String), floatToGoString b)]) ∉ alKeys samples0 :=
          hfr b (by simp [hb])
        have hb2 : b ≠ bv.1 := by
          intro he
          rw [List.map_cons, List.nodup_cons] at hnd
          exact hnd.1 (he ▸ hb)
        have hb3 : floatToGoString b ≠ floatToGoString bv.1 :=
          floatToGoString_inj_roundtrip (hrd b (by simp [hb])) (hrd bv.1 (by simp)) hb2
        simp only [alKeys, List.map_append, List.mem_append]
        intro hcase
        rcases hcase with hc | hc
        · exact hb1 hc
        · simp only [List.map_cons, List.map_nil, List.mem_singleton] at hc
          have hc2 := congrArg (fun q : String × List (String × String) => q.2) hc
          simp only at hc2
          have hc3 := List.append_cancel_left hc2
          injection hc3 with hc4 _
          exact hb3 (congrArg Prod.snd hc4))
    rw [hrec, List.map_cons, List.append_assoc, List.singleton_append]

theorem bucket_name_ne_count (mname : String) :
    mname ++ "_bucket" ≠ mname ++ "_count" := by
  intro h
  have h2 := congrArg String.length h
  rw [String.length_append, String.length_append] at h2
  have hb : ("_bucket" : String).length = 7 := rfl
  have hc : ("_count" : String).length = 6 := rfl
  omega

theorem map_add_zero (l : List (PFloat × PFloat)) :
    l.map (fun p => (p.1, PFloat.add (.fin 0) p.2)) = l := by
  induction l with
  | nil => rfl
  | cons p rest ih =>
    rw [List.map_cons, PFloat.zero_add, ih, Prod.mk.eta]

/-- The sample loop on a single-group histogram turns the sample list
into one bucket dict carrying the per-bound values. -/
theorem histFold_group (mmode : Option String) (sname : String)
    (tsf : PFloat × PFloat → Option ℚ) (wle : List (String × String))
    (hwle : ∀ p ∈ wle, p.1 ≠ "le")
    (inputs : List (PFloat × PFloat)) (hne : inputs ≠ [])
    (hnd : (inputs.map Prod.fst).Nodup)
    (hrd : ∀ b ∈ inputs.map Prod.fst, pyFloat (floatToGoString b) = some b) :
    (inputs.map (fun p =>
      ({ name := sname,
         labels := wle ++ [("le", floatToGoString p.1)],
         value := p.2,
         timestamp := tsf p } : Sample))).foldlM
      (foldSample "histogram" mmode) ([], []) = .ok ([], [(wle, inputs)]) := by
  cases inputs with
  | nil => exact absurd rfl hne
  | cons p0 rest0 =>
    rw [List.map_cons]
    simp only [List.foldlM]
    have hstep0 : foldSample "histogram" mmode ([], [])
        { name := sname, labels := wle ++ [("le", floatToGoString p0.1)],
          value := p0.2, timestamp := tsf p0 } =
        .ok ([], [(wle, [(p0.1, PFloat.add (.fin 0) p0.2)])]) :=
      foldSample_bucket mmode sname wle hwle p0.1 p0.2 (hrd p0.1 (by simp)) (tsf p0) [] []
    rw [hstep0]
    have hrest := histFold_inputs mmode sname tsf wle hwle rest0
      [(p0.1, PFloat.add (.fin 0) p0.2)] []
      (by simpa using hnd.of_cons)
      (fun b hb => hrd b (by simp [hb]))
      (by
        intro b hb
        simp only [alKeys, List.map_cons, List.map_nil, List.mem_singleton]
        intro he
        rw [List.map_cons, List.nodup_cons] at hnd
        exact hnd.1 (he ▸ hb))
    rw [show ([(p0.1, PFloat.add (.fin 0) p0.2)] : List (PFloat × PFloat)) ++
        rest0.map (fun p => (p.1, PFloat.add (.fin 0) p.2)) =
      (p0 :: rest0).map (fun p => (p.1, PFloat.add (.fin 0) p.2)) by
        rw [List.map_cons, List.singleton_append]] at hrest
    rw [map_add_zero] at hrest
    exact hrest

/-- The bucket accumulation on a single group with `accumulate=true`. -/
theorem histAccumulate_group_true (mname : String) (wle : List (String × String))
    (inputs : List (PFloat × PFloat))
    (hnd : (inputs.map Prod.fst).Nodup)
    (hrd : ∀ b ∈ inputs.map Prod.fst, pyFloat (floatToGoString b) = some b) :
    histAccumulate true mname [] [(wle, inputs)] =
      (prefixSums (.fin 0) (sortBuckets inputs)).map
        (fun p => ((mname ++ "_bucket", wle ++ [("le", floatToGoString p.1)]), p.2)) ++
      [((mname ++ "_count", wle), lastAcc (.fin 0) (sortBuckets inputs))] := by
  have hperm := List.perm_insertionSort bucketLe inputs
  have hndS : ((sortBuckets inputs).map Prod.fst).Nodup :=
    ((hperm.map Prod.fst).nodup_iff).mpr hnd
  have hrdS : ∀ b ∈ (sortBuckets inputs).map Prod.fst,
      pyFloat (floatToGoString b) = some b :=
    fun b hb => hrd b ((hperm.map Prod.fst).mem_iff.mp hb)
  simp only [histAccumulate, List.foldl_cons, List.foldl_nil, eq_self_iff_true, if_true]
  rw [histAccLoopTrue mname wle (sortBuckets inputs) [] (.fin 0) hndS hrdS
    (by intro b hb; simp [alKeys])]
  simp only [List.nil_append]
  rw [alSet_eq_append_of_not_mem _ _ _ (by
    intro hmem
    simp only [alKeys, List.map_map, List.mem_map] at hmem
    obtain ⟨p, _, hp⟩ := hmem
    have h2 := congrArg Prod.fst hp
    simp only [Function.comp] at h2
    exact bucket_name_ne_count mname h2)]

/-- The bucket accumulation on a single group with `accumulate=false`:
raw values, no `_count` key. -/
theorem histAccumulate_group_false (mname : String) (wle : List (String × String))
    (inputs : List (PFloat × PFloat))
    (hnd : (inputs.map Prod.fst).Nodup)
    (hrd : ∀ b ∈ inputs.map Prod.fst, pyFloat (floatToGoString b) = some b) :
    histAccumulate false mname [] [(wle, inputs)] =
      (sortBuckets inputs).map
        (fun p => ((mname ++ "_bucket", wle ++ [("le", floatToGoString p.1)]), p.2)) := by
  have hperm := List.perm_insertionSort bucketLe inputs
  have hndS : ((sortBuckets inputs).map Prod.fst).Nodup :=
    ((hperm.map Prod.fst).nodup_iff).mpr hnd
  have hrdS : ∀ b ∈ (sortBuckets inputs).map Prod.fst,
      pyFloat (floatToGoString b) = some b :=
    fun b hb => hrd b ((hperm.map Prod.fst).mem_iff.mp hb)
  simp only [histAccumulate, List.foldl_cons, List.foldl_nil, Bool.false_eq_true,
    if_false]
  rw [histAccLoopFalse mname wle (sortBuckets inputs) [] (.fin 0) hndS hrdS
    (by intro b hb; simp [alKeys])]
  simp only [List.nil_append]


/-- The `_bucket` sample emitted for a bucket of a label group. -/
def bucketSample (mname : String) (wle : List (String × String))
    (p : PFloat × PFloat) : Sample :=
  { name := mname ++ "_bucket", labels := pyDict (wle ++ [("le", floatToGoString p.1)]),
    value := p.2, timestamp := none }

/-- The `_count` sample emitted for a label group. -/
def countSample (mname : String) (wle : List (String × String))
    (total : PFloat) : Sample :=
  { name := mname ++ "_count", labels := pyDict wle, value := total, timestamp := none }

/-- **C2.** For a histogram whose samples form one label group of
distinct parseable bucket bounds including `+Inf`: with `accumulate=true`
the post-pass emits the `_bucket` samples as running prefix sums in
ascending bound order followed by a `_count` sample equal to the final
accumulated value — the `+Inf` bucket's emitted value — and (for
non-negative inputs) the emitted bucket values are monotonically
non-decreasing; with `accumulate=false` the raw per-bucket values are
emitted and no `_count` sample exists. -/
theorem C2_histogram_accumulate (metric : Metric) (sname : String)
    (wle : List (String × String)) (inputs : List (PFloat × PFloat))
    (tsf : PFloat × PFloat → Option ℚ)
    (htyp : metric.type = "histogram")
    (hwle : ∀ p ∈ wle, p.1 ≠ "le")
    (hsamples : metric.samples = inputs.map (fun p =>
      ({ name := sname,
         labels := wle ++ [("le", floatToGoString p.1)],
         value := p.2,
         timestamp := tsf p } : Sample)))
    (hnd : (inputs.map Prod.fst).Nodup)
    (hrd : ∀ b ∈ inputs.map Prod.fst, pyFloat (floatToGoString b) = some b)
    (hne : inputs ≠ [])
    (hinf : PFloat.inf ∈ inputs.map Prod.fst) :
    ∃ total,
      (prefixSums (.fin 0) (sortBuckets inputs)).getLast? = some (.inf, total) ∧
      postPass true metric = .ok
        { metric with
          samples :=
            (prefixSums (.fin 0) (sortBuckets inputs)).map
              (bucketSample metric.name wle) ++
            [countSample metric.name wle total] } ∧
      ((∀ v ∈ inputs.map Prod.snd, PFloat.le (.fin 0) v) →
        List.Chain' PFloat.le
          ((prefixSums (.fin 0) (sortBuckets inputs)).map Prod.snd)) ∧
      List.Pairwise bucketLe (sortBuckets inputs) ∧
      postPass false metric = .ok
        { metric with
          samples := (sortBuckets inputs).map (bucketSample metric.name wle) } ∧
      (∀ s ∈ (sortBuckets inputs).map (bucketSample metric.name wle),
        s.name ≠ metric.name ++ "_count") := by
  have hperm := List.perm_insertionSort bucketLe inputs
  have hpair : List.Pairwise bucketLe (sortBuckets inputs) :=
    List.sorted_insertionSort bucketLe inputs
  have hinfS : PFloat.inf ∈ (sortBuckets inputs).map Prod.fst :=
    (hperm.map Prod.fst).mem_iff.mpr hinf
  obtain ⟨v0, hlast⟩ := sorted_inf_last (sortBuckets inputs) hpair hinfS
  have hnle : ¬(metric.type = "gauge" ∧ metric.mode = some "latest") := by
    rw [htyp]
    simp
  have hfold := histFold_group metric.mode sname tsf wle hwle inputs hne hnd hrd
  refine ⟨lastAcc (.fin 0) (sortBuckets inputs), ?_, ?_, ?_, hpair, ?_, ?_⟩
  · rw [prefixSums_getLast, hlast]
    rfl
  · simp only [postPass]
    rw [if_neg hnle, htyp, hsamples, hfold]
    simp only
    rw [if_pos trivial]
    rw [histAccumulate_group_true metric.name wle inputs hnd hrd]
    rw [List.map_append, List.map_map]
    rfl
  · intro hnn
    have hnnS : ∀ v ∈ (sortBuckets inputs).map Prod.snd, PFloat.le (.fin 0) v :=
      fun v hv => hnn v ((hperm.map Prod.snd).mem_iff.mp hv)
    exact (prefixSums_chain _ hnnS (.fin 0)).1
  · simp only [postPass]
    rw [if_neg hnle, htyp, hsamples, hfold]
    simp only
    rw [if_pos trivial]
    rw [histAccumulate_group_false metric.name wle inputs hnd hrd]
    rw [List.map_map]
    rfl
  · intro s hs
    rw [List.mem_map] at hs
    obtain ⟨p, _, hp⟩ := hs
    rw [← hp]
    exact bucket_name_ne_count metric.name

/-- A two-bucket histogram input for exercising the accumulate pass:
bounds `1.0` and `+Inf`, each with per-bucket sum `0.0`. -/
def histExampleInputs : List (PFloat × PFloat) :=
  [(.fin 1, .fin 0), (.inf, .fin 0)]

/-- The histogram metric holding the samples of `histExampleInputs`
(no extra labels besides `le`). -/
def histExampleMetric : Metric :=
  { name := "h", documentation := "d", type := "histogram", mode := none,
    samples :=
      [{ name := "h_bucket", labels := [("le", "1.0")], value := .fin 0,
         timestamp := none },
       { name := "h_bucket", labels := [("le", "+Inf")], value := .fin 0,
         timestamp := none }] }

theorem C2_histogram_accumulate_witness :
    ∃ total,
      (prefixSums (.fin 0) (sortBuckets histExampleInputs)).getLast? =
        some (.inf, total) ∧
      postPass true histExampleMetric = .ok
        { histExampleMetric with
          samples :=
            (prefixSums (.fin 0) (sortBuckets histExampleInputs)).map
              (bucketSample histExampleMetric.name []) ++
            [countSample histExampleMetric.name [] total] } ∧
      ((∀ v ∈ histExampleInputs.map Prod.snd, PFloat.le (.fin 0) v) →
        List.Chain' PFloat.le
          ((prefixSums (.fin 0) (sortBuckets histExampleInputs)).map Prod.snd)) ∧
      List.Pairwise bucketLe (sortBuckets histExampleInputs) ∧
      postPass false histExampleMetric = .ok
        { histExampleMetric with
          samples :=
            (sortBuckets histExampleInputs).map
              (bucketSample histExampleMetric.name []) } ∧
      (∀ s ∈ (sortBuckets histExampleInputs).map
          (bucketSample histExampleMetric.name []),
        s.name ≠ histExampleMetric.name ++ "_count") :=
  C2_histogram_accumulate histExampleMetric "h_bucket" [] histExampleInputs
    (fun _ => none)
    rfl
    (fun p hp => absurd hp (List.not_mem_nil p))
    rfl
    (by decide)
    (by
      intro b hb
      have hb2 : b ∈ [PFloat.fin 1, PFloat.inf] := hb
      rcases List.mem_cons.mp hb2 with h1 | h2
      · rw [h1]
        exact pyFloat_image_roundtrip (show pyFloat "1" = some (.fin 1) from rfl)
      · rw [List.mem_singleton.mp h2]
        exact pyFloat_image_roundtrip (show pyFloat "+Inf" = some .inf from rfl))
    (by decide)
    (show PFloat.inf ∈ [PFloat.fin 1, PFloat.inf] from
      List.mem_cons_of_mem _ (List.mem_cons_self _ _))

theorem C10_timestamps_witness :
    (¬(gaugeAllExampleIn.type = "gauge" ∧ gaugeAllExampleIn.mode = some "latest") →
      ∀ s ∈ gaugeAllExampleOut.samples, s.timestamp = none) ∧
    ((gaugeAllExampleIn.type = "gauge" ∧ gaugeAllExampleIn.mode = some "latest") →
      ∀ s' ∈ gaugeAllExampleOut.samples, ∃ s ∈ gaugeAllExampleIn.samples,
        s'.timestamp = s.timestamp) :=
  C10_timestamps true gaugeAllExampleIn gaugeAllExampleOut (by rfl)

end Prom
